import Mathlib

/-!
# Verification of `queue.c` (lab0-c)

A shallow embedding of the queue operations of `src/queue.c` over an explicit
heap, and theorems about them.

* A pointer is a natural number, `NULL` is `0`.
* A heap maps the address of a `struct list_head` to its `next` and `prev`
  fields, and to the string held by the `element_t` that contains it
  (`list_entry(p, element_t, list)->value`).
* Every access through `NULL` is a fault, every loop whose termination depends
  on the heap runs on fuel.
* C `int` counters (`q_size`, the loop counters) are natural numbers: a ring is
  assumed to hold fewer than `2^31` elements.
-/

namespace Queue

/-- Address of a `struct list_head`. -/
abbrev Ptr := Nat

/-- The null pointer. -/
abbrev NULL : Ptr := 0

/-- Content of a C string: its bytes (as `unsigned char`), without the terminator. -/
abbrev Str := List Nat

/-- Ways an execution can fail to produce a result. -/
inductive Err where
  | null_deref
  | out_of_fuel
  | out_of_bounds
  deriving DecidableEq

/-- Memory as seen by `queue.c`. `released` logs the elements handed to
`q_release_element`, oldest first. -/
structure Heap where
  next : Ptr → Ptr
  prev : Ptr → Ptr
  value : Ptr → Str
  released : List Ptr

/-- Result of running a piece of C code. -/
abbrev Res (α : Type) := Except Err α

/-- Read `p->next`. -/
def Heap.getNext (h : Heap) (p : Ptr) : Res Ptr :=
  if p = NULL then .error .null_deref else .ok (h.next p)

/-- Read `p->prev`. -/
def Heap.getPrev (h : Heap) (p : Ptr) : Res Ptr :=
  if p = NULL then .error .null_deref else .ok (h.prev p)

/-- Read `list_entry(p, element_t, list)->value` (the string it points to). -/
def Heap.getValue (h : Heap) (p : Ptr) : Res Str :=
  if p = NULL then .error .null_deref else .ok (h.value p)

/-- Write `p->next = v`. -/
def Heap.setNext (h : Heap) (p v : Ptr) : Res Heap :=
  if p = NULL then .error .null_deref
  else .ok { h with next := fun q => if q = p then v else h.next q }

/-- Write `p->prev = v`. -/
def Heap.setPrev (h : Heap) (p v : Ptr) : Res Heap :=
  if p = NULL then .error .null_deref
  else .ok { h with prev := fun q => if q = p then v else h.prev q }

/-- Write `list_entry(p, element_t, list)->value = v`, where `v` points to a
string of content `s` owned by the element. -/
def Heap.setValue (h : Heap) (p : Ptr) (s : Str) : Res Heap :=
  if p = NULL then .error .null_deref
  else .ok { h with value := fun q => if q = p then s else h.value q }

/-- A caller-supplied output buffer: its bytes; its length is its capacity. -/
abbrev Buf := List Nat

/-- Number of values of `size_t` (a 64-bit platform). -/
def SIZE_MOD : Nat := 2 ^ 64

/-- The `size_t` expression `bufsize - 1`, which wraps around at `bufsize = 0`. -/
def size_pred (bufsize : Nat) : Nat := (bufsize + SIZE_MOD - 1) % SIZE_MOD

/-- C library `strncpy(dest, src, n)`: writes exactly `n` bytes to `dest`, the
bytes of `src` followed by zero bytes when `src` is shorter than `n` (no
terminator when it is not). Writing past the end of `dest` is a fault. -/
def strncpy (dest : Buf) (src : Str) (n : Nat) : Res Buf :=
  if n ≤ dest.length then .ok ((List.range n).map (fun i => src.getD i 0) ++ dest.drop n)
  else .error .out_of_bounds

/-- The store `sp[i] = b`. Writing past the end of the buffer is a fault. -/
def Buf.store (sp : Buf) (i b : Nat) : Res Buf :=
  if i < sp.length then .ok (sp.set i b) else .error .out_of_bounds

/-- C library `strcmp` on terminator-free byte strings: negative, zero or
positive as the first string is lexicographically (byte-wise, unsigned) less
than, equal to or greater than the second. Only the sign is specified by C; the
model returns `-1`, `0` or `1`. -/
def strcmp : Str → Str → Int
  | [], [] => 0
  | [], _ :: _ => -1
  | _ :: _, [] => 1
  | a :: as, b :: bs => if a < b then -1 else if b < a then 1 else strcmp as bs

/-! ## `list.h` -/

/-- Modelled from the spec: `list.h` is not among the sources. `INIT_LIST_HEAD`
links the sentinel to itself, which makes the empty ring. -/
def INIT_LIST_HEAD (h : Heap) (head : Ptr) : Res Heap := do
  let h ← h.setNext head head
  h.setPrev head head

/-- Modelled from the spec: `list.h` is not among the sources. `list_del`
unlinks `node`, restoring the invariant around the gap; the node's own links
are left as they were (no poisoning). -/
def list_del (h : Heap) (node : Ptr) : Res Heap := do
  let next ← h.getNext node
  let prev ← h.getPrev node
  let h ← h.setPrev next prev
  h.setNext prev next

/-- Modelled from the spec: `list.h` is not among the sources. `list_add`
links `node` immediately after `head`. -/
def list_add (h : Heap) (node head : Ptr) : Res Heap := do
  let next ← h.getNext head
  let h ← h.setPrev next node
  let h ← h.setNext node next
  let h ← h.setPrev node head
  h.setNext head node

/-- Modelled from the spec: `list.h` is not among the sources. `list_add_tail`
links `node` immediately before `head`, that is at the tail of the ring. -/
def list_add_tail (h : Heap) (node head : Ptr) : Res Heap := do
  let prev ← h.getPrev head
  let h ← h.setNext prev node
  let h ← h.setNext node head
  let h ← h.setPrev node prev
  h.setPrev head node

/-- Modelled from the spec: `list.h` is not among the sources. `list_move_tail`
is `list_del` followed by `list_add_tail` (the move-to-tail operation). -/
def list_move_tail (h : Heap) (node head : Ptr) : Res Heap := do
  let h ← list_del h node
  list_add_tail h node head

/-! ## `queue.c` -/

/-- `q_new`. `q` is what `malloc` returned, `NULL` when it failed. -/
def q_new (h : Heap) (q : Ptr) : Res (Heap × Ptr) :=
  if q = NULL then pure (h, NULL)
  else do
    let h ← INIT_LIST_HEAD h q
    pure (h, q)

/-- `q_insert_head`: the final heap and the returned `bool`. `e` is what `malloc`
returned for the element (the address of its `list` member, `NULL` when it
failed) and `dup` tells whether `strdup` succeeded. When `strdup` fails the
fresh element is freed again at once: it was never linked and the heap is as
before. -/
def q_insert_head (h : Heap) (head : Ptr) (s : Str) (e : Ptr) (dup : Bool) :
    Res (Heap × Bool) :=
  if head = NULL then pure (h, false)
  else if e = NULL then pure (h, false)
  else if dup = false then pure (h, false)
  else do
    let h ← h.setValue e s
    let h ← list_add h e head
    pure (h, true)

/-- `q_insert_tail`: as `q_insert_head`, linking with `list_add_tail`. -/
def q_insert_tail (h : Heap) (head : Ptr) (s : Str) (e : Ptr) (dup : Bool) :
    Res (Heap × Bool) :=
  if head = NULL then pure (h, false)
  else if e = NULL then pure (h, false)
  else if dup = false then pure (h, false)
  else do
    let h ← h.setValue e s
    let h ← list_add_tail h e head
    pure (h, true)

/-- The copy into the output buffer done by `q_remove_head` and `q_remove_tail`
when `sp` is not `NULL`: `strncpy(sp, e->value, bufsize - 1)` and then
`sp[bufsize - 1] = 0`, both in `size_t` arithmetic. -/
def copy_out (h : Heap) (e : Ptr) (sp : Buf) (bufsize : Nat) : Res Buf := do
  let v ← h.getValue e
  let sp ← strncpy sp v (size_pred bufsize)
  sp.store (size_pred bufsize) 0

/-- `q_remove_head`: the final heap, the returned element (`NULL` for none) and
the output buffer afterwards. `sp` is `none` for a `NULL` buffer pointer.
`list_first_entry` is from `list.h`: the element at `head->next`. -/
def q_remove_head (h : Heap) (head : Ptr) (sp : Option Buf) (bufsize : Nat) :
    Res (Heap × Ptr × Option Buf) :=
  if head = NULL then pure (h, NULL, sp)
  else do
    let first ← h.getNext head
    if first = head then pure (h, NULL, sp)
    else do
      let e ← h.getNext head
      let h ← list_del h e
      match sp with
      | none => pure (h, e, none)
      | some buf => do
        let buf ← copy_out h e buf bufsize
        pure (h, e, some buf)

/-- `q_remove_tail`: as `q_remove_head` on the element at `head->prev`
(`list_last_entry`). -/
def q_remove_tail (h : Heap) (head : Ptr) (sp : Option Buf) (bufsize : Nat) :
    Res (Heap × Ptr × Option Buf) :=
  if head = NULL then pure (h, NULL, sp)
  else do
    let first ← h.getNext head
    if first = head then pure (h, NULL, sp)
    else do
      let e ← h.getPrev head
      let h ← list_del h e
      match sp with
      | none => pure (h, e, none)
      | some buf => do
        let buf ← copy_out h e buf bufsize
        pure (h, e, some buf)

/-- `q_release_element`: frees the string and the element. -/
def q_release_element (h : Heap) (e : Ptr) : Res Heap := do
  let _ ← h.getValue e
  pure { h with released := h.released ++ [e] }

/-- The `list_for_each` loop of `q_size`, `lh` being the cursor and `i` the count.
The macro is from `list.h`, which is not among the sources; it is taken as
`for (lh = head->next; lh != head; lh = lh->next)`. -/
def q_size_loop : Nat → Heap → Ptr → Ptr → Nat → Res Nat
  | 0, _, _, _, _ => .error .out_of_fuel
  | fuel + 1, h, head, lh, i =>
    if lh = head then pure i
    else do
      let lh ← h.getNext lh
      q_size_loop fuel h head lh (i + 1)

/-- `q_size`. -/
def q_size (fuel : Nat) (h : Heap) (head : Ptr) : Res Nat :=
  if head = NULL then pure 0
  else do
    let lh ← h.getNext head
    q_size_loop fuel h head lh 0

/-- The cursor loop of `q_delete_mid`; returns `slow` at loop exit. -/
def q_delete_mid_loop : Nat → Heap → Ptr → Ptr → Ptr → Res Ptr
  | 0, _, _, _, _ => .error .out_of_fuel
  | fuel + 1, h, head, fast, slow => do
    let tail ← h.getPrev head
    if fast = tail then pure slow
    else do
      let fn ← h.getNext fast
      let tail ← h.getPrev head
      if fn = tail then pure slow
      else do
        let fn ← h.getNext fast
        let fast ← h.getNext fn
        let slow ← h.getNext slow
        q_delete_mid_loop fuel h head fast slow

/-- `q_delete_mid`: the final heap and the returned `bool`. -/
def q_delete_mid (fuel : Nat) (h : Heap) (head : Ptr) : Res (Heap × Bool) := do
  let fast ← h.getNext head
  let slow ← h.getNext head
  let slow ← q_delete_mid_loop fuel h head fast slow
  let sp ← h.getPrev slow
  let sn ← h.getNext slow
  let h ← h.setNext sp sn
  let sn ← h.getNext slow
  let sp ← h.getPrev slow
  let h ← h.setPrev sn sp
  let h ← q_release_element h slow
  pure (h, true)

/-- Body of the loop of `q_delete_dup` at element `pos`: the heap and the flag
`used` after it. -/
def q_delete_dup_body (h : Heap) (head pos : Ptr) (used : Bool) : Res (Heap × Bool) := do
  let pn ← h.getNext pos
  let dup ← (if pn ≠ head then do
      let a ← h.getValue pos
      let b ← h.getValue pn
      pure (decide (strcmp a b = 0))
    else pure false)
  if dup then do
    let h ← list_del h pos
    let h ← q_release_element h pos
    pure (h, true)
  else if used then do
    let h ← list_del h pos
    let h ← q_release_element h pos
    pure (h, false)
  else pure (h, used)

/-- The `list_for_each_entry_safe` loop of `q_delete_dup`, with cursor `pos`
and saved successor `n`. The macro is from `list.h`, which is not among the
sources; it is taken as the traversal that stops when `pos` is back at `head`
and steps by `pos = n, n = n->next`, so that the body may unlink `pos`. -/
def q_delete_dup_loop : Nat → Heap → Ptr → Ptr → Ptr → Bool → Res Heap
  | 0, _, _, _, _, _ => .error .out_of_fuel
  | fuel + 1, h, head, pos, n, used =>
    if pos = head then pure h
    else do
      let (h, used) ← q_delete_dup_body h head pos used
      let n' ← h.getNext n
      q_delete_dup_loop fuel h head n n' used

/-- `q_delete_dup`: the final heap and the returned `bool`. -/
def q_delete_dup (fuel : Nat) (h : Heap) (head : Ptr) : Res (Heap × Bool) :=
  if head = NULL then pure (h, false)
  else do
    let pos ← h.getNext head
    let n ← h.getNext pos
    let h ← q_delete_dup_loop fuel h head pos n false
    pure (h, true)

/-- The `for` loop of `q_swap`, `i` being its counter. -/
def q_swap_loop : Nat → Heap → Ptr → Res Heap
  | 0, h, _ => pure h
  | i + 1, h, head => do
    let a ← h.getNext head
    let b ← h.getNext a
    let h ← list_move_tail h b head
    let a ← h.getNext head
    let h ← list_move_tail h a head
    q_swap_loop i h head

/-- `q_swap`. -/
def q_swap (fuel : Nat) (h : Heap) (head : Ptr) : Res Heap := do
  let sz ← q_size fuel h head
  let odd := decide (sz &&& 1 ≠ 0)
  let sz ← q_size fuel h head
  let h ← q_swap_loop (sz >>> 1) h head
  if odd then do
    let a ← h.getNext head
    list_move_tail h a head
  else pure h

/-- The `for` loop of `q_reverse`, running while its counter `i` exceeds `1`. -/
def q_reverse_loop : Nat → Heap → Ptr → Ptr → Res Heap
  | 0, h, _, _ => pure h
  | 1, h, _, _ => pure h
  | i + 2, h, head, pos => do
    let p ← h.getPrev pos
    let h ← list_move_tail h p head
    q_reverse_loop (i + 1) h head pos

/-- `q_reverse`. -/
def q_reverse (fuel : Nat) (h : Heap) (head : Ptr) : Res Heap :=
  if head = NULL then pure h
  else do
    let a ← h.getNext head
    let b ← h.getNext a
    if b = head then pure h
    else do
      let pos ← h.getPrev head
      let sz ← q_size fuel h head
      q_reverse_loop sz h head pos

/-- The fast/slow loop of `mergesort`; returns `slow` at loop exit. -/
def mergesort_split : Nat → Heap → Ptr → Ptr → Res Ptr
  | 0, _, _, _ => .error .out_of_fuel
  | fuel + 1, h, fast, slow => do
    let fn ← h.getNext fast
    if fn = NULL then pure slow
    else do
      let fnn ← h.getNext fn
      if fnn = NULL then pure slow
      else do
        let fn ← h.getNext fast
        let fast ← h.getNext fn
        let slow ← h.getNext slow
        mergesort_split fuel h fast slow

/-- The assignment `tmp->next = v` of `mergesort`, where `tmp` is either the
address of the local `t_head` (`none`) or a node of the heap. The local
`t_head.next` is carried as `th`. -/
def assign_tmp_next (h : Heap) (th : Ptr) (tmp : Option Ptr) (v : Ptr) : Res (Heap × Ptr) :=
  match tmp with
  | none => pure (h, v)
  | some p => do
    let h ← h.setNext p v
    pure (h, th)

/-- The `while (l1 && l2)` loop of `mergesort`; returns the heap, `t_head.next`,
`tmp`, `l1` and `l2` at loop exit. -/
def mergesort_merge : Nat → Heap → Ptr → Option Ptr → Ptr → Ptr →
    Res (Heap × Ptr × Option Ptr × Ptr × Ptr)
  | 0, _, _, _, _, _ => .error .out_of_fuel
  | fuel + 1, h, th, tmp, l1, l2 =>
    if l1 ≠ NULL ∧ l2 ≠ NULL then do
      let a ← h.getValue l1
      let b ← h.getValue l2
      if strcmp a b > 0 then do
        let (h, th) ← assign_tmp_next h th tmp l2
        let l2' ← h.getNext l2
        mergesort_merge fuel h th (some l2) l1 l2'
      else do
        let (h, th) ← assign_tmp_next h th tmp l1
        let l1' ← h.getNext l1
        mergesort_merge fuel h th (some l1) l1' l2
    else pure (h, th, tmp, l1, l2)

/-- `mergesort`: the final heap and the returned pointer. The local `t_head` is
uninitialised in C; every path writes `t_head.next` before it is read, the
model starts it at `NULL`. -/
def mergesort : Nat → Heap → Ptr → Res (Heap × Ptr)
  | 0, _, _ => .error .out_of_fuel
  | fuel + 1, h, node =>
    if node = NULL then pure (h, node)
    else do
      let nn ← h.getNext node
      if nn = NULL then pure (h, node)
      else do
        let slow ← mergesort_split (fuel + 1) h node node
        let fast ← h.getNext slow
        let h ← h.setNext slow NULL
        let (h, l1) ← mergesort fuel h node
        let (h, l2) ← mergesort fuel h fast
        let (h, th, tmp, l1, l2) ← mergesort_merge (fuel + 1) h NULL none l1 l2
        let (h, th) ← (if l1 ≠ NULL then assign_tmp_next h th tmp l1
          else assign_tmp_next h th tmp l2)
        pure (h, th)

/-- The `while (i->next != NULL)` loop of `q_sort`; returns the heap and `i` at
loop exit. -/
def q_sort_relink : Nat → Heap → Ptr → Res (Heap × Ptr)
  | 0, _, _ => .error .out_of_fuel
  | fuel + 1, h, i => do
    let n ← h.getNext i
    if n ≠ NULL then do
      let n ← h.getNext i
      let h ← h.setPrev n i
      let i ← h.getNext i
      q_sort_relink fuel h i
    else pure (h, i)

/-- `q_sort`. -/
def q_sort (fuel : Nat) (h : Heap) (head : Ptr) : Res Heap :=
  if head = NULL then pure h
  else do
    let hn ← h.getNext head
    if hn = NULL then pure h
    else do
      let tail ← h.getPrev head
      let h ← h.setNext tail NULL
      let list ← h.getNext head
      let (h, list) ← mergesort fuel h list
      let h ← h.setNext head list
      let (h, i) ← q_sort_relink fuel h head
      let h ← h.setPrev head i
      h.setNext i head

/-- The inner `for` loop of `q_shuffle`: `x` steps along `next` from `tmp`. -/
def q_shuffle_walk : Nat → Heap → Ptr → Res Ptr
  | 0, _, tmp => pure tmp
  | x + 1, h, tmp => do
    let tmp ← h.getNext tmp
    q_shuffle_walk x h tmp

/-- The outer `for` loop of `q_shuffle`, `i` being its counter. The random
source is the stream `rand`: its `k`-th value is what the `k`-th call of
`rand()` returns. -/
def q_shuffle_loop : Nat → (Nat → Nat) → Nat → Heap → Ptr → Res Heap
  | 0, _, _, h, _ => pure h
  | i + 1, rand, k, h, head => do
    let tmp ← h.getNext head
    let tail ← h.getPrev head
    let tmp ← q_shuffle_walk (rand k % (i + 1)) h tmp
    let h ← list_del h tail
    let h ← list_add h tail tmp
    let h ← list_move_tail h tmp head
    q_shuffle_loop i rand (k + 1) h head

/-- `q_shuffle`, drawing from the stream `rand` (seeding is not modelled). -/
def q_shuffle (fuel : Nat) (rand : Nat → Nat) (h : Heap) (head : Ptr) : Res Heap := do
  let sz ← q_size fuel h head
  q_shuffle_loop sz rand 0 h head

/-! ## Observing a ring -/

/-- Forward traversal from the sentinel (the `list_for_each` idiom), collecting
the nodes met before coming back to `head`. -/
def elems_loop : Nat → Heap → Ptr → Ptr → Res (List Ptr)
  | 0, _, _, _ => .error .out_of_fuel
  | fuel + 1, h, head, p =>
    if p = head then pure []
    else do
      let n ← h.getNext p
      let rest ← elems_loop fuel h head n
      pure (p :: rest)

/-- The element sequence read from the sentinel by forward traversal. -/
def elems (fuel : Nat) (h : Heap) (head : Ptr) : Res (List Ptr) := do
  let p ← h.getNext head
  elems_loop fuel h head p

/-- Consecutive nodes of the list point at each other: `next` of each is its
successor and `prev` of the successor is the node. -/
def Linked (h : Heap) : List Ptr → Prop
  | a :: b :: rest => (h.next a = b ∧ h.prev b = a) ∧ Linked h (b :: rest)
  | _ => True

instance Linked.instDecidable (h : Heap) : (l : List Ptr) → Decidable (Linked h l)
  | [] => isTrue trivial
  | [_] => isTrue trivial
  | a :: b :: rest =>
    have := Linked.instDecidable h (b :: rest)
    inferInstanceAs (Decidable ((h.next a = b ∧ h.prev b = a) ∧ Linked h (b :: rest)))

/-- The heap holds a well-formed ring with sentinel `head` whose elements, in
forward order, are the nodes `L`: the ring invariant of the data model. -/
def Ring (h : Heap) (head : Ptr) (L : List Ptr) : Prop :=
  head ≠ NULL ∧ NULL ∉ L ∧ (head :: L).Nodup ∧ Linked h (head :: L ++ [head])

instance Ring.instDecidable (h : Heap) (head : Ptr) (L : List Ptr) : Decidable (Ring h head L) :=
  inferInstanceAs (Decidable (_ ∧ _ ∧ _ ∧ _))

/-- Following `next` from `p` visits exactly the nodes `L` and then reaches `q`. -/
def Seg (h : Heap) : Ptr → List Ptr → Ptr → Prop
  | p, [], q => p = q
  | p, x :: xs, q => p = x ∧ Seg h (h.next x) xs q

/-- The successor of the first occurrence of `p` in the list, `NULL` if none. -/
def after : List Ptr → Ptr → Ptr
  | a :: b :: rest, p => if p = a then b else after (b :: rest) p
  | _, _ => NULL

/-- The heap in which `head :: L` forms a ring and payloads are given by `val`;
nothing has been released. -/
def mkRing (head : Ptr) (L : List Ptr) (val : Ptr → Str) : Heap where
  next := after (head :: L ++ [head])
  prev := after (head :: L ++ [head]).reverse
  value := val
  released := []

/-- The payload order: `a` does not compare greater than `b` under `strcmp`. -/
def StrLe (a b : Str) : Prop := strcmp a b ≤ 0

instance StrLe.instDecidable (a b : Str) : Decidable (StrLe a b) :=
  inferInstanceAs (Decidable (strcmp a b ≤ 0))

/-- The sequence of nodes is non-decreasing by payload. -/
def SortedBy (val : Ptr → Str) (L : List Ptr) : Prop :=
  L.Pairwise (fun x y => StrLe (val x) (val y))

instance SortedBy.instDecidable (val : Ptr → Str) (L : List Ptr) : Decidable (SortedBy val L) :=
  inferInstanceAs (Decidable (List.Pairwise _ L))

/-- Merging of two node sequences as `mergesort` does it: the head of the
second is taken only when the head of the first compares greater. -/
def merge (val : Ptr → Str) : List Ptr → List Ptr → List Ptr
  | [], B => B
  | a :: A, [] => a :: A
  | a :: A, b :: B =>
    if strcmp (val a) (val b) > 0 then b :: merge val (a :: A) B
    else a :: merge val A (b :: B)

/-- What the pass of `q_delete_dup` keeps of a node sequence, `used` being the
flag at its start. -/
def dedup (val : Ptr → Str) : Bool → List Ptr → List Ptr
  | _, [] => []
  | used, [x] => if used then [] else [x]
  | used, x :: y :: rest =>
    if strcmp (val x) (val y) = 0 then dedup val true (y :: rest)
    else if used then dedup val false (y :: rest)
    else x :: dedup val false (y :: rest)

/-- Exchange of every adjacent pair of a sequence, an unpaired last element
staying in place. -/
def swapPairs : List Ptr → List Ptr
  | a :: b :: rest => b :: a :: swapPairs rest
  | l => l

/-! ## Further predicates -/

/-- No two adjacent nodes of the sequence hold equal payloads. -/
def NoAdjDup (val : Ptr → Str) : List Ptr → Prop
  | x :: y :: rest => val x ≠ val y ∧ NoAdjDup val (y :: rest)
  | _ => True

instance NoAdjDup.instDecidable (val : Ptr → Str) : (L : List Ptr) → Decidable (NoAdjDup val L)
  | [] => isTrue trivial
  | [_] => isTrue trivial
  | x :: y :: rest =>
    have := NoAdjDup.instDecidable val (y :: rest)
    inferInstanceAs (Decidable (val x ≠ val y ∧ NoAdjDup val (y :: rest)))

/-- The payload of `x` differs from that of its neighbour `o`, when it has one. -/
def Differs (val : Ptr → Str) (o : Option Ptr) (x : Ptr) : Prop :=
  ∀ p, o = some p → val p ≠ val x

instance Differs.instDecidable (val : Ptr → Str) : (o : Option Ptr) → (x : Ptr) →
    Decidable (Differs val o x)
  | none, _ => isTrue (fun _ e => Option.noConfusion e)
  | some p, x =>
    if e : val p = val x then isFalse (fun d => d p rfl e)
    else isTrue (fun q eq => by cases eq; exact e)

/-- The elements with no equal neighbour: those whose payload differs from that
of the element before and of the element after, in order. `prev` is the
neighbour of the first node, if any. -/
def isolated (val : Ptr → Str) : Option Ptr → List Ptr → List Ptr
  | _, [] => []
  | prev, x :: rest =>
    if Differs val prev x ∧ Differs val rest.head? x then x :: isolated val (some x) rest
    else isolated val (some x) rest

/-! ## Sequences of calls -/

/-- A call of one of the four operations at the ends of the ring, together with
what its environment supplies: for an insertion the string, the result of
`malloc` and whether `strdup` succeeds; for a removal the output buffer (`none`
for `NULL`) and `bufsize`. -/
inductive Op where
  | insert_head (s : Str) (e : Ptr) (dup : Bool)
  | insert_tail (s : Str) (e : Ptr) (dup : Bool)
  | remove_head (sp : Option Buf) (bufsize : Nat)
  | remove_tail (sp : Option Buf) (bufsize : Nat)

/-- The call is a removal. -/
def Op.is_remove : Op → Bool
  | .remove_head _ _ => true
  | .remove_tail _ _ => true
  | _ => false

/-- One call on the ring `head`: the heap after it, `1` when an insertion
returned true (else `0`) and `1` when a removal returned an element (else `0`). -/
def run_op (head : Ptr) (h : Heap) : Op → Res (Heap × Nat × Nat)
  | .insert_head s e dup => do
    let (h, b) ← q_insert_head h head s e dup
    pure (h, if b then 1 else 0, 0)
  | .insert_tail s e dup => do
    let (h, b) ← q_insert_tail h head s e dup
    pure (h, if b then 1 else 0, 0)
  | .remove_head sp n => do
    let (h, e, _) ← q_remove_head h head sp n
    pure (h, 0, if e = NULL then 0 else 1)
  | .remove_tail sp n => do
    let (h, e, _) ← q_remove_tail h head sp n
    pure (h, 0, if e = NULL then 0 else 1)

/-- A sequence of calls on the ring `head`: the final heap, the number of
insertions that returned true and the number of removals that returned an
element. -/
def run_ops (head : Ptr) : List Op → Heap → Res (Heap × Nat × Nat)
  | [], h => pure (h, 0, 0)
  | op :: ops, h => do
    let (h, i, r) ← run_op head h op
    let (h, ni, nr) ← run_ops head ops h
    pure (h, i + ni, r + nr)

/-- The number of removal calls in a sequence, whatever they return. -/
def remove_calls (ops : List Op) : Nat := (ops.filter Op.is_remove).length

/-- What a call does to the element sequence of the ring. -/
def Op.effect (L : List Ptr) : Op → List Ptr
  | .insert_head _ e dup => if e ≠ NULL ∧ dup = true then e :: L else L
  | .insert_tail _ e dup => if e ≠ NULL ∧ dup = true then L ++ [e] else L
  | .remove_head _ _ => L.tail
  | .remove_tail _ _ => L.dropLast

/-- The buffer handed to a removal can take `bufsize ≥ 1` bytes. -/
def BufOK : Option Buf → Nat → Prop
  | none, _ => True
  | some buf, n => 1 ≤ n ∧ n ≤ buf.length

instance BufOK.instDecidable : (sp : Option Buf) → (n : Nat) → Decidable (BufOK sp n)
  | none, _ => isTrue trivial
  | some buf, n => inferInstanceAs (Decidable (1 ≤ n ∧ n ≤ buf.length))

/-- What the environment owes a call made on the ring `head` with elements `L`:
`malloc` returns `NULL` or a block that is none of the nodes of the ring, and a
buffer given to a removal that finds an element has room for `bufsize ≥ 1`
bytes. -/
def Op.env_ok (head : Ptr) (L : List Ptr) : Op → Prop
  | .insert_head _ e _ => e ≠ NULL → e ≠ head ∧ e ∉ L
  | .insert_tail _ e _ => e ≠ NULL → e ≠ head ∧ e ∉ L
  | .remove_head sp n => L ≠ [] → BufOK sp n
  | .remove_tail sp n => L ≠ [] → BufOK sp n

instance Op.env_ok.instDecidable (head : Ptr) (L : List Ptr) :
    (op : Op) → Decidable (op.env_ok head L)
  | .insert_head _ e _ => inferInstanceAs (Decidable (e ≠ NULL → e ≠ head ∧ e ∉ L))
  | .insert_tail _ e _ => inferInstanceAs (Decidable (e ≠ NULL → e ≠ head ∧ e ∉ L))
  | .remove_head sp n => inferInstanceAs (Decidable (L ≠ [] → BufOK sp n))
  | .remove_tail sp n => inferInstanceAs (Decidable (L ≠ [] → BufOK sp n))

/-- The environment keeps its side along a whole sequence of calls. -/
def EnvOK (head : Ptr) : List Ptr → List Op → Prop
  | _, [] => True
  | L, op :: ops => op.env_ok head L ∧ EnvOK head (op.effect L) ops

instance EnvOK.instDecidable (head : Ptr) : (L : List Ptr) → (ops : List Op) →
    Decidable (EnvOK head L ops)
  | _, [] => isTrue trivial
  | L, op :: ops =>
    have := EnvOK.instDecidable head (op.effect L) ops
    inferInstanceAs (Decidable (op.env_ok head L ∧ EnvOK head (op.effect L) ops))

/-! ## Examples -/

/-- Payloads for examples: node `2` holds "a", node `3` holds "b", and so on. -/
def letters : Ptr → Str := fun p => [95 + p]

/-- Payloads "a", "a", "b", "c", "c", "c" for the nodes `2` to `7`. -/
def aabccc : Ptr → Str := fun p => if p ≤ 3 then [97] else if p = 4 then [98] else [99]

/-- Payloads "c", "a", "b", "a" for the nodes `2` to `5`. -/
def caba : Ptr → Str := fun p => if p = 2 then [99] else if p = 4 then [98] else [97]

/-- A random source returning the listed values in turn, then `0`. -/
def draws (l : List Nat) : Nat → Nat := fun k => l.getD k 0

/-- A sequence of calls for examples: two insertions, a removal without buffer,
an insertion whose `strdup` fails, one whose `malloc` fails, a removal into a
buffer of three bytes, a removal from the ring then empty, and an insertion that
gets the block of an element removed before. -/
def sample_ops : List Op :=
  [.insert_head [97] 2 true, .insert_tail [98] 3 true, .remove_head none 0,
   .insert_head [99] 4 false, .insert_tail [100] 0 true, .remove_tail (some [7, 7, 7]) 3,
   .remove_head (some []) 0, .insert_head [101] 2 true]

/-- A removal called on the empty ring, then an insertion. -/
def remove_first_ops : List Op :=
  [.remove_head none 0, .insert_head [97] 2 true]

/-- Payloads of four bytes for examples: "abc" followed by a byte of the node. -/
def words : Ptr → Str := fun p => [97, 98, 99, 100 + p]

/-- Payloads "a", "a", "b", "a" for the nodes `2` to `5`: not sorted. -/
def aaba : Ptr → Str := fun p => if p = 4 then [98] else [97]

/-- The heap in which the nodes of `L` form a chain that ends in `NULL`, with
payloads given by `val`; nothing has been released. -/
def mkChain (L : List Ptr) (val : Ptr → Str) : Heap where
  next := after (L ++ [NULL])
  prev := fun _ => NULL
  value := val
  released := []

/-! ## Lemmas -/

@[simp] theorem ok_bind {α β : Type} (a : α) (f : α → Res β) :
    (Except.ok a >>= f) = f a := rfl

@[simp] theorem error_bind {α β : Type} (e : Err) (f : α → Res β) :
    ((Except.error e : Res α) >>= f) = Except.error e := rfl

@[simp] theorem pure_eq_ok {α : Type} (a : α) : (pure a : Res α) = Except.ok a := rfl

theorem getNext_ok (h : Heap) {p : Ptr} (hp : p ≠ NULL) : h.getNext p = .ok (h.next p) := by
  simp [Heap.getNext, hp]

theorem getPrev_ok (h : Heap) {p : Ptr} (hp : p ≠ NULL) : h.getPrev p = .ok (h.prev p) := by
  simp [Heap.getPrev, hp]

theorem getValue_ok (h : Heap) {p : Ptr} (hp : p ≠ NULL) : h.getValue p = .ok (h.value p) := by
  simp [Heap.getValue, hp]

theorem setNext_ok (h : Heap) {p : Ptr} (v : Ptr) (hp : p ≠ NULL) :
    h.setNext p v = .ok { h with next := fun q => if q = p then v else h.next q } := by
  simp [Heap.setNext, hp]

theorem setPrev_ok (h : Heap) {p : Ptr} (v : Ptr) (hp : p ≠ NULL) :
    h.setPrev p v = .ok { h with prev := fun q => if q = p then v else h.prev q } := by
  simp [Heap.setPrev, hp]

/-! ### Linked lists of nodes -/

theorem Linked_cons_cons (h : Heap) (a b : Ptr) (l : List Ptr) :
    Linked h (a :: b :: l) ↔ (h.next a = b ∧ h.prev b = a) ∧ Linked h (b :: l) := Iff.rfl

theorem Linked_append_cons (h : Heap) (A : List Ptr) (x : Ptr) (B : List Ptr) :
    Linked h (A ++ x :: B) ↔ Linked h (A ++ [x]) ∧ Linked h (x :: B) := by
  induction A with
  | nil => simp [Linked]
  | cons a A ih =>
    cases A with
    | nil => simp [Linked]
    | cons a' A' =>
      simp only [List.cons_append, Linked_cons_cons] at ih ⊢
      rw [ih]; tauto

theorem Linked_frame {h h' : Heap} {l : List Ptr} (hl : Linked h l)
    (hn : ∀ u ∈ l.dropLast, h'.next u = h.next u)
    (hp : ∀ v ∈ l.tail, h'.prev v = h.prev v) : Linked h' l := by
  induction l with
  | nil => trivial
  | cons a l ih =>
    cases l with
    | nil => trivial
    | cons b l =>
      obtain ⟨⟨h1, h2⟩, h3⟩ := hl
      refine ⟨⟨?_, ?_⟩, ih h3 ?_ ?_⟩
      · rw [hn a (by simp [List.dropLast])]; exact h1
      · rw [hp b (by simp)]; exact h2
      · intro u hu; exact hn u (by simp [List.dropLast]; right; simpa using hu)
      · intro v hv; exact hp v (by simp; right; exact hv)

theorem Ring.head_ne {h : Heap} {head : Ptr} {L : List Ptr} (r : Ring h head L) : head ≠ NULL := r.1
theorem Ring.nonnull {h : Heap} {head : Ptr} {L : List Ptr} (r : Ring h head L) : NULL ∉ L := r.2.1
theorem Ring.nodup {h : Heap} {head : Ptr} {L : List Ptr} (r : Ring h head L) :
    (head :: L).Nodup := r.2.2.1
theorem Ring.linked {h : Heap} {head : Ptr} {L : List Ptr} (r : Ring h head L) :
    Linked h (head :: L ++ [head]) := r.2.2.2

theorem Ring.mem_ne_null {h : Heap} {head : Ptr} {L : List Ptr} (r : Ring h head L)
    {x : Ptr} (hx : x ∈ L) : x ≠ NULL := fun e => r.nonnull (e ▸ hx)

theorem Ring.mem_ne_head {h : Heap} {head : Ptr} {L : List Ptr} (r : Ring h head L)
    {x : Ptr} (hx : x ∈ L) : x ≠ head := by
  have := r.nodup
  rw [List.nodup_cons] at this
  exact fun e => this.1 (e ▸ hx)

/-- A nonempty list ends in some element. -/
theorem exists_concat (a : Ptr) (l : List Ptr) : ∃ P p, a :: l = P ++ [p] := by
  rcases List.eq_nil_or_concat (a :: l) with h | ⟨P, p, h⟩
  · cases h
  · exact ⟨P, p, by simpa using h⟩

/-- Links around a node in the middle of a ring: its predecessor and successor. -/
theorem Ring.split {h : Heap} {head : Ptr} {l1 l2 : List Ptr} {x : Ptr}
    (r : Ring h head (l1 ++ x :: l2)) :
    ∃ P p n S, head :: l1 = P ++ [p] ∧ l2 ++ [head] = n :: S ∧
      Linked h (P ++ [p]) ∧ Linked h (n :: S) ∧
      h.next p = x ∧ h.prev x = p ∧ h.next x = n ∧ h.prev n = x ∧
      p ≠ NULL ∧ n ≠ NULL ∧ x ≠ NULL ∧ p ≠ x ∧ n ≠ x ∧ p ∉ P ∧ n ∉ S ∧ p ∉ l2 ∧ n ∉ l1 := by
  obtain ⟨P, p, hP⟩ := exists_concat head l1
  obtain ⟨n, S, hS⟩ : ∃ n S, l2 ++ [head] = n :: S := by
    cases l2 with
    | nil => exact ⟨head, [], rfl⟩
    | cons b l2 => exact ⟨b, l2 ++ [head], rfl⟩
  have hl := r.linked
  have e : head :: (l1 ++ x :: l2) ++ [head] = P ++ p :: x :: n :: S := by
    have : head :: (l1 ++ x :: l2) ++ [head] = (head :: l1) ++ x :: (l2 ++ [head]) := by simp
    rw [this, hP, hS]; simp
  rw [e, Linked_append_cons, Linked_cons_cons, Linked_cons_cons] at hl
  obtain ⟨h1, ⟨h2, h3⟩, ⟨h4, h5⟩, h6⟩ := hl
  have hnd := r.nodup
  have hnn := r.nonnull
  have hh := r.head_ne
  have hpm : p ∈ head :: l1 := by rw [hP]; simp
  have hnm : n ∈ l2 ++ [head] := by rw [hS]; simp
  have hnd1 : (P ++ [p]).Nodup := by
    rw [← hP]
    have : List.Sublist (head :: l1) (head :: (l1 ++ x :: l2)) := by simp
    exact this.nodup hnd
  have hnd2 : (n :: S).Nodup := by
    rw [← hS]
    have h' : (l2 ++ [head]).Perm (head :: l2) := List.perm_append_singleton head l2
    rw [h'.nodup_iff]
    have : List.Sublist (head :: l2) (head :: (l1 ++ x :: l2)) := by simp
    exact this.nodup hnd
  have hdj : ∀ a ∈ l1, a ∉ l2 := by
    intro a ha hb
    have := hnd
    rw [List.nodup_cons, List.nodup_append] at this
    exact this.2.2.2 ha (List.mem_cons_of_mem _ hb)
  have hx1 : x ∉ l1 := by
    intro hx
    have := hnd
    rw [List.nodup_cons, List.nodup_append] at this
    exact this.2.2.2 hx (List.mem_cons_self _ _)
  have hx2 : x ∉ l2 := by
    have := hnd
    rw [List.nodup_cons, List.nodup_append, List.nodup_cons] at this
    exact this.2.2.1.1
  have hh1 : head ∉ l1 := by
    have := hnd
    rw [List.nodup_cons] at this
    exact fun hm => this.1 (List.mem_append_left _ hm)
  have hh2 : head ∉ l2 := by
    have := hnd
    rw [List.nodup_cons] at this
    exact fun hm => this.1 (List.mem_append_right _ (List.mem_cons_of_mem _ hm))
  have hhx : head ≠ x := by
    have := hnd
    rw [List.nodup_cons] at this
    exact fun e => this.1 (e ▸ by simp)
  have hn1 : NULL ∉ l1 := fun hm => hnn (List.mem_append_left _ hm)
  have hn2 : NULL ∉ l2 := fun hm => hnn (List.mem_append_right _ (List.mem_cons_of_mem _ hm))
  have hnx : NULL ≠ x := fun e => hnn (e ▸ by simp)
  have hpP : p ∉ P := by
    intro hp
    rw [List.nodup_append] at hnd1
    exact hnd1.2.2 hp (List.mem_singleton_self p)
  have hnS : n ∉ S := (List.nodup_cons.1 hnd2).1
  rw [List.mem_cons] at hpm
  rw [List.mem_append, List.mem_singleton] at hnm
  refine ⟨P, p, n, S, hP, hS, h1, h6, h2, h3, h4, h5, ?_, ?_, ?_, ?_, ?_, ?_, ?_, ?_, ?_⟩
  · rintro rfl; rcases hpm with e | e
    · exact hh e.symm
    · exact hn1 e
  · rintro rfl; rcases hnm with e | e
    · exact hn2 e
    · exact hh e.symm
  · exact fun e => hnx e.symm
  · rintro rfl; rcases hpm with e | e
    · exact hhx e.symm
    · exact hx1 e
  · rintro rfl; rcases hnm with e | e
    · exact hx2 e
    · exact hhx e.symm
  · exact hpP
  · exact hnS
  · intro hp; rcases hpm with e | e
    · exact hh2 (e ▸ hp)
    · exact hdj p e hp
  · intro hn; rcases hnm with e | e
    · exact hdj n hn e
    · exact hh1 (e ▸ hn)

theorem Ring.of_sublist_nodup {head : Ptr} {L L' : List Ptr} (hs : List.Sublist L' L)
    (hnd : (head :: L).Nodup) : (head :: L').Nodup :=
  (List.Sublist.cons₂ head hs).nodup hnd

/-- `list_del` on a node of a ring removes it from the element sequence. -/
theorem list_del_ring {h : Heap} {head : Ptr} {l1 l2 : List Ptr} {x : Ptr}
    (r : Ring h head (l1 ++ x :: l2)) :
    ∃ h', list_del h x = .ok h' ∧ Ring h' head (l1 ++ l2) ∧
      h'.value = h.value ∧ h'.released = h.released := by
  obtain ⟨P, p, n, S, hP, hS, hl1, hl2, e1, e2, e3, e4, pn, nn, xn, px, nx, pP, nS, pl2, nl1⟩ :=
    r.split
  refine ⟨{ h with prev := fun q => if q = n then p else h.prev q,
                   next := fun q => if q = p then n else h.next q }, ?_, ?_, rfl, rfl⟩
  · simp [list_del, getNext_ok h xn, getPrev_ok h xn, e2, e3, setPrev_ok _ _ nn,
      setNext_ok _ _ pn]
  · refine ⟨r.head_ne, ?_, ?_, ?_⟩
    · intro hm
      apply r.nonnull
      rcases List.mem_append.1 hm with hm | hm
      · exact List.mem_append_left _ hm
      · exact List.mem_append_right _ (List.mem_cons_of_mem _ hm)
    · exact Ring.of_sublist_nodup (by simp) r.nodup
    · have e : head :: (l1 ++ l2) ++ [head] = P ++ p :: n :: S := by
        have : head :: (l1 ++ l2) ++ [head] = (head :: l1) ++ (l2 ++ [head]) := by simp
        rw [this, hP, hS]; simp
      rw [e, Linked_append_cons, Linked_cons_cons]
      refine ⟨Linked_frame hl1 ?_ ?_, ⟨?_, ?_⟩, Linked_frame hl2 ?_ ?_⟩
      · intro u hu
        have : u ≠ p := by rintro rfl; exact pP (by simpa using hu)
        simp [this]
      · intro v hv
        have : v ≠ n := by
          rintro rfl; rw [← hP] at hv; exact nl1 (by simpa using hv)
        simp [this]
      · simp
      · simp
      · intro u hu
        have : u ≠ p := by
          rintro rfl; rw [← hS, List.dropLast_concat] at hu; exact pl2 hu
        simp [this]
      · intro v hv
        have : v ≠ n := by rintro rfl; exact nS (by simpa using hv)
        simp [this]

/-- `list_add_tail` of a fresh node appends it to the element sequence. -/
theorem list_add_tail_ring {h : Heap} {head : Ptr} {L : List Ptr} {x : Ptr}
    (r : Ring h head L) (xn : x ≠ NULL) (xh : x ≠ head) (xL : x ∉ L) :
    ∃ h', list_add_tail h x head = .ok h' ∧ Ring h' head (L ++ [x]) ∧
      h'.value = h.value ∧ h'.released = h.released := by
  obtain ⟨P, p, hP⟩ := exists_concat head L
  have hl := r.linked
  have e : head :: L ++ [head] = P ++ p :: [head] := by
    have : head :: L ++ [head] = (head :: L) ++ [head] := by simp
    rw [this, hP]; simp
  rw [e, Linked_append_cons] at hl
  obtain ⟨hl1, ⟨e1, e2⟩, -⟩ := hl
  have hpm : p ∈ head :: L := by rw [hP]; simp
  have pn : p ≠ NULL := by
    rintro rfl; rcases List.mem_cons.1 hpm with e | e
    · exact r.head_ne e.symm
    · exact r.nonnull e
  have px : p ≠ x := by
    rintro rfl; rcases List.mem_cons.1 hpm with e | e
    · exact xh e
    · exact xL e
  have hnd1 : (P ++ [p]).Nodup := hP ▸ r.nodup
  have pP : p ∉ P := by
    intro hp
    rw [List.nodup_append] at hnd1
    exact hnd1.2.2 hp (List.mem_singleton_self p)
  have xP : x ∉ P := by
    intro hx
    have : x ∈ head :: L := by rw [hP]; exact List.mem_append_left _ hx
    rcases List.mem_cons.1 this with e | e
    · exact xh e
    · exact xL e
  have hL : (P ++ [p]).tail = L := by rw [← hP]; rfl
  refine ⟨{ h with next := fun q => if q = x then head else if q = p then x else h.next q,
                   prev := fun q => if q = head then x else if q = x then p else h.prev q },
    ?_, ?_, rfl, rfl⟩
  · simp [list_add_tail, getPrev_ok h r.head_ne, e2, setNext_ok _ _ pn, setNext_ok _ _ xn,
      setPrev_ok _ _ xn, setPrev_ok _ _ r.head_ne]
  · refine ⟨r.head_ne, ?_, ?_, ?_⟩
    · intro hm
      rcases List.mem_append.1 hm with hm | hm
      · exact r.nonnull hm
      · exact xn (List.mem_singleton.1 hm).symm
    · have hp : (head :: (L ++ [x])).Perm (x :: head :: L) := by
        have : head :: (L ++ [x]) = (head :: L) ++ [x] := by simp
        rw [this]; exact List.perm_append_singleton _ _
      rw [hp.nodup_iff, List.nodup_cons]
      refine ⟨?_, r.nodup⟩
      intro hm; rcases List.mem_cons.1 hm with e | e
      · exact xh e
      · exact xL e
    · have e' : head :: (L ++ [x]) ++ [head] = P ++ p :: x :: [head] := by
        have : head :: (L ++ [x]) ++ [head] = (head :: L) ++ [x, head] := by simp
        rw [this, hP]; simp
      rw [e', Linked_append_cons, Linked_cons_cons, Linked_cons_cons]
      refine ⟨Linked_frame hl1 ?_ ?_, ⟨?_, ?_⟩, ⟨?_, ?_⟩, trivial⟩
      · intro u hu
        have hu' : u ∈ P := by simpa using hu
        have h1 : u ≠ p := by rintro rfl; exact pP hu'
        have h2 : u ≠ x := by rintro rfl; exact xP hu'
        simp [h1, h2]
      · intro v hv
        rw [hL] at hv
        have h1 : v ≠ head := r.mem_ne_head hv
        have h2 : v ≠ x := by rintro rfl; exact xL hv
        simp [h1, h2]
      · simp [px]
      · simp [xh]
      · simp
      · simp

/-- `list_move_tail` on a node of a ring moves it to the end of the element
sequence. -/
theorem list_move_tail_ring {h : Heap} {head : Ptr} {l1 l2 : List Ptr} {x : Ptr}
    (r : Ring h head (l1 ++ x :: l2)) :
    ∃ h', list_move_tail h x head = .ok h' ∧ Ring h' head (l1 ++ l2 ++ [x]) ∧
      h'.value = h.value ∧ h'.released = h.released := by
  obtain ⟨h1, e1, r1, v1, f1⟩ := list_del_ring r
  have hx : x ∈ l1 ++ x :: l2 := by simp
  have hnd := r.nodup
  have xL : x ∉ l1 ++ l2 := by
    have : (head :: (l1 ++ x :: l2)).Perm (x :: head :: (l1 ++ l2)) := by
      refine (List.Perm.cons head List.perm_middle).trans (List.Perm.swap _ _ _)
    have := (this.nodup_iff.1 hnd)
    rw [List.nodup_cons] at this
    exact fun hm => this.1 (List.mem_cons_of_mem _ hm)
  obtain ⟨h2, e2, r2, v2, f2⟩ := list_add_tail_ring r1 (r.mem_ne_null hx) (r.mem_ne_head hx) xL
  exact ⟨h2, by simp [list_move_tail, e1, e2], r2, v2.trans v1, f2.trans f1⟩

theorem getLastD_of_concat {a : Ptr} : ∀ {L P : List Ptr} {p : Ptr},
    a :: L = P ++ [p] → L.getLastD a = p := by
  intro L
  induction L generalizing a with
  | nil =>
    intro P p hP
    cases P with
    | nil => simpa using hP
    | cons c P => simp at hP
  | cons b L ih =>
    intro P p hP
    cases P with
    | nil => simp at hP
    | cons c P =>
      simp only [List.cons_append, List.cons.injEq] at hP
      rw [List.getLastD_cons]
      exact ih hP.2

theorem Ring.next_mid {h : Heap} {head : Ptr} {l1 l2 : List Ptr} {x : Ptr}
    (r : Ring h head (l1 ++ x :: l2)) : h.next x = l2.headD head := by
  obtain ⟨P, p, n, S, -, hS, -, -, -, -, e3, -⟩ := r.split
  rw [e3]
  cases l2 with
  | nil => simp at hS; simp [hS.1]
  | cons b l2 => simp at hS; simp [hS.1]

theorem Ring.prev_mid {h : Heap} {head : Ptr} {l1 l2 : List Ptr} {x : Ptr}
    (r : Ring h head (l1 ++ x :: l2)) : h.prev x = l1.getLastD head := by
  obtain ⟨P, p, n, S, hP, -, -, -, -, e2, -⟩ := r.split
  rw [e2, getLastD_of_concat hP]

theorem Ring.next_head {h : Heap} {head : Ptr} {L : List Ptr}
    (r : Ring h head L) : h.next head = L.headD head := by
  have hl := r.linked
  cases L with
  | nil => exact hl.1.1
  | cons a L => exact hl.1.1

theorem Ring.prev_head {h : Heap} {head : Ptr} {L : List Ptr}
    (r : Ring h head L) : h.prev head = L.getLastD head := by
  obtain ⟨P, p, hP⟩ := exists_concat head L
  have hl := r.linked
  have e : head :: L ++ [head] = P ++ p :: [head] := by
    have : head :: L ++ [head] = (head :: L) ++ [head] := by simp
    rw [this, hP]; simp
  rw [e, Linked_append_cons] at hl
  rw [hl.2.1.2, getLastD_of_concat hP]

theorem q_size_loop_ring (h : Heap) (head : Ptr) (l2 : List Ptr) :
    ∀ (l1 : List Ptr) (fuel i : Nat), Ring h head (l1 ++ l2) → l2.length < fuel →
      q_size_loop fuel h head (l2.headD head) i = .ok (i + l2.length) := by
  induction l2 with
  | nil =>
    intro l1 fuel i _ hf
    cases fuel with
    | zero => omega
    | succ fuel => simp [q_size_loop]
  | cons x l2 ih =>
    intro l1 fuel i r hf
    cases fuel with
    | zero => omega
    | succ fuel =>
      have hx : x ∈ l1 ++ x :: l2 := by simp
      have r' : Ring h head ((l1 ++ [x]) ++ l2) := by simpa using r
      have hf' : l2.length < fuel := by simp at hf; omega
      have := ih (l1 ++ [x]) fuel (i + 1) r' hf'
      rw [q_size_loop, List.headD_cons, if_neg (r.mem_ne_head hx),
        getNext_ok h (r.mem_ne_null hx), ok_bind, r.next_mid, this, List.length_cons]
      congr 1; omega

/-- `q_size` of a ring is the length of its element sequence. -/
theorem q_size_ring {h : Heap} {head : Ptr} {L : List Ptr} (r : Ring h head L)
    {fuel : Nat} (hf : L.length < fuel) : q_size fuel h head = .ok L.length := by
  have := q_size_loop_ring h head L [] fuel 0 (by simpa using r) hf
  rw [q_size, if_neg r.head_ne, getNext_ok h r.head_ne, ok_bind, r.next_head, this,
    Nat.zero_add]

/-! ### `q_swap` -/

theorem q_swap_loop_ring (head : Ptr) : ∀ (i : Nat) (T Acc : List Ptr) (h : Heap),
    Ring h head (T ++ Acc) → 2 * i ≤ T.length →
    ∃ h', q_swap_loop i h head = .ok h' ∧
      Ring h' head (T.drop (2 * i) ++ Acc ++ swapPairs (T.take (2 * i))) ∧
      h'.value = h.value ∧ h'.released = h.released := by
  intro i
  induction i with
  | zero =>
    intro T Acc h r _
    exact ⟨h, rfl, by simpa [swapPairs] using r, rfl, rfl⟩
  | succ i ih =>
    intro T Acc h r hlen
    match T, hlen with
    | a :: b :: T', hlen =>
      have r0 : Ring h head ([a] ++ b :: (T' ++ Acc)) := by simpa using r
      have ha : a ∈ a :: b :: T' ++ Acc := by simp
      have hb : b ∈ a :: b :: T' ++ Acc := by simp
      obtain ⟨h1, e1, r1, v1, f1⟩ := list_move_tail_ring r0
      have r1' : Ring h1 head ([] ++ a :: (T' ++ Acc ++ [b])) := by simpa using r1
      obtain ⟨h2, e2, r2, v2, f2⟩ := list_move_tail_ring r1'
      have r2' : Ring h2 head (T' ++ (Acc ++ [b, a])) := by simpa using r2
      obtain ⟨h3, e3, r3, v3, f3⟩ := ih T' (Acc ++ [b, a]) h2 r2'
        (by simp at hlen; omega)
      refine ⟨h3, ?_, ?_, by rw [v3, v2, v1], by rw [f3, f2, f1]⟩
      · have n0 : h.next head = a := by simpa using r.next_head
        have ra : Ring h head ([] ++ a :: (b :: (T' ++ Acc))) := by simpa using r
        have n1 : h.next a = b := by simpa using ra.next_mid
        have n2 : h1.next head = a := by simpa using r1'.next_head
        rw [q_swap_loop, getNext_ok h r.head_ne, ok_bind, n0, getNext_ok h (r.mem_ne_null ha),
          ok_bind, n1, e1, ok_bind, getNext_ok h1 r.head_ne, ok_bind, n2, e2, ok_bind, e3]
      · have e : 2 * (i + 1) = 2 * i + 2 := by ring
        rw [e]
        simpa [swapPairs] using r3

theorem swapPairs_take_drop : ∀ (L : List Ptr),
    swapPairs (L.take (2 * (L.length / 2))) ++ L.drop (2 * (L.length / 2)) = swapPairs L
  | [] => by simp [swapPairs]
  | [a] => by simp [swapPairs]
  | a :: b :: L => by
    have e : 2 * ((a :: b :: L).length / 2) = 2 * (L.length / 2) + 2 := by
      simp only [List.length_cons]; omega
    rw [e]
    simp [swapPairs, swapPairs_take_drop L]

theorem swapPairs_length : ∀ (L : List Ptr), (swapPairs L).length = L.length
  | [] => rfl
  | [_] => rfl
  | a :: b :: L => by simp [swapPairs, swapPairs_length L]

theorem swapPairs_getElem? : ∀ (L : List Ptr) (k : Nat), 2 * k + 1 < L.length →
    (swapPairs L)[2 * k]? = L[2 * k + 1]? ∧ (swapPairs L)[2 * k + 1]? = L[2 * k]?
  | [], _, hk => by simp at hk
  | [_], _, hk => by simp at hk
  | a :: b :: L, 0, _ => by simp [swapPairs]
  | a :: b :: L, k + 1, hk => by
    have := swapPairs_getElem? L k (by simp at hk; omega)
    have e : 2 * (k + 1) = 2 * k + 1 + 1 := by ring
    simpa [swapPairs, e] using this

theorem swapPairs_last : ∀ (L : List Ptr), L.length % 2 = 1 →
    (swapPairs L)[L.length - 1]? = L[L.length - 1]?
  | [], hk => by simp at hk
  | [_], _ => by simp [swapPairs]
  | a :: b :: L, hk => by
    have hk' : L.length % 2 = 1 := by simp at hk; omega
    have := swapPairs_last L hk'
    have hpos : 0 < L.length := by omega
    have e : (a :: b :: L).length - 1 = (L.length - 1) + 1 + 1 := by
      simp only [List.length_cons]; omega
    rw [e]
    simpa [swapPairs] using this

/-- `q_swap` on a ring exchanges adjacent pairs of its element sequence. -/
theorem q_swap_ring {h : Heap} {head : Ptr} {L : List Ptr} (r : Ring h head L)
    {fuel : Nat} (hf : L.length < fuel) :
    ∃ h', q_swap fuel h head = .ok h' ∧ Ring h' head (swapPairs L) ∧
      h'.value = h.value ∧ h'.released = h.released := by
  have hs := q_size_ring r hf
  obtain ⟨h1, e1, r1, v1, f1⟩ := q_swap_loop_ring head (L.length / 2) L [] h
    (by simpa using r) (by omega)
  have hshift : L.length >>> 1 = L.length / 2 := by
    rw [Nat.shiftRight_eq_div_pow]
  by_cases hodd : L.length % 2 = 1
  · -- one unpaired element is left at the head and moved to the tail
    have hd : ∃ z, L.drop (2 * (L.length / 2)) = [z] := by
      have hl : (L.drop (2 * (L.length / 2))).length = 1 := by
        rw [List.length_drop]; omega
      match L.drop (2 * (L.length / 2)), hl with
      | [z], _ => exact ⟨z, rfl⟩
    obtain ⟨z, hz⟩ := hd
    have r1' : Ring h1 head ([] ++ z :: swapPairs (L.take (2 * (L.length / 2)))) := by
      simpa [hz] using r1
    obtain ⟨h2, e2, r2, v2, f2⟩ := list_move_tail_ring r1'
    refine ⟨h2, ?_, ?_, by rw [v2, v1], by rw [f2, f1]⟩
    · have n1 : h1.next head = z := by simpa using r1'.next_head
      simp [q_swap, hs, hshift, e1, hodd, getNext_ok h1 r.head_ne, n1, e2]
    · have := swapPairs_take_drop L
      rw [hz] at this
      rw [← this]
      simpa using r2
  · refine ⟨h1, ?_, ?_, v1, f1⟩
    · simp [q_swap, hs, hshift, e1, hodd]
    · have hd : L.drop (2 * (L.length / 2)) = [] := by
        apply List.drop_eq_nil_of_le; omega
      have := swapPairs_take_drop L
      rw [hd] at this
      rw [← this]
      simpa [hd] using r1

/-! ### `q_reverse` -/

theorem q_reverse_loop_ring (head pos : Ptr) : ∀ (n : Nat) (A Acc : List Ptr) (h : Heap),
    A.length = n → Ring h head (A ++ pos :: Acc) →
    ∃ h', q_reverse_loop (n + 1) h head pos = .ok h' ∧
      Ring h' head (pos :: Acc ++ A.reverse) ∧
      h'.value = h.value ∧ h'.released = h.released := by
  intro n
  induction n with
  | zero =>
    intro A Acc h hA r
    have : A = [] := List.length_eq_zero.1 hA
    subst this
    exact ⟨h, rfl, by simpa using r, rfl, rfl⟩
  | succ n ih =>
    intro A Acc h hA r
    rcases List.eq_nil_or_concat A with rfl | ⟨A', x, rfl⟩
    · simp at hA
    · rw [List.concat_eq_append] at hA r ⊢
      have hpos : pos ∈ A' ++ [x] ++ pos :: Acc := by simp
      have hp : h.prev pos = x := by
        rw [r.prev_mid]; simp
      have r0 : Ring h head (A' ++ x :: (pos :: Acc)) := by simpa using r
      obtain ⟨h1, e1, r1, v1, f1⟩ := list_move_tail_ring r0
      have r1' : Ring h1 head (A' ++ pos :: (Acc ++ [x])) := by simpa using r1
      obtain ⟨h2, e2, r2, v2, f2⟩ := ih A' (Acc ++ [x]) h1 (by simpa using hA) r1'
      refine ⟨h2, ?_, by simpa using r2, by rw [v2, v1], by rw [f2, f1]⟩
      rw [q_reverse_loop, getPrev_ok h (r.mem_ne_null hpos), ok_bind, hp, e1, ok_bind, e2]

/-- `q_reverse` on a ring reverses its element sequence; a ring of at most one
element is returned as it is. -/
theorem q_reverse_ring {h : Heap} {head : Ptr} {L : List Ptr} (r : Ring h head L)
    {fuel : Nat} (hf : L.length < fuel) :
    ∃ h', q_reverse fuel h head = .ok h' ∧ Ring h' head L.reverse ∧
      h'.value = h.value ∧ h'.released = h.released ∧ (L.length ≤ 1 → h' = h) := by
  match L, r, hf with
  | [], r, _ =>
    refine ⟨h, ?_, r, rfl, rfl, fun _ => rfl⟩
    have n0 : h.next head = head := by simpa using r.next_head
    simp [q_reverse, r.head_ne, getNext_ok h r.head_ne, n0]
  | [x], r, _ =>
    refine ⟨h, ?_, r, rfl, rfl, fun _ => rfl⟩
    have n0 : h.next head = x := by simpa using r.next_head
    have r0 : Ring h head ([] ++ x :: []) := r
    have n1 : h.next x = head := by simpa using r0.next_mid
    have hx : x ≠ NULL := r.mem_ne_null (by simp)
    simp [q_reverse, r.head_ne, getNext_ok h r.head_ne, n0, getNext_ok h hx, n1]
  | x :: y :: L', r, hf =>
    obtain ⟨A, pos, hA⟩ := exists_concat x (y :: L')
    have hs := q_size_ring r hf
    have r0 : Ring h head (A ++ pos :: []) := by rw [← hA]; exact r
    have hlen : (x :: y :: L').length = A.length + 1 := by rw [hA]; simp
    obtain ⟨h1, e1, r1, v1, f1⟩ := q_reverse_loop_ring head pos
      A.length A [] h rfl r0
    refine ⟨h1, ?_, ?_, v1, f1, ?_⟩
    · have n0 : h.next head = x := by simpa using r.next_head
      have ra : Ring h head ([] ++ x :: (y :: L')) := r
      have n1 : h.next x = y := by simpa using ra.next_mid
      have hx : x ≠ NULL := r.mem_ne_null (by simp)
      have hy : y ≠ head := r.mem_ne_head (by simp)
      have p0 : h.prev head = pos := by
        rw [r.prev_head, List.getLastD_cons]; exact getLastD_of_concat hA
      rw [q_reverse, if_neg r.head_ne, getNext_ok h r.head_ne, ok_bind, n0, getNext_ok h hx,
        ok_bind, n1, if_neg hy, getPrev_ok h r.head_ne, ok_bind, p0, hs, ok_bind, hlen, e1]
    · rw [hA]; simpa using r1
    · intro hle; simp at hle

theorem q_reverse_null (fuel : Nat) (h : Heap) : q_reverse fuel h NULL = .ok h := by
  simp [q_reverse]

/-! ### `strcmp` -/

theorem strcmp_neg : ∀ (a b : Str), strcmp b a = - strcmp a b
  | [], [] => by simp [strcmp]
  | [], _ :: _ => by simp [strcmp]
  | _ :: _, [] => by simp [strcmp]
  | x :: a, y :: b => by
    have ih := strcmp_neg a b
    simp only [strcmp]
    split_ifs <;> omega

theorem strcmp_eq_zero : ∀ (a b : Str), strcmp a b = 0 ↔ a = b
  | [], [] => by simp [strcmp]
  | [], _ :: _ => by simp [strcmp]
  | _ :: _, [] => by simp [strcmp]
  | x :: a, y :: b => by
    have ih := strcmp_eq_zero a b
    simp only [strcmp]
    split_ifs with h1 h2
    · simp; intro e; omega
    · simp; intro e; omega
    · have : x = y := by omega
      simp [this, ih]

theorem strcmp_self (a : Str) : strcmp a a = 0 := (strcmp_eq_zero a a).2 rfl

theorem strcmp_trans : ∀ (a b c : Str), strcmp a b ≤ 0 → strcmp b c ≤ 0 → strcmp a c ≤ 0
  | [], _, [] => by simp [strcmp]
  | [], _, _ :: _ => by simp [strcmp]
  | _ :: _, [], _ => by simp [strcmp]
  | _ :: _, _ :: _, [] => by simp [strcmp]
  | x :: a, y :: b, z :: c => by
    have ih := strcmp_trans a b c
    simp only [strcmp]
    split_ifs <;> omega

/-- The model of `strcmp` is the lexicographic order of byte strings. -/
theorem strcmp_neg_iff_lt : ∀ (a b : Str), strcmp a b < 0 ↔ a < b
  | [], [] => by simp [strcmp]
  | [], _ :: _ => by simp only [strcmp]; exact ⟨fun _ => List.Lex.nil, fun _ => by omega⟩
  | _ :: _, [] => by simp [strcmp]
  | x :: a, y :: b => by
    have ih := strcmp_neg_iff_lt a b
    simp only [strcmp]
    constructor
    · intro h
      split_ifs at h with h1 h2
      · exact List.Lex.rel h1
      · omega
      · have : x = y := by omega
        subst this
        exact List.Lex.cons (ih.1 h)
    · intro h
      cases h with
      | rel h1 => simp [h1]
      | cons h3 =>
        rw [if_neg (lt_irrefl _), if_neg (lt_irrefl _)]
        exact ih.2 h3

theorem strcmp_le_iff_le (a b : Str) : strcmp a b ≤ 0 ↔ a ≤ b := by
  rw [← not_lt, ← not_lt, ← strcmp_neg_iff_lt b a, strcmp_neg a b]
  omega

theorem StrLe.trans {a b c : Str} (h1 : StrLe a b) (h2 : StrLe b c) : StrLe a c :=
  strcmp_trans a b c h1 h2

theorem StrLe.antisymm {a b : Str} (h1 : StrLe a b) (h2 : StrLe b a) : a = b := by
  unfold StrLe at h1 h2
  rw [strcmp_neg b a] at h1
  exact (strcmp_eq_zero b a).1 (by omega) |>.symm

theorem StrLe.of_not_gt {a b : Str} (h : ¬ strcmp a b > 0) : StrLe a b := by
  unfold StrLe; omega

theorem StrLe.of_gt {a b : Str} (h : strcmp a b > 0) : StrLe b a := by
  unfold StrLe; rw [strcmp_neg a b]; omega

theorem StrLe.refl (a : Str) : StrLe a a := by
  unfold StrLe; rw [strcmp_self]

/-! ### `dedup` on sorted sequences -/

theorem SortedBy.ne_of_head_ne {val : Ptr → Str} {x y : Ptr} {rest : List Ptr}
    (hs : SortedBy val (x :: y :: rest)) (hxy : val x ≠ val y) :
    ∀ z ∈ y :: rest, val z ≠ val x := by
  intro z hz e
  unfold SortedBy at hs
  rw [List.pairwise_cons, List.pairwise_cons] at hs
  obtain ⟨h1, h2, -⟩ := hs
  rcases List.mem_cons.1 hz with rfl | hz'
  · exact hxy e.symm
  · have a := h1 y (by simp)
    have b := h2 z hz'
    rw [e] at b
    exact hxy (StrLe.antisymm a b)

theorem SortedBy.tail {val : Ptr → Str} {x : Ptr} {l : List Ptr}
    (hs : SortedBy val (x :: l)) : SortedBy val l := (List.pairwise_cons.1 hs).2

/-- The test applied by `dedup` on sorted input: the payload of `z` occurs
once in `T`, a set flag counting as one more occurrence of the first payload. -/
theorem dedup_sorted (val : Ptr → Str) : ∀ (u : Bool) (T : List Ptr), SortedBy val T →
    dedup val u T = T.filter (fun z =>
      decide ((((if u then T.take 1 else []) ++ T).map val).count (val z) = 1))
  | _, [], _ => by simp [dedup]
  | u, [x], _ => by cases u <;> simp [dedup]
  | u, x :: y :: rest, hs => by
    have ih := fun u' => dedup_sorted val u' (y :: rest) hs.tail
    by_cases hxy : strcmp (val x) (val y) = 0
    · have hv : val x = val y := (strcmp_eq_zero _ _).1 hxy
      rw [dedup, if_pos hxy, ih true]
      symm
      rw [List.filter_cons_of_neg]
      · apply List.filter_congr
        intro z _
        congr 1
        cases u <;> by_cases hz : val y = val z <;>
          simp [List.count_cons, hv, hz]
      · cases u <;> simp [List.count_cons, hv]
    · have hv : val x ≠ val y := fun e => hxy ((strcmp_eq_zero _ _).2 e)
      have hne := hs.ne_of_head_ne hv
      have hc : ((y :: rest).map val).count (val x) = 0 := by
        rw [List.count_eq_zero]
        intro hm
        obtain ⟨z, hz, e⟩ := List.mem_map.1 hm
        exact hne z hz e
      cases u with
      | true =>
        rw [dedup, if_neg hxy, if_pos rfl, ih false]
        symm
        rw [List.filter_cons_of_neg]
        · apply List.filter_congr
          intro z hz
          have := hne z hz
          congr 1
          simp [List.count_cons, this.symm]
        · simp [List.count_cons]
      | false =>
        rw [dedup, if_neg hxy, if_neg (by simp), ih false]
        symm
        rw [List.filter_cons_of_pos]
        · congr 1
          apply List.filter_congr
          intro z hz
          have := hne z hz
          congr 1
          simp [List.count_cons, this.symm]
        · simp only [List.map_cons] at hc
          simp [List.count_cons, hc]

theorem dedup_sorted_false (val : Ptr → Str) (T : List Ptr) (hs : SortedBy val T) :
    dedup val false T = T.filter (fun z => decide ((T.map val).count (val z) = 1)) := by
  simpa using dedup_sorted val false T hs

/-- The payloads of the nodes whose payload occurs once are pairwise distinct. -/
theorem nodup_filter_count_one (val : Ptr → Str) (T : List Ptr) :
    ((T.filter (fun z => decide ((T.map val).count (val z) = 1))).map val).Nodup := by
  rw [List.nodup_iff_sublist]
  intro s hs
  have hsub : List.Sublist
      ((T.filter (fun z => decide ((T.map val).count (val z) = 1))).map val) (T.map val) :=
    (List.filter_sublist T).map val
  have hm : s ∈ (T.filter (fun z => decide ((T.map val).count (val z) = 1))).map val :=
    hs.subset (by simp)
  obtain ⟨z, hz, rfl⟩ := List.mem_map.1 hm
  have h1 : (T.map val).count (val z) = 1 := by simpa using (List.mem_filter.1 hz).2
  have h2 := (hs.trans hsub).count_le (val z)
  simp at h2
  omega

/-! ### `q_delete_dup` -/

theorem Ring.of_links_eq {h h' : Heap} {head : Ptr} {L : List Ptr} (r : Ring h head L)
    (hn : h'.next = h.next) (hp : h'.prev = h.prev) : Ring h' head L :=
  ⟨r.1, r.2.1, r.2.2.1, Linked_frame r.2.2.2 (fun _ _ => by rw [hn]) (fun _ _ => by rw [hp])⟩

theorem q_release_element_ok (h : Heap) {e : Ptr} (he : e ≠ NULL) :
    q_release_element h e = .ok { h with released := h.released ++ [e] } := by
  simp [q_release_element, getValue_ok h he]

/-- Unlinking and releasing a node of a ring. -/
theorem del_release_ring {h : Heap} {head : Ptr} {l1 l2 : List Ptr} {x : Ptr}
    (r : Ring h head (l1 ++ x :: l2)) :
    ∃ h1 h', list_del h x = .ok h1 ∧ q_release_element h1 x = .ok h' ∧
      Ring h' head (l1 ++ l2) ∧ h'.value = h.value ∧ h'.released = h.released ++ [x] := by
  obtain ⟨h1, e1, r1, v1, f1⟩ := list_del_ring r
  have hx : x ≠ NULL := r.mem_ne_null (by simp)
  refine ⟨h1, { h1 with released := h1.released ++ [x] }, e1, q_release_element_ok h1 hx,
    r1.of_links_eq rfl rfl, v1, ?_⟩
  simp [f1]

theorem q_delete_dup_body_ring {h : Heap} {head : Ptr} {K T : List Ptr} {x : Ptr}
    (used : Bool) (r : Ring h head (K ++ x :: T)) :
    ∃ h1 u1 K1, q_delete_dup_body h head x used = .ok (h1, u1) ∧ h1.value = h.value ∧
      Ring h1 head (K1 ++ T) ∧
      K ++ dedup h.value used (x :: T) = K1 ++ dedup h.value u1 T := by
  have hx : x ≠ NULL := r.mem_ne_null (by simp)
  obtain ⟨hm, hd, em, ed, rd, vd, -⟩ := del_release_ring r
  cases T with
  | nil =>
    have n1 : h.next x = head := by simpa using r.next_mid
    cases used with
    | true =>
      refine ⟨hd, false, K, ?_, vd, rd, by simp [dedup]⟩
      simp [q_delete_dup_body, getNext_ok h hx, n1, em, ed]
    | false =>
      refine ⟨h, false, K ++ [x], ?_, rfl, by simpa using r, by simp [dedup]⟩
      simp [q_delete_dup_body, getNext_ok h hx, n1]
  | cons y T =>
    have n1 : h.next x = y := by simpa using r.next_mid
    have hy : y ≠ NULL := r.mem_ne_null (by simp)
    have hyh : y ≠ head := r.mem_ne_head (by simp)
    by_cases hdup : strcmp (h.value x) (h.value y) = 0
    · refine ⟨hd, true, K, ?_, vd, rd, by rw [dedup, if_pos hdup]⟩
      simp [q_delete_dup_body, getNext_ok h hx, n1, hyh, getValue_ok h hx, getValue_ok h hy,
        hdup, em, ed]
    · cases used with
      | true =>
        refine ⟨hd, false, K, ?_, vd, rd, by rw [dedup, if_neg hdup, if_pos rfl]⟩
        simp [q_delete_dup_body, getNext_ok h hx, n1, hyh, getValue_ok h hx, getValue_ok h hy,
          hdup, em, ed]
      | false =>
        refine ⟨h, false, K ++ [x], ?_, rfl, by simpa using r, ?_⟩
        · simp [q_delete_dup_body, getNext_ok h hx, n1, hyh, getValue_ok h hx,
            getValue_ok h hy, hdup]
        · rw [dedup, if_neg hdup, if_neg (by simp)]; simp

theorem q_delete_dup_loop_ring (head : Ptr) : ∀ (T K : List Ptr) (h : Heap) (used : Bool)
    (n : Ptr) (fuel : Nat), Ring h head (K ++ T) →
    (∀ x T', T = x :: T' → n = T'.headD head) → T.length < fuel →
    ∃ h', q_delete_dup_loop fuel h head (T.headD head) n used = .ok h' ∧
      Ring h' head (K ++ dedup h.value used T) ∧ h'.value = h.value := by
  intro T
  induction T with
  | nil =>
    intro K h used n fuel r _ hf
    cases fuel with
    | zero => simp at hf
    | succ fuel => exact ⟨h, by simp [q_delete_dup_loop], by simpa [dedup] using r, rfl⟩
  | cons x T ih =>
    intro K h used n fuel r hn hf
    cases fuel with
    | zero => simp at hf
    | succ fuel =>
      have hxh : x ≠ head := r.mem_ne_head (by simp)
      obtain ⟨h1, u1, K1, e1, v1, r1, hk⟩ := q_delete_dup_body_ring used r
      have hn' : n = T.headD head := hn x T rfl
      have hnn : n ≠ NULL := by
        rw [hn']
        cases T with
        | nil => exact r.head_ne
        | cons y T => exact r.mem_ne_null (by simp)
      obtain ⟨h2, e2, r2, v2⟩ := ih K1 h1 u1 (h1.next n) fuel r1
        (by
          intro y T' hT
          subst hT
          rw [hn', List.headD_cons]
          exact r1.next_mid)
        (by simpa using hf)
      refine ⟨h2, ?_, ?_, v2.trans v1⟩
      · rw [q_delete_dup_loop, List.headD_cons, if_neg hxh, e1, ok_bind]
        simp only [getNext_ok h1 hnn, ok_bind]
        rw [← e2, ← hn']
      · rw [hk, ← v1]; exact r2

/-- `q_delete_dup` on a ring keeps what `dedup` keeps of its element sequence. -/
theorem q_delete_dup_ring {h : Heap} {head : Ptr} {L : List Ptr} (r : Ring h head L)
    {fuel : Nat} (hf : L.length < fuel) :
    ∃ h', q_delete_dup fuel h head = .ok (h', true) ∧
      Ring h' head (dedup h.value false L) ∧ h'.value = h.value := by
  have hp : L.headD head ≠ NULL := by
    cases L with
    | nil => exact r.head_ne
    | cons y T => exact r.mem_ne_null (by simp)
  obtain ⟨h1, e1, r1, v1⟩ := q_delete_dup_loop_ring head L [] h false
    (h.next (L.headD head)) fuel (by simpa using r)
    (by
      intro x T' hT
      subst hT
      have r0 : Ring h head ([] ++ x :: T') := r
      rw [List.headD_cons]
      exact r0.next_mid)
    hf
  refine ⟨h1, ?_, by simpa using r1, v1⟩
  rw [q_delete_dup, if_neg r.head_ne, getNext_ok h r.head_ne, ok_bind, r.next_head,
    getNext_ok h hp, ok_bind, e1]
  rfl

/-! ### Singly linked chains -/

theorem Seg_frame {h h' : Heap} : ∀ {L : List Ptr} {p q : Ptr},
    (∀ x ∈ L, h'.next x = h.next x) → Seg h p L q → Seg h' p L q := by
  intro L
  induction L with
  | nil => intro p q _ hs; exact hs
  | cons x L ih =>
    intro p q hf hs
    refine ⟨hs.1, ?_⟩
    rw [hf x (by simp)]
    exact ih (fun y hy => hf y (List.mem_cons_of_mem _ hy)) hs.2

theorem Seg_append {h : Heap} : ∀ {A B : List Ptr} {p q : Ptr},
    Seg h p (A ++ B) q ↔ ∃ m, Seg h p A m ∧ Seg h m B q := by
  intro A
  induction A with
  | nil =>
    intro B p q
    constructor
    · intro hs; exact ⟨p, rfl, hs⟩
    · rintro ⟨m, rfl, hs⟩; exact hs
  | cons a A ih =>
    intro B p q
    constructor
    · rintro ⟨e, hs⟩
      obtain ⟨m, h1, h2⟩ := ih.1 hs
      exact ⟨m, ⟨e, h1⟩, h2⟩
    · rintro ⟨m, ⟨e, h1⟩, h2⟩
      exact ⟨e, ih.2 ⟨m, h1, h2⟩⟩

theorem Seg_of_Linked {h : Heap} : ∀ {L : List Ptr} {a b : Ptr},
    Linked h (a :: L ++ [b]) → Seg h (h.next a) L b := by
  intro L
  induction L with
  | nil => intro a b hl; exact hl.1.1
  | cons x L ih =>
    intro a b hl
    exact ⟨hl.1.1, ih hl.2⟩

/-- The fast/slow loop advances `slow` by half the distance `fast` has to go. -/
theorem mergesort_split_spec {h : Heap} : ∀ (fuel : Nat) (F S : List Ptr) (fast slow : Ptr),
    Seg h fast F NULL → NULL ∉ F → F ≠ [] → Seg h slow S NULL → NULL ∉ S →
    F.length ≤ S.length → F.length ≤ fuel →
    ∃ s S1 S2, mergesort_split fuel h fast slow = .ok s ∧ S = S1 ++ s :: S2 ∧
      S1.length = (F.length - 1) / 2 := by
  intro fuel
  induction fuel with
  | zero =>
    intro F S fast slow _ _ hne _ _ _ hf
    exact absurd (List.length_eq_zero.1 (Nat.le_zero.1 hf)) hne
  | succ fuel ih =>
    intro F S fast slow hF nF hne hS nS hlen hf
    match F, hF, nF, hne, hlen, hf with
    | [f], hF, nF, _, hlen, _ =>
      obtain ⟨rfl, hF1⟩ := hF
      have hf0 : fast ≠ NULL := fun e => nF (by simp [e])
      have hn : h.next fast = NULL := hF1
      match S, hS, hlen with
      | s :: S', hS, _ =>
        obtain ⟨rfl, -⟩ := hS
        exact ⟨slow, [], S', by simp [mergesort_split, getNext_ok h hf0, hn], rfl, by simp⟩
    | [f, g], hF, nF, _, hlen, _ =>
      obtain ⟨rfl, rfl, hF2⟩ := hF
      have hf0 : fast ≠ NULL := fun e => nF (by simp [e])
      have hg0 : h.next fast ≠ NULL := fun e => nF (by simp [e])
      have hn : h.next (h.next fast) = NULL := hF2
      match S, hS, hlen with
      | s :: S', hS, _ =>
        obtain ⟨rfl, -⟩ := hS
        exact ⟨slow, [], S', by simp [mergesort_split, getNext_ok h hf0, getNext_ok h hg0, hn, hg0],
          rfl, by simp⟩
    | f :: g :: k :: F3, hF, nF, _, hlen, hf =>
      obtain ⟨rfl, rfl, hF2⟩ := hF
      have hk : h.next (h.next fast) = k := hF2.1
      have hf0 : fast ≠ NULL := fun e => nF (by simp [e])
      have hg0 : h.next fast ≠ NULL := fun e => nF (by simp [e])
      have hk0 : k ≠ NULL := fun e => nF (by simp [e])
      match S, hS, nS, hlen with
      | s :: S', hS, nS, hlen =>
        obtain ⟨rfl, hS'⟩ := hS
        have hs0 : slow ≠ NULL := fun e => nS (by simp [e])
        obtain ⟨s, S1, S2, e, hS12, hl⟩ := ih (k :: F3) S' k (h.next slow)
          ⟨rfl, hF2.2⟩
          (fun hm => nF (by simp at hm ⊢; tauto)) (by simp) hS'
          (fun hm => nS (List.mem_cons_of_mem _ hm))
          (by simp at hlen ⊢; omega) (by simp at hf ⊢; omega)
        refine ⟨s, slow :: S1, S2, ?_, by rw [hS12]; rfl, ?_⟩
        · rw [mergesort_split]
          simp only [getNext_ok h hf0, ok_bind, getNext_ok h hg0, getNext_ok h hs0, hg0, hk, hk0,
            if_false]
          exact e
        · simp only [List.length_cons] at hl ⊢; omega

/-! ### `merge` on sequences -/

theorem merge_nil_right (val : Ptr → Str) (A : List Ptr) : merge val A [] = A := by
  cases A <;> simp [merge]

theorem merge_cons_cons (val : Ptr → Str) (a b : Ptr) (A B : List Ptr) :
    merge val (a :: A) (b :: B) =
      if strcmp (val a) (val b) > 0 then b :: merge val (a :: A) B
      else a :: merge val A (b :: B) := by
  rw [merge]

theorem merge_perm (val : Ptr → Str) : ∀ (A B : List Ptr), (merge val A B).Perm (A ++ B) := by
  intro A
  induction A with
  | nil => intro B; simp [merge]
  | cons a A ihA =>
    intro B
    induction B with
    | nil => simp [merge]
    | cons b B ihB =>
      rw [merge_cons_cons]
      split_ifs
      · exact (List.Perm.cons b ihB).trans (List.perm_middle.symm)
      · exact List.Perm.cons a (ihA (b :: B))

theorem merge_sorted (val : Ptr → Str) : ∀ (A B : List Ptr), SortedBy val A → SortedBy val B →
    SortedBy val (merge val A B) := by
  intro A
  induction A with
  | nil => intro B _ hB; simpa [merge] using hB
  | cons a A ihA =>
    intro B
    induction B with
    | nil => intro hA _; simpa [merge] using hA
    | cons b B ihB =>
      intro hA hB
      rw [merge_cons_cons]
      have hA' := List.pairwise_cons.1 hA
      have hB' := List.pairwise_cons.1 hB
      split_ifs with hc
      · refine List.pairwise_cons.2 ⟨?_, ihB hA hB'.2⟩
        intro z hz
        rcases List.mem_append.1 ((merge_perm val (a :: A) B).subset hz) with hz | hz
        · have hba : StrLe (val b) (val a) := StrLe.of_gt hc
          rcases List.mem_cons.1 hz with rfl | hz
          · exact hba
          · exact hba.trans (hA'.1 z hz)
        · exact hB'.1 z hz
      · refine List.pairwise_cons.2 ⟨?_, ihA (b :: B) hA'.2 hB⟩
        intro z hz
        rcases List.mem_append.1 ((merge_perm val A (b :: B)).subset hz) with hz | hz
        · exact hA'.1 z hz
        · have hab : StrLe (val a) (val b) := StrLe.of_not_gt hc
          rcases List.mem_cons.1 hz with rfl | hz
          · exact hab
          · exact hab.trans (hB'.1 z hz)

/-- Merging is stable: the nodes of one payload come out with those of the first
sequence before those of the second, each group in its order. -/
theorem merge_filter (val : Ptr → Str) (s : Str) : ∀ (A B : List Ptr), SortedBy val A →
    (merge val A B).filter (fun z => decide (val z = s)) =
      A.filter (fun z => decide (val z = s)) ++ B.filter (fun z => decide (val z = s)) := by
  intro A
  induction A with
  | nil => intro B _; simp [merge]
  | cons a A ihA =>
    intro B
    induction B with
    | nil => intro _; simp [merge]
    | cons b B ihB =>
      intro hA
      rw [merge_cons_cons]
      have hA' := List.pairwise_cons.1 hA
      split_ifs with hc
      · by_cases hb : val b = s
        · -- everything in `a :: A` is greater than `b`, so has another payload
          have hnone : (a :: A).filter (fun z => decide (val z = s)) = [] := by
            rw [List.filter_eq_nil_iff]
            intro z hz
            have hba : StrLe (val b) (val a) := StrLe.of_gt hc
            have haz : StrLe (val a) (val z) := by
              rcases List.mem_cons.1 hz with rfl | hz
              · exact StrLe.refl _
              · exact hA'.1 z hz
            intro e
            have e' : val z = val b := by simpa [hb] using e
            rw [e'] at haz
            have := StrLe.antisymm haz hba
            rw [this, strcmp_self] at hc
            exact absurd hc (by decide)
          rw [List.filter_cons_of_pos (by simpa using hb), ihB hA, hnone,
            List.filter_cons_of_pos (by simpa using hb)]
          simp
        · have e1 : (b :: merge val (a :: A) B).filter (fun z => decide (val z = s)) =
              (merge val (a :: A) B).filter (fun z => decide (val z = s)) :=
            List.filter_cons_of_neg (by simpa using hb)
          have e2 : (b :: B).filter (fun z => decide (val z = s)) =
              B.filter (fun z => decide (val z = s)) :=
            List.filter_cons_of_neg (by simpa using hb)
          rw [e1, e2, ihB hA]
      · by_cases ha : val a = s
        · have e1 : (a :: merge val A (b :: B)).filter (fun z => decide (val z = s)) =
              a :: (merge val A (b :: B)).filter (fun z => decide (val z = s)) :=
            List.filter_cons_of_pos (by simpa using ha)
          have e2 : (a :: A).filter (fun z => decide (val z = s)) =
              a :: A.filter (fun z => decide (val z = s)) :=
            List.filter_cons_of_pos (by simpa using ha)
          rw [e1, e2, ihA (b :: B) hA'.2]; rfl
        · have e1 : (a :: merge val A (b :: B)).filter (fun z => decide (val z = s)) =
              (merge val A (b :: B)).filter (fun z => decide (val z = s)) :=
            List.filter_cons_of_neg (by simpa using ha)
          have e2 : (a :: A).filter (fun z => decide (val z = s)) =
              A.filter (fun z => decide (val z = s)) :=
            List.filter_cons_of_neg (by simpa using ha)
          rw [e1, e2, ihA (b :: B) hA'.2]

/-! ### The merge loop of `mergesort` -/

theorem assign_tmp_next_ok (h : Heap) (th : Ptr) (tmp : Option Ptr) (l : Ptr)
    (ht : ∀ t, tmp = some t → t ≠ NULL) :
    ∃ h' th', assign_tmp_next h th tmp l = .ok (h', th') ∧
      (∀ q, tmp ≠ some q → h'.next q = h.next q) ∧
      (tmp = none → th' = l) ∧ (∀ t, tmp = some t → th' = th ∧ h'.next t = l) ∧
      h'.prev = h.prev ∧ h'.value = h.value ∧ h'.released = h.released := by
  cases tmp with
  | none => exact ⟨h, l, rfl, fun _ _ => rfl, fun _ => rfl, fun _ e => Option.noConfusion e, rfl, rfl, rfl⟩
  | some t =>
    have ht0 := ht t rfl
    refine ⟨{ h with next := fun q => if q = t then l else h.next q }, th, ?_, ?_, ?_, ?_,
      rfl, rfl, rfl⟩
    · simp [assign_tmp_next, setNext_ok h l ht0]
    · intro q hq
      have : q ≠ t := fun e => hq (by rw [e])
      simp [this]
    · intro e; cases e
    · intro t' e
      cases e
      simp

/-- The closing assignment `tmp->next = l` hangs the chain from `l` after `tmp`. -/
theorem assign_tmp_next_spec (h : Heap) (th : Ptr) (tmp : Option Ptr) (l : Ptr) (M : List Ptr)
    (hs : Seg h l M NULL) (ht : ∀ t, tmp = some t → t ≠ NULL ∧ t ∉ M) :
    ∃ h2 th2, assign_tmp_next h th tmp l = .ok (h2, th2) ∧
      (tmp = none → Seg h2 th2 M NULL) ∧
      (∀ t, tmp = some t → th2 = th ∧ Seg h2 (h2.next t) M NULL) ∧
      (∀ q, tmp ≠ some q → h2.next q = h.next q) ∧
      h2.prev = h.prev ∧ h2.value = h.value ∧ h2.released = h.released := by
  obtain ⟨h2, th2, e, hfr, hn, hsome, hp, hv, hr⟩ :=
    assign_tmp_next_ok h th tmp l (fun t e => (ht t e).1)
  have hseg : Seg h2 l M NULL :=
    Seg_frame (fun x hx => hfr x (fun e => (ht x e).2 hx)) hs
  refine ⟨h2, th2, e, ?_, ?_, hfr, hp, hv, hr⟩
  · intro e0; rw [hn e0]; exact hseg
  · intro t e0
    obtain ⟨e1, e2⟩ := hsome t e0
    exact ⟨e1, by rw [e2]; exact hseg⟩

theorem mergesort_merge_spec : ∀ (fuel : Nat) (A B : List Ptr) (h : Heap) (th : Ptr)
    (tmp : Option Ptr) (l1 l2 : Ptr),
    Seg h l1 A NULL → Seg h l2 B NULL → NULL ∉ A → NULL ∉ B → (A ++ B).Nodup →
    (∀ t, tmp = some t → t ≠ NULL ∧ t ∉ A ∧ t ∉ B) → A.length + B.length < fuel →
    ∃ h1 th1 tmp1 l1' l2',
      mergesort_merge fuel h th tmp l1 l2 = .ok (h1, th1, tmp1, l1', l2') ∧
      ∃ h2 th2, (if l1' ≠ NULL then assign_tmp_next h1 th1 tmp1 l1'
          else assign_tmp_next h1 th1 tmp1 l2') = .ok (h2, th2) ∧
        (tmp = none → Seg h2 th2 (merge h.value A B) NULL) ∧
        (∀ t, tmp = some t → th2 = th ∧ Seg h2 (h2.next t) (merge h.value A B) NULL) ∧
        (∀ q, q ∉ A → q ∉ B → tmp ≠ some q → h2.next q = h.next q) ∧
        h2.prev = h.prev ∧ h2.value = h.value ∧ h2.released = h.released := by
  intro fuel
  induction fuel with
  | zero => intro A B h th tmp l1 l2 _ _ _ _ _ _ hf; omega
  | succ fuel ih =>
    intro A B h th tmp l1 l2 hA hB nA nB hnd ht hf
    match A, hA, nA, hnd, ht, hf with
    | [], hA, _, _, ht, _ =>
      have e1 : l1 = NULL := hA
      subst e1
      obtain ⟨h2, th2, e, hpn, hps, hfr, hp, hv, hr⟩ :=
        assign_tmp_next_spec h th tmp l2 B hB (fun t e => ⟨(ht t e).1, (ht t e).2.2⟩)
      refine ⟨h, th, tmp, NULL, l2, by simp [mergesort_merge], h2, th2, by simpa using e,
        by simpa [merge] using hpn, by simpa [merge] using hps,
        fun q _ _ hq => hfr q hq, hp, hv, hr⟩
    | a :: A', hA, nA, hnd, ht, hf =>
      obtain ⟨rfl, hA'⟩ := hA
      have ha0 : l1 ≠ NULL := fun e => nA (by simp [e])
      match B, hB, nB, hnd, ht, hf with
      | [], hB, _, _, ht, _ =>
        have e2 : l2 = NULL := hB
        subst e2
        obtain ⟨h2, th2, e, hpn, hps, hfr, hp, hv, hr⟩ :=
          assign_tmp_next_spec h th tmp l1 (l1 :: A') ⟨rfl, hA'⟩
            (fun t e => ⟨(ht t e).1, (ht t e).2.1⟩)
        refine ⟨h, th, tmp, l1, NULL, by simp [mergesort_merge], h2, th2, by simpa [ha0] using e,
          by simpa [merge] using hpn, by simpa [merge] using hps,
          fun q _ _ hq => hfr q hq, hp, hv, hr⟩
      | b :: B', hB, nB, hnd, ht, hf =>
        obtain ⟨rfl, hB'⟩ := hB
        have hb0 : l2 ≠ NULL := fun e => nB (by simp [e])
        have hnd' := hnd
        rw [List.nodup_append] at hnd'
        obtain ⟨ndA, ndB, hdj⟩ := hnd'
        have hab : l1 ≠ l2 := fun e => hdj (List.mem_cons_self _ _) (e ▸ List.mem_cons_self _ _)
        by_cases hc : strcmp (h.value l1) (h.value l2) > 0
        · -- the head of the second chain is taken
          obtain ⟨h', th', e, hfr, hn, hsome, hp, hv, hr⟩ :=
            assign_tmp_next_ok h th tmp l2 (fun t e => (ht t e).1)
          have hne2 : tmp ≠ some l2 := fun e => (ht l2 e).2.2 (List.mem_cons_self _ _)
          have hnb : h'.next l2 = h.next l2 := hfr l2 hne2
          have hfrA : ∀ x ∈ l1 :: A', h'.next x = h.next x :=
            fun x hx => hfr x (fun e => (ht x e).2.1 hx)
          have hfrB : ∀ x ∈ B', h'.next x = h.next x :=
            fun x hx => hfr x (fun e => (ht x e).2.2 (List.mem_cons_of_mem _ hx))
          obtain ⟨h1, th1, tmp1, l1', l2', e1, h2, th2, e2, -, hpost, hfr2, hp2, hv2, hr2⟩ :=
            ih (l1 :: A') B' h' th' (some l2) l1 (h'.next l2)
              (Seg_frame hfrA ⟨rfl, hA'⟩)
              (by rw [hnb]; exact Seg_frame hfrB hB')
              nA (fun hm => nB (List.mem_cons_of_mem _ hm))
              (List.nodup_append.2 ⟨ndA, (List.nodup_cons.1 ndB).2,
                fun x hx hy => hdj hx (List.mem_cons_of_mem _ hy)⟩)
              (by
                intro t e
                cases e
                exact ⟨hb0, fun hm => hdj hm (List.mem_cons_self _ _), (List.nodup_cons.1 ndB).1⟩)
              (by simp at hf ⊢; omega)
          refine ⟨h1, th1, tmp1, l1', l2', ?_, h2, th2, e2, ?_, ?_, ?_, hp2.trans hp,
            hv2.trans hv, hr2.trans hr⟩
          · rw [mergesort_merge]
            simp only [ne_eq, ha0, not_false_eq_true, hb0, and_self, if_true, getValue_ok h ha0,
              getValue_ok h hb0, ok_bind, hc, e, getNext_ok h' hb0]
            exact e1
          · intro e0
            obtain ⟨et, hseg⟩ := hpost l2 rfl
            rw [hv] at hseg
            rw [merge_cons_cons, if_pos hc]
            exact ⟨by rw [et, hn e0], hseg⟩
          · intro t e0
            obtain ⟨et, hseg⟩ := hpost l2 rfl
            rw [hv] at hseg
            rw [merge_cons_cons, if_pos hc]
            obtain ⟨ht0, htA, htB⟩ := ht t e0
            have htb : t ≠ l2 := fun e => htB (e ▸ List.mem_cons_self _ _)
            have : h2.next t = l2 := by
              rw [hfr2 t htA (fun hm => htB (List.mem_cons_of_mem _ hm))
                (fun e => htb (Option.some.inj e).symm)]
              exact (hsome t e0).2
            exact ⟨by rw [et]; exact (hsome t e0).1, by rw [this]; exact ⟨rfl, hseg⟩⟩
          · intro q hqA hqB hq
            have hq2 : q ≠ l2 := fun e => hqB (e ▸ List.mem_cons_self _ _)
            rw [hfr2 q hqA (fun hm => hqB (List.mem_cons_of_mem _ hm))
              (fun e => hq2 (Option.some.inj e).symm), hfr q hq]
        · -- the head of the first chain is taken
          obtain ⟨h', th', e, hfr, hn, hsome, hp, hv, hr⟩ :=
            assign_tmp_next_ok h th tmp l1 (fun t e => (ht t e).1)
          have hne1 : tmp ≠ some l1 := fun e => (ht l1 e).2.1 (List.mem_cons_self _ _)
          have hna : h'.next l1 = h.next l1 := hfr l1 hne1
          have hfrA : ∀ x ∈ A', h'.next x = h.next x :=
            fun x hx => hfr x (fun e => (ht x e).2.1 (List.mem_cons_of_mem _ hx))
          have hfrB : ∀ x ∈ l2 :: B', h'.next x = h.next x :=
            fun x hx => hfr x (fun e => (ht x e).2.2 hx)
          obtain ⟨h1, th1, tmp1, l1', l2', e1, h2, th2, e2, -, hpost, hfr2, hp2, hv2, hr2⟩ :=
            ih A' (l2 :: B') h' th' (some l1) (h'.next l1) l2
              (by rw [hna]; exact Seg_frame hfrA hA')
              (Seg_frame hfrB ⟨rfl, hB'⟩)
              (fun hm => nA (List.mem_cons_of_mem _ hm)) nB
              (List.nodup_append.2 ⟨(List.nodup_cons.1 ndA).2, ndB,
                fun x hx hy => hdj (List.mem_cons_of_mem _ hx) hy⟩)
              (by
                intro t e
                cases e
                exact ⟨ha0, (List.nodup_cons.1 ndA).1, fun hm => hdj (List.mem_cons_self _ _) hm⟩)
              (by simp at hf ⊢; omega)
          refine ⟨h1, th1, tmp1, l1', l2', ?_, h2, th2, e2, ?_, ?_, ?_, hp2.trans hp,
            hv2.trans hv, hr2.trans hr⟩
          · rw [mergesort_merge]
            simp only [ne_eq, ha0, not_false_eq_true, hb0, and_self, if_true, getValue_ok h ha0,
              getValue_ok h hb0, ok_bind, hc, if_false, e, getNext_ok h' ha0]
            exact e1
          · intro e0
            obtain ⟨et, hseg⟩ := hpost l1 rfl
            rw [hv] at hseg
            rw [merge_cons_cons, if_neg hc]
            exact ⟨by rw [et, hn e0], hseg⟩
          · intro t e0
            obtain ⟨et, hseg⟩ := hpost l1 rfl
            rw [hv] at hseg
            rw [merge_cons_cons, if_neg hc]
            obtain ⟨ht0, htA, htB⟩ := ht t e0
            have hta : t ≠ l1 := fun e => htA (e ▸ List.mem_cons_self _ _)
            have : h2.next t = l1 := by
              rw [hfr2 t (fun hm => htA (List.mem_cons_of_mem _ hm)) htB
                (fun e => hta (Option.some.inj e).symm)]
              exact (hsome t e0).2
            exact ⟨by rw [et]; exact (hsome t e0).1, by rw [this]; exact ⟨rfl, hseg⟩⟩
          · intro q hqA hqB hq
            have hq1 : q ≠ l1 := fun e => hqA (e ▸ List.mem_cons_self _ _)
            rw [hfr2 q (fun hm => hqA (List.mem_cons_of_mem _ hm)) hqB
              (fun e => hq1 (Option.some.inj e).symm), hfr q hq]

/-! ### `mergesort` -/

theorem mergesort_spec : ∀ (fuel : Nat) (L : List Ptr) (h : Heap) (p : Ptr),
    Seg h p L NULL → NULL ∉ L → L.Nodup → L.length < fuel →
    ∃ h' p' L', mergesort fuel h p = .ok (h', p') ∧ Seg h' p' L' NULL ∧ L'.Perm L ∧
      SortedBy h.value L' ∧
      (∀ s, L'.filter (fun z => decide (h.value z = s)) =
        L.filter (fun z => decide (h.value z = s))) ∧
      (∀ q, q ∉ L → h'.next q = h.next q) ∧
      h'.prev = h.prev ∧ h'.value = h.value ∧ h'.released = h.released := by
  intro fuel
  induction fuel with
  | zero => intro L h p _ _ _ hf; omega
  | succ fuel ih =>
    intro L h p hL nL ndL hf
    match L, hL, nL, ndL, hf with
    | [], hL, _, _, _ =>
      have : p = NULL := hL
      subst this
      exact ⟨h, NULL, [], by simp [mergesort], rfl, List.Perm.refl _, List.Pairwise.nil,
        fun _ => rfl, fun _ _ => rfl, rfl, rfl, rfl⟩
    | [x], hL, nL, _, _ =>
      obtain ⟨rfl, hx⟩ := hL
      have hp0 : p ≠ NULL := fun e => nL (by simp [e])
      have hn : h.next p = NULL := hx
      exact ⟨h, p, [p], by simp [mergesort, hp0, getNext_ok h hp0, hn], ⟨rfl, hx⟩,
        List.Perm.refl _, List.pairwise_singleton _ _, fun _ => rfl, fun _ _ => rfl, rfl, rfl, rfl⟩
    | x :: y :: L2, hL, nL, ndL, hf =>
      obtain ⟨rfl, rfl, hL3⟩ := hL
      have hLs : Seg h p (p :: h.next p :: L2) NULL := ⟨rfl, rfl, hL3⟩
      have hp0 : p ≠ NULL := fun e => nL (by simp [e])
      have hy0 : h.next p ≠ NULL := fun e => nL (by simp [e])
      obtain ⟨s, S1, S2, es, hS, hlen⟩ := mergesort_split_spec (fuel + 1) (p :: h.next p :: L2)
        (p :: h.next p :: L2) p p hLs nL (by simp) hLs nL (le_refl _) (by simp at hf ⊢; omega)
      have hlenL : (p :: h.next p :: L2).length = S1.length + 1 + S2.length := by
        rw [hS]; simp; omega
      simp only [List.length_cons] at hf hlen hlenL
      rw [hS] at hLs nL ndL
      have hs0 : s ≠ NULL := fun e => nL (by simp [e])
      obtain ⟨m, hseg1, hseg2⟩ := Seg_append.1 hLs
      obtain ⟨rfl, hseg2⟩ := hseg2
      have nd := List.nodup_append.1 ndL
      have ndS2 := List.nodup_cons.1 nd.2.1
      have hsS1 : m ∉ S1 := fun hm => nd.2.2 hm (List.mem_cons_self _ _)
      -- the chain is cut after `m`
      have hcut : h.setNext m NULL =
          .ok { h with next := fun q => if q = m then NULL else h.next q } := setNext_ok h NULL hs0
      have hleft : Seg { h with next := fun q => if q = m then NULL else h.next q } p
          (S1 ++ [m]) NULL := by
        refine Seg_append.2 ⟨m, Seg_frame ?_ hseg1, rfl, ?_⟩
        · intro z hz
          have : z ≠ m := fun e => hsS1 (e ▸ hz)
          simp [this]
        · show (if m = m then NULL else h.next m) = NULL
          simp
      have hright : Seg { h with next := fun q => if q = m then NULL else h.next q } (h.next m)
          S2 NULL := by
        refine Seg_frame ?_ hseg2
        intro z hz
        have : z ≠ m := fun e => ndS2.1 (e ▸ hz)
        simp [this]
      have nleft : NULL ∉ S1 ++ [m] := by
        intro hm
        rcases List.mem_append.1 hm with hm | hm
        · exact nL (List.mem_append_left _ hm)
        · exact hs0 (List.mem_singleton.1 hm).symm
      have nright : NULL ∉ S2 :=
        fun hm => nL (List.mem_append_right _ (List.mem_cons_of_mem _ hm))
      have ndleft : (S1 ++ [m]).Nodup := by
        refine List.nodup_append.2 ⟨nd.1, List.nodup_singleton _, ?_⟩
        intro z hz hz'
        exact hsS1 ((List.mem_singleton.1 hz') ▸ hz)
      have hdisj : ∀ z, z ∈ S1 ++ [m] → z ∉ S2 := by
        intro z hz hz'
        rcases List.mem_append.1 hz with hz | hz
        · exact nd.2.2 hz (List.mem_cons_of_mem _ hz')
        · exact ndS2.1 ((List.mem_singleton.1 hz) ▸ hz')
      obtain ⟨h2, l1, L1, e1, seg1, perm1, sort1, stab1, fr1, pv1, vl1, rl1⟩ :=
        ih (S1 ++ [m]) _ p hleft nleft ndleft
          (by simp only [List.length_append, List.length_singleton]; omega)
      have hright2 : Seg h2 (h.next m) S2 NULL :=
        Seg_frame (fun z hz => fr1 z (fun hm => hdisj z hm hz)) hright
      obtain ⟨h3, l2, L2', e2, seg2, perm2, sort2, stab2, fr2, pv2, vl2, rl2⟩ :=
        ih S2 h2 (h.next m) hright2 nright ndS2.2 (by omega)
      have seg1' : Seg h3 l1 L1 NULL :=
        Seg_frame (fun z hz => fr2 z (fun hm => hdisj z (perm1.subset hz) hm)) seg1
      have hperm : (L1 ++ L2').Perm (S1 ++ m :: S2) := by
        have := perm1.append perm2
        simpa using this
      obtain ⟨h4, th1, tmp1, l1', l2', e3, h5, th2, e4, post, -, fr3, pv3, vl3, rl3⟩ :=
        mergesort_merge_spec (fuel + 1) L1 L2' h3 NULL none l1 l2 seg1' seg2
          (fun hm => nleft (perm1.subset hm)) (fun hm => nright (perm2.subset hm))
          (hperm.nodup_iff.2 ndL) (fun t e => Option.noConfusion e)
          (by
            rw [perm1.length_eq, perm2.length_eq]
            simp only [List.length_append, List.length_singleton]; omega)
      have hv3 : h3.value = h.value := by rw [vl2, vl1]
      rw [hv3] at post
      have hsort2 : SortedBy h.value L2' := by rw [← vl1]; exact sort2
      refine ⟨h5, th2, merge h.value L1 L2', ?_, post rfl, ?_, ?_, ?_, ?_, ?_, ?_, ?_⟩
      · rw [mergesort]
        simp only [if_neg hp0, getNext_ok h hp0, ok_bind, if_neg hy0, es, getNext_ok h hs0, hcut,
          e1, e2, e3, e4, pure_eq_ok]
      · rw [hS]; exact (merge_perm _ _ _).trans hperm
      · exact merge_sorted _ _ _ sort1 hsort2
      · intro v
        rw [merge_filter _ _ _ _ sort1, stab1 v, hS]
        have := stab2 v
        rw [vl1] at this
        rw [this]
        have e : m :: S2 = [m] ++ S2 := rfl
        rw [e]
        simp only [List.filter_append, List.append_assoc]
      · intro q hq
        rw [hS] at hq
        have hq1 : q ∉ S1 ++ [m] := by
          intro hm
          apply hq
          rcases List.mem_append.1 hm with hm | hm
          · exact List.mem_append_left _ hm
          · exact List.mem_append_right _ ((List.mem_singleton.1 hm) ▸ List.mem_cons_self _ _)
        have hq2 : q ∉ S2 :=
          fun hm => hq (List.mem_append_right _ (List.mem_cons_of_mem _ hm))
        have hqm : q ≠ m := fun e => hq (by simp [e])
        rw [fr3 q (fun hm => hq1 (perm1.subset hm)) (fun hm => hq2 (perm2.subset hm))
          (fun e => Option.noConfusion e), fr2 q hq2, fr1 q hq1]
        simp [hqm]
      · rw [pv3, pv2, pv1]
      · rw [vl3, vl2, vl1]
      · rw [rl3, rl2, rl1]

/-! ### `q_sort` -/

/-- Cutting a ring open at the sentinel leaves the chain of its elements. -/
theorem Ring.cut {h : Heap} {head : Ptr} {L : List Ptr} (r : Ring h head L) :
    h.prev head ≠ NULL ∧
    Seg { h with next := fun q => if q = h.prev head then NULL else h.next q }
      (if head = h.prev head then NULL else h.next head) L NULL := by
  have hseg : Seg h (h.next head) L head := Seg_of_Linked r.linked
  cases L with
  | nil =>
    have hp : h.prev head = head := by simpa using r.prev_head
    rw [hp]
    exact ⟨r.head_ne, by simp [Seg]⟩
  | cons a L0 =>
    obtain ⟨P, t, hP⟩ := exists_concat a L0
    have hp : h.prev head = t := by
      rw [r.prev_head, List.getLastD_cons]; exact getLastD_of_concat hP
    have htm : t ∈ a :: L0 := by rw [hP]; simp
    have hth : head ≠ t := fun e => r.mem_ne_head htm e.symm
    have hnd : (P ++ [t]).Nodup := by
      rw [← hP]; exact (List.nodup_cons.1 r.nodup).2
    have htP : t ∉ P := by
      intro hm
      exact (List.nodup_append.1 hnd).2.2 hm (List.mem_singleton_self _)
    rw [hp, if_neg hth, hP]
    rw [hP] at hseg
    obtain ⟨m, hs1, rfl, hs2⟩ := Seg_append.1 hseg
    refine ⟨r.mem_ne_null htm, Seg_append.2 ⟨m, Seg_frame ?_ hs1, rfl, ?_⟩⟩
    · intro z hz
      have : z ≠ m := fun e => htP (e ▸ hz)
      simp [this]
    · show (if m = m then NULL else h.next m) = NULL
      simp

theorem q_sort_relink_spec : ∀ (R : List Ptr) (fuel : Nat) (h : Heap) (i : Ptr),
    Seg h (h.next i) R NULL → i ≠ NULL → NULL ∉ R → (i :: R).Nodup → R.length < fuel →
    ∃ h', q_sort_relink fuel h i = .ok (h', R.getLastD i) ∧ h'.next = h.next ∧
      Linked h' (i :: R) ∧ (∀ q, q ∉ R → h'.prev q = h.prev q) ∧
      h'.value = h.value ∧ h'.released = h.released := by
  intro R
  induction R with
  | nil =>
    intro fuel h i hs hi _ _ hf
    cases fuel with
    | zero => omega
    | succ fuel =>
      have hn : h.next i = NULL := hs
      exact ⟨h, by simp [q_sort_relink, getNext_ok h hi, hn], rfl, trivial, fun _ _ => rfl,
        rfl, rfl⟩
  | cons x R ih =>
    intro fuel h i hs hi nR nd hf
    cases fuel with
    | zero => omega
    | succ fuel =>
      obtain ⟨hx, hs'⟩ := hs
      have hx0 : x ≠ NULL := fun e => nR (by simp [e])
      have nd' := List.nodup_cons.1 nd
      obtain ⟨h', e, hn, hl, hfr, hv, hr⟩ :=
        ih fuel { h with prev := fun q => if q = x then i else h.prev q } x
          (@Seg_frame h _ R _ _ (fun _ _ => rfl) hs') hx0
          (fun hm => nR (List.mem_cons_of_mem _ hm)) nd'.2 (by simp at hf; omega)
      refine ⟨h', ?_, hn, ⟨⟨?_, ?_⟩, hl⟩, ?_, hv, hr⟩
      · rw [q_sort_relink]
        simp only [getNext_ok h hi, ok_bind, hx, ne_eq, hx0, not_false_eq_true, if_true,
          setPrev_ok h i hx0, Heap.getNext, if_neg hi, List.getLastD_cons]
        exact e
      · rw [hn]; exact hx
      · rw [hfr x (List.nodup_cons.1 nd'.2).1]; simp
      · intro q hq
        have hqx : q ≠ x := fun e => hq (by simp [e])
        rw [hfr q (fun hm => hq (List.mem_cons_of_mem _ hm))]
        simp [hqx]

/-- `q_sort` on a ring: the new element sequence is a sorted permutation of the
old one in which nodes of equal payload keep their order. -/
theorem q_sort_ring {h : Heap} {head : Ptr} {L : List Ptr} (r : Ring h head L)
    {fuel : Nat} (hf : L.length < fuel) :
    ∃ h' L', q_sort fuel h head = .ok h' ∧ Ring h' head L' ∧ L'.Perm L ∧
      SortedBy h.value L' ∧
      (∀ s, L'.filter (fun z => decide (h.value z = s)) =
        L.filter (fun z => decide (h.value z = s))) ∧
      h'.value = h.value ∧ h'.released = h.released := by
  have hh := r.head_ne
  have hn0 : h.next head ≠ NULL := by
    rw [r.next_head]
    cases L with
    | nil => exact hh
    | cons a L0 => exact r.mem_ne_null (by simp)
  obtain ⟨ht0, hcut⟩ := r.cut
  have ndL := (List.nodup_cons.1 r.nodup).2
  obtain ⟨h2, l, L', e2, seg2, perm, sorted, stab, fr2, pv2, vl2, rl2⟩ :=
    mergesort_spec fuel L _ _ hcut r.nonnull ndL hf
  have nL' : NULL ∉ L' := fun hm => r.nonnull (perm.subset hm)
  have hhL' : head ∉ L' := fun hm => r.mem_ne_head (perm.subset hm) rfl
  have ndL' : (head :: L').Nodup :=
    List.nodup_cons.2 ⟨hhL', perm.nodup_iff.2 ndL⟩
  have seg3 : Seg { h2 with next := fun q => if q = head then l else h2.next q }
      (if head = head then l else h2.next head) L' NULL := by
    rw [if_pos rfl]
    refine Seg_frame ?_ seg2
    intro z hz
    have : z ≠ head := fun e => hhL' (e ▸ hz)
    simp [this]
  obtain ⟨h4, e4, hn4, hl4, fr4, vl4, rl4⟩ :=
    q_sort_relink_spec L' fuel _ head seg3 hh nL' ndL' (by rw [perm.length_eq]; exact hf)
  obtain ⟨P, t, hP⟩ := exists_concat head L'
  have ht : L'.getLastD head = t := getLastD_of_concat hP
  have htm : t ∈ head :: L' := by rw [hP]; simp
  have ht0' : t ≠ NULL := by
    rintro rfl
    rcases List.mem_cons.1 htm with e | e
    · exact hh e.symm
    · exact nL' e
  have htP : t ∉ P := by
    intro hm
    rw [hP] at ndL'
    exact (List.nodup_append.1 ndL').2.2 hm (List.mem_singleton_self _)
  refine ⟨{ h4 with prev := fun q => if q = head then t else h4.prev q,
                    next := fun q => if q = t then head else h4.next q }, L', ?_, ?_, perm, sorted,
    stab, by rw [← vl2]; exact vl4, by rw [← rl2]; exact rl4⟩
  · rw [q_sort]
    have gN := fun h' : Heap => getNext_ok h' hh
    have sT := fun h' : Heap => setNext_ok h' head ht0'
    simp only [if_neg hh, gN, ok_bind, if_neg hn0, getPrev_ok h hh,
      setNext_ok h NULL ht0, e2, setNext_ok h2 l hh, e4, ht, setPrev_ok h4 t hh, sT]
  · refine ⟨hh, nL', ndL', ?_⟩
    have e : head :: L' ++ [head] = P ++ t :: [head] := by
      have : head :: L' ++ [head] = (head :: L') ++ [head] := by simp
      rw [this, hP]; simp
    rw [e, Linked_append_cons]
    rw [hP] at hl4
    refine ⟨Linked_frame hl4 ?_ ?_, ⟨?_, ?_⟩, trivial⟩
    · intro u hu
      have : u ≠ t := fun e => htP (by simpa [e] using hu)
      simp [this]
    · intro v hv
      have hv' : v ∈ L' := by
        have : (P ++ [t]).tail = L' := by rw [← hP]; rfl
        rw [this] at hv; exact hv
      have : v ≠ head := fun e => hhL' (e ▸ hv')
      simp [this]
    · simp
    · simp

theorem elems_loop_ring (h : Heap) (head : Ptr) (l2 : List Ptr) :
    ∀ (l1 : List Ptr) (fuel : Nat), Ring h head (l1 ++ l2) → l2.length < fuel →
      elems_loop fuel h head (l2.headD head) = .ok l2 := by
  induction l2 with
  | nil =>
    intro l1 fuel _ hf
    cases fuel with
    | zero => omega
    | succ fuel => simp [elems_loop]
  | cons x l2 ih =>
    intro l1 fuel r hf
    cases fuel with
    | zero => omega
    | succ fuel =>
      have hx : x ∈ l1 ++ x :: l2 := by simp
      have r' : Ring h head ((l1 ++ [x]) ++ l2) := by simpa using r
      have hf' : l2.length < fuel := by simp at hf; omega
      have := ih (l1 ++ [x]) fuel r' hf'
      rw [elems_loop, List.headD_cons, if_neg (r.mem_ne_head hx),
        getNext_ok h (r.mem_ne_null hx), ok_bind, r.next_mid, this]
      rfl

/-- Forward traversal of a ring reads its element sequence. -/
theorem elems_ring {h : Heap} {head : Ptr} {L : List Ptr} (r : Ring h head L)
    {fuel : Nat} (hf : L.length < fuel) : elems fuel h head = .ok L := by
  have := elems_loop_ring h head L [] fuel (by simpa using r) hf
  rw [elems, getNext_ok h r.head_ne, ok_bind, r.next_head, this]

theorem q_shuffle_loop_one (rand : Nat → Nat) (k : Nat) (h : Heap) (head : Ptr) :
    q_shuffle_loop 1 rand k h head = q_shuffle_loop 1 (fun _ => 0) k h head := by
  simp [q_shuffle_loop, Nat.mod_one]

/-! ### `q_delete_mid` -/

theorem Ring.prev_head_concat {h : Heap} {head : Ptr} {P : List Ptr} {t : Ptr}
    (r : Ring h head (P ++ [t])) : h.prev head = t := by
  rw [r.prev_head]
  exact getLastD_of_concat (P := head :: P) (by simp)

/-- An element of a ring that has a successor element is not the last one. -/
theorem Ring.ne_prev_head {h : Heap} {head : Ptr} {P F : List Ptr} {f g : Ptr}
    (r : Ring h head (P ++ f :: g :: F)) : f ≠ h.prev head := by
  obtain ⟨R, t, hR⟩ := exists_concat g F
  have e : P ++ f :: g :: F = (P ++ f :: R) ++ [t] := by rw [hR]; simp
  have r' := r
  rw [e] at r'
  rw [r'.prev_head_concat]
  have htm : t ∈ g :: F := by rw [hR]; simp
  have hnd := (List.nodup_cons.1 r.nodup).2
  rw [List.nodup_append] at hnd
  exact fun e => (List.nodup_cons.1 hnd.2.1).1 (e ▸ htm)

/-- The cursor loop of `q_delete_mid` advances `slow` by half the distance from
`fast` to the last element. -/
theorem q_delete_mid_loop_ring {h : Heap} {head : Ptr} : ∀ (fuel : Nat) (P F Q S : List Ptr),
    Ring h head (P ++ F) → P ++ F = Q ++ S → F ≠ [] → F.length ≤ S.length →
    F.length ≤ fuel →
    ∃ s S1 S2, q_delete_mid_loop fuel h head (F.headD head) (S.headD head) = .ok s ∧
      S = S1 ++ s :: S2 ∧ S1.length = (F.length - 1) / 2 := by
  intro fuel
  induction fuel with
  | zero =>
    intro P F Q S _ _ hne _ hf
    exact absurd (List.length_eq_zero.1 (Nat.le_zero.1 hf)) hne
  | succ fuel ih =>
    intro P F Q S r hPQ hne hlen hf
    have hh := r.head_ne
    match S, hPQ, hlen with
    | [], _, hlen =>
      exact absurd (List.length_eq_zero.1 (Nat.le_zero.1 hlen)) hne
    | s :: S', hPQ, hlen =>
      match F, r, hPQ, hne, hlen, hf with
      | [f], r, _, _, _, _ =>
        have ht : h.prev head = f := r.prev_head_concat
        exact ⟨s, [], S', by simp [q_delete_mid_loop, getPrev_ok h hh, ht], rfl, by simp⟩
      | [f, g], r, _, _, _, _ =>
        have hf0 : f ≠ NULL := r.mem_ne_null (by simp)
        have hft : f ≠ h.prev head := r.ne_prev_head
        have hn : h.next f = g := by simpa using r.next_mid
        have r' : Ring h head ((P ++ [f]) ++ [g]) := by simpa using r
        have ht : h.prev head = g := r'.prev_head_concat
        refine ⟨s, [], S', ?_, rfl, by simp⟩
        rw [q_delete_mid_loop]
        simp only [getPrev_ok h hh, ok_bind, if_neg hft, getNext_ok h hf0, hn, ht, if_true,
          List.headD_cons, pure_eq_ok, ite_self]
      | f :: g :: k :: F3, r, hPQ, _, hlen, hf =>
        have hf0 : f ≠ NULL := r.mem_ne_null (by simp)
        have hg0 : g ≠ NULL := r.mem_ne_null (by simp)
        have hft : f ≠ h.prev head := r.ne_prev_head
        have hn : h.next f = g := by simpa using r.next_mid
        have r1 : Ring h head ((P ++ [f]) ++ g :: k :: F3) := by simpa using r
        have hgt : g ≠ h.prev head := r1.ne_prev_head
        have hn1 : h.next g = k := by simpa using r1.next_mid
        have rS : Ring h head (Q ++ s :: S') := hPQ ▸ r
        have hs0 : s ≠ NULL := rS.mem_ne_null (by simp)
        have hns : h.next s = S'.headD head := rS.next_mid
        obtain ⟨m, S1, S2, e, hS, hl⟩ := ih (P ++ [f, g]) (k :: F3) (Q ++ [s]) S'
          (by simpa using r) (by simpa using hPQ) (by simp)
          (by simp at hlen ⊢; omega) (by simp at hf ⊢; omega)
        refine ⟨m, s :: S1, S2, ?_, by rw [hS]; rfl, ?_⟩
        · rw [q_delete_mid_loop]
          simp only [getPrev_ok h hh, ok_bind, List.headD_cons, if_neg hft, getNext_ok h hf0, hn,
            if_neg hgt, getNext_ok h hg0, hn1, getNext_ok h hs0, hns]
          exact e
        · simp only [List.length_cons] at hl ⊢; omega

/-- `q_delete_mid` on a ring of `n ≥ 1` elements returns true, having unlinked
and released the element at index `(n - 1) / 2`. -/
theorem q_delete_mid_ring {h : Heap} {head : Ptr} {L : List Ptr} (r : Ring h head L)
    (hne : L ≠ []) {fuel : Nat} (hf : L.length ≤ fuel) :
    ∃ h' S1 s S2, q_delete_mid fuel h head = .ok (h', true) ∧ L = S1 ++ s :: S2 ∧
      S1.length = (L.length - 1) / 2 ∧ Ring h' head (S1 ++ S2) ∧
      h'.value = h.value ∧ h'.released = h.released ++ [s] := by
  obtain ⟨s, S1, S2, e, hS, hl⟩ := q_delete_mid_loop_ring fuel [] L [] L
    (by simpa using r) rfl hne (le_refl _) hf
  subst hS
  obtain ⟨P, p, n, S, -, -, -, -, e1, e2, e3, e4, pn, nn, xn, px, nx, -⟩ := r.split
  obtain ⟨h1, ed, r1, v1, f1⟩ := list_del_ring r
  have hd : h1 = { h with prev := fun q => if q = n then p else h.prev q,
                          next := fun q => if q = p then n else h.next q } := by
    simp only [list_del, getNext_ok h xn, getPrev_ok h xn, e2, e3, ok_bind, setPrev_ok _ _ nn,
      setNext_ok _ _ pn, Except.ok.injEq] at ed
    exact ed.symm
  refine ⟨{ h1 with released := h1.released ++ [s] }, S1, s, S2, ?_, rfl, hl,
    r1.of_links_eq rfl rfl, v1, by simp [f1]⟩
  have hp := r.next_head
  have gN := fun h' : Heap => getNext_ok h' xn
  have gP := fun h' : Heap => getPrev_ok h' xn
  simp only [q_delete_mid, getNext_ok h r.head_ne, ok_bind, hp, e, gN, gP, e2, e3,
    setNext_ok _ _ pn, if_neg px.symm, setPrev_ok _ _ nn, q_release_element_ok _ xn, pure_eq_ok,
    hd]

/-! ### The ring invariant, node by node -/

/-- In a ring `prev` undoes `next` and `next` undoes `prev`, at every node and
at the sentinel. -/
theorem Ring.next_prev {h : Heap} {head : Ptr} {L : List Ptr} (r : Ring h head L)
    {x : Ptr} (hx : x ∈ head :: L) : h.prev (h.next x) = x ∧ h.next (h.prev x) = x := by
  rcases List.mem_cons.1 hx with rfl | hx
  · constructor
    · have hl := r.linked
      obtain ⟨n, S, hS⟩ : ∃ n S, L ++ [x] = n :: S := by
        cases L with
        | nil => exact ⟨x, [], rfl⟩
        | cons b l => exact ⟨b, l ++ [x], rfl⟩
      have e : x :: L ++ [x] = x :: n :: S := by
        have : x :: L ++ [x] = x :: (L ++ [x]) := by simp
        rw [this, hS]
      rw [e] at hl
      rw [hl.1.1]; exact hl.1.2
    · obtain ⟨P, p, hP⟩ := exists_concat x L
      have hl := r.linked
      have e : x :: L ++ [x] = P ++ p :: [x] := by
        have : x :: L ++ [x] = (x :: L) ++ [x] := by simp
        rw [this, hP]; simp
      rw [e, Linked_append_cons] at hl
      rw [hl.2.1.2]; exact hl.2.1.1
  · obtain ⟨l1, l2, rfl⟩ := List.append_of_mem hx
    obtain ⟨P, p, n, S, -, -, -, -, e1, e2, e3, e4, -⟩ := r.split
    exact ⟨by rw [e3, e4], by rw [e2, e1]⟩

/-- The last element of a ring is linked back to the sentinel. -/
theorem Ring.next_last {h : Heap} {head : Ptr} {L : List Ptr} (r : Ring h head L) :
    h.next (L.getLastD head) = head := by
  rw [← r.prev_head]
  exact (r.next_prev (List.mem_cons_self _ _)).2

/-! ### `q_delete_dup` without adjacent duplicates -/

theorem NoAdjDup.of_cons {val : Ptr → Str} {x : Ptr} {T : List Ptr}
    (hn : NoAdjDup val (x :: T)) : NoAdjDup val T := by
  cases T with
  | nil => trivial
  | cons y T => exact hn.2

theorem q_delete_dup_body_noadj {h : Heap} {head : Ptr} {K T : List Ptr} {x : Ptr}
    (r : Ring h head (K ++ x :: T)) (hn : NoAdjDup h.value (x :: T)) :
    q_delete_dup_body h head x false = .ok (h, false) := by
  have hx : x ≠ NULL := r.mem_ne_null (by simp)
  cases T with
  | nil =>
    have n1 : h.next x = head := by simpa using r.next_mid
    simp [q_delete_dup_body, getNext_ok h hx, n1]
  | cons y T =>
    have n1 : h.next x = y := by simpa using r.next_mid
    have hy : y ≠ NULL := r.mem_ne_null (by simp)
    have hyh : y ≠ head := r.mem_ne_head (by simp)
    have hdup : ¬ strcmp (h.value x) (h.value y) = 0 :=
      fun e => hn.1 ((strcmp_eq_zero _ _).1 e)
    simp [q_delete_dup_body, getNext_ok h hx, n1, hyh, getValue_ok h hx, getValue_ok h hy, hdup]

theorem q_delete_dup_loop_noadj {h : Heap} (head : Ptr) : ∀ (T K : List Ptr) (n : Ptr)
    (fuel : Nat), Ring h head (K ++ T) → NoAdjDup h.value T →
    (∀ x T', T = x :: T' → n = T'.headD head) → T.length < fuel →
    q_delete_dup_loop fuel h head (T.headD head) n false = .ok h := by
  intro T
  induction T with
  | nil =>
    intro K n fuel _ _ _ hf
    cases fuel with
    | zero => simp at hf
    | succ fuel => simp [q_delete_dup_loop]
  | cons x T ih =>
    intro K n fuel r hna hn hf
    cases fuel with
    | zero => simp at hf
    | succ fuel =>
      have hxh : x ≠ head := r.mem_ne_head (by simp)
      have e1 := q_delete_dup_body_noadj r hna
      have hn' : n = T.headD head := hn x T rfl
      have r1 : Ring h head ((K ++ [x]) ++ T) := by simpa using r
      have hnn : n ≠ NULL := by
        rw [hn']
        cases T with
        | nil => exact r.head_ne
        | cons y T => exact r.mem_ne_null (by simp)
      have e2 := ih (K ++ [x]) (h.next n) fuel r1 hna.of_cons
        (by
          intro y T' hT
          subst hT
          rw [hn', List.headD_cons]
          exact r1.next_mid)
        (by simpa using hf)
      rw [q_delete_dup_loop, List.headD_cons, if_neg hxh, e1, ok_bind]
      simp only [getNext_ok h hnn, ok_bind]
      rw [← e2, ← hn']

/-- On a ring without adjacent equal payloads `q_delete_dup` returns true and
leaves the heap as it was. -/
theorem q_delete_dup_noadj {h : Heap} {head : Ptr} {L : List Ptr} (r : Ring h head L)
    (hna : NoAdjDup h.value L) {fuel : Nat} (hf : L.length < fuel) :
    q_delete_dup fuel h head = .ok (h, true) := by
  have hp : L.headD head ≠ NULL := by
    cases L with
    | nil => exact r.head_ne
    | cons y T => exact r.mem_ne_null (by simp)
  have e1 := q_delete_dup_loop_noadj head L [] (h.next (L.headD head)) fuel
    (by simpa using r) hna
    (by
      intro x T' hT
      subst hT
      have r0 : Ring h head ([] ++ x :: T') := r
      rw [List.headD_cons]
      exact r0.next_mid)
    hf
  rw [q_delete_dup, if_neg r.head_ne, getNext_ok h r.head_ne, ok_bind, r.next_head,
    getNext_ok h hp, ok_bind, e1]
  rfl

/-- Whenever `q_delete_dup` returns, it returns false exactly for the absent
ring. -/
theorem q_delete_dup_false_iff {fuel : Nat} {h h' : Heap} {head : Ptr} {b : Bool}
    (e : q_delete_dup fuel h head = .ok (h', b)) : b = false ↔ head = NULL := by
  by_cases hh : head = NULL
  · rw [q_delete_dup, if_pos hh] at e
    have := (Except.ok.inj e)
    simp only [Prod.mk.injEq] at this
    simp [hh, this.2.symm]
  · rw [q_delete_dup, if_neg hh] at e
    have hb : b = true := by
      cases h1 : h.getNext head with
      | error err => rw [h1] at e; cases e
      | ok pos =>
        rw [h1, ok_bind] at e
        cases h2 : h.getNext pos with
        | error err => rw [h2] at e; cases e
        | ok n =>
          rw [h2, ok_bind] at e
          cases h3 : q_delete_dup_loop fuel h head pos n false with
          | error err => rw [h3] at e; cases e
          | ok hf =>
            rw [h3, ok_bind] at e
            have := (Except.ok.inj e)
            simp only [Prod.mk.injEq] at this
            exact this.2.symm
    simp [hh, hb]

/-! ### Chains end only once -/

/-- Two chains from the same node to `NULL` are the same chain. -/
theorem Seg_unique {h : Heap} : ∀ {L1 L2 : List Ptr} {p : Ptr},
    Seg h p L1 NULL → Seg h p L2 NULL → NULL ∉ L1 → NULL ∉ L2 → L1 = L2 := by
  intro L1
  induction L1 with
  | nil =>
    intro L2 p h1 h2 _ n2
    cases L2 with
    | nil => rfl
    | cons y L2 =>
      have e1 : p = NULL := h1
      have e2 : p = y := h2.1
      exact absurd (by rw [← e2, e1]; simp) n2
  | cons x L1 ih =>
    intro L2 p h1 h2 n1 n2
    cases L2 with
    | nil =>
      have e1 : p = x := h1.1
      have e2 : p = NULL := h2
      exact absurd (by rw [← e1, e2]; simp) n1
    | cons y L2 =>
      have e1 : p = x := h1.1
      have e2 : p = y := h2.1
      have exy : x = y := e1.symm.trans e2
      subst exy
      rw [ih h1.2 h2.2 (fun hm => n1 (List.mem_cons_of_mem _ hm))
        (fun hm => n2 (List.mem_cons_of_mem _ hm))]

/-- A chain that reaches `NULL` passes through no node twice. -/
theorem Seg_nodup {h : Heap} : ∀ {L : List Ptr} {p : Ptr},
    Seg h p L NULL → NULL ∉ L → L.Nodup := by
  intro L
  induction L with
  | nil => intro p _ _; exact List.nodup_nil
  | cons x L ih =>
    intro p hs hn
    have hn' : NULL ∉ L := fun hm => hn (List.mem_cons_of_mem _ hm)
    refine List.nodup_cons.2 ⟨?_, ih hs.2 hn'⟩
    intro hx
    obtain ⟨A, B, hAB⟩ := List.append_of_mem hx
    have hs2 : Seg h (h.next x) (A ++ x :: B) NULL := hAB ▸ hs.2
    obtain ⟨m, -, hm2⟩ := Seg_append.1 hs2
    have hB : Seg h (h.next x) B NULL := hm2.2
    have hnB : NULL ∉ B := by
      intro hm; apply hn'; rw [hAB]; simp [hm]
    have := Seg_unique hs.2 hB hn' hnB
    have hl := congrArg List.length this
    rw [hAB] at hl
    simp at hl
    omega

/-! ### `dedup` keeps the elements without an equal neighbour -/

theorem Differs_none (val : Ptr → Str) (x : Ptr) : Differs val none x :=
  fun _ e => Option.noConfusion e

theorem Differs_some (val : Ptr → Str) (p x : Ptr) : Differs val (some p) x ↔ val p ≠ val x :=
  ⟨fun d => d p rfl, fun e q eq => by cases eq; exact e⟩

theorem isolated_cons (val : Ptr → Str) (prev : Option Ptr) (x : Ptr) (rest : List Ptr) :
    isolated val prev (x :: rest) =
      if Differs val prev x ∧ Differs val rest.head? x then x :: isolated val (some x) rest
      else isolated val (some x) rest := rfl

/-- The pass of `q_delete_dup` computes `isolated`, the flag standing for "the
element before has the same payload". -/
theorem dedup_eq_isolated (val : Ptr → Str) : ∀ (T : List Ptr) (used : Bool)
    (prev : Option Ptr), (∀ x, T.head? = some x → (used = true ↔ ¬ Differs val prev x)) →
    dedup val used T = isolated val prev T
  | [], _, _, _ => by simp [dedup, isolated]
  | [x], used, prev, hu => by
    have := hu x rfl
    cases used with
    | true =>
      have hd : ¬ Differs val prev x := this.1 rfl
      simp [dedup, isolated, hd]
    | false =>
      have hd : Differs val prev x := by
        by_contra hc; exact absurd (this.2 hc) (by simp)
      simp [dedup, isolated, hd, Differs_none]
  | x :: y :: rest, used, prev, hu => by
    have hux := hu x rfl
    by_cases hxy : strcmp (val x) (val y) = 0
    · have hv : val x = val y := (strcmp_eq_zero _ _).1 hxy
      have hd : ¬ Differs val (some y) x := by
        rw [Differs_some]; exact fun hne => hne hv.symm
      have ih := dedup_eq_isolated val (y :: rest) true (some x)
        (by
          intro z hz
          cases hz
          rw [Differs_some]
          simp [hv])
      rw [dedup, if_pos hxy, ih, isolated_cons val prev x (y :: rest), List.head?_cons,
        if_neg (fun hc => hd hc.2)]
    · have hv : val x ≠ val y := fun e => hxy ((strcmp_eq_zero _ _).2 e)
      have hd : Differs val (some y) x := (Differs_some _ _ _).2 (fun e => hv e.symm)
      have ih := dedup_eq_isolated val (y :: rest) false (some x)
        (by
          intro z hz
          cases hz
          rw [Differs_some]
          simp [hv])
      cases used with
      | true =>
        have hp : ¬ Differs val prev x := hux.1 rfl
        rw [dedup, if_neg hxy, if_pos rfl, ih, isolated_cons val prev x (y :: rest),
          if_neg (fun hc => hp hc.1)]
      | false =>
        have hp : Differs val prev x := by
          by_contra hc; exact absurd (hux.2 hc) (by simp)
        rw [dedup, if_neg hxy, if_neg (by simp), ih, isolated_cons val prev x (y :: rest),
          List.head?_cons, if_pos ⟨hp, hd⟩]

theorem dedup_false_eq_isolated (val : Ptr → Str) (L : List Ptr) :
    dedup val false L = isolated val none L :=
  dedup_eq_isolated val L false none (fun x _ => by simp [Differs_none])

theorem isolated_sublist (val : Ptr → Str) : ∀ (T : List Ptr) (prev : Option Ptr),
    List.Sublist (isolated val prev T) T
  | [], _ => by simp [isolated]
  | x :: rest, prev => by
    rw [isolated]
    split_ifs
    · exact (isolated_sublist val rest (some x)).cons₂ x
    · exact (isolated_sublist val rest (some x)).cons x

theorem getLast?_cons_or (y : Ptr) (A : List Ptr) (prev : Option Ptr) :
    ((y :: A).getLast?).or prev = (A.getLast?).or (some y) := by
  cases A with
  | nil => simp
  | cons a A =>
    rw [List.getLast?_cons_cons]
    cases hA : (a :: A).getLast? with
    | none => simp at hA
    | some l => simp

/-- Membership in `isolated`: a node of the sequence is kept exactly when the
node before it (if any) and the node after it (if any) hold other payloads. -/
theorem mem_isolated (val : Ptr → Str) : ∀ (T : List Ptr) (prev : Option Ptr) (x : Ptr),
    x ∈ isolated val prev T ↔ ∃ A B, T = A ++ x :: B ∧
      Differs val ((A.getLast?).or prev) x ∧ Differs val B.head? x
  | [], _, x => by simp [isolated]
  | y :: rest, prev, x => by
    have ih := mem_isolated val rest (some y) x
    constructor
    · intro hx
      have hcase : (x = y ∧ Differs val prev y ∧ Differs val rest.head? y) ∨
          x ∈ isolated val (some y) rest := by
        rw [isolated] at hx
        split_ifs at hx with hc
        · rcases List.mem_cons.1 hx with e | hx
          · exact Or.inl ⟨e, hc⟩
          · exact Or.inr hx
        · exact Or.inr hx
      rcases hcase with ⟨rfl, h1, h2⟩ | hx
      · exact ⟨[], rest, rfl, by simpa using h1, h2⟩
      · obtain ⟨A, B, hAB, h1, h2⟩ := ih.1 hx
        exact ⟨y :: A, B, by rw [hAB]; rfl, by rw [getLast?_cons_or]; exact h1, h2⟩
    · rintro ⟨A, B, hAB, h1, h2⟩
      cases A with
      | nil =>
        simp only [List.nil_append, List.cons.injEq] at hAB
        obtain ⟨rfl, rfl⟩ := hAB
        have h1' : Differs val prev y := by simpa using h1
        rw [isolated, if_pos ⟨h1', h2⟩]
        exact List.mem_cons_self _ _
      | cons a A =>
        simp only [List.cons_append, List.cons.injEq] at hAB
        obtain ⟨rfl, hrest⟩ := hAB
        have hx : x ∈ isolated val (some y) rest :=
          ih.2 ⟨A, B, hrest, by rw [← getLast?_cons_or y A prev]; exact h1, h2⟩
        rw [isolated]
        split_ifs
        · exact List.mem_cons_of_mem _ hx
        · exact hx

/-! ### Insertion -/

/-- `list_add` of a fresh node right after the sentinel puts it at the front of
the element sequence. -/
theorem list_add_ring {h : Heap} {head : Ptr} {L : List Ptr} {x : Ptr}
    (r : Ring h head L) (xn : x ≠ NULL) (xh : x ≠ head) (xL : x ∉ L) :
    ∃ h', list_add h x head = .ok h' ∧ Ring h' head (x :: L) ∧
      h'.value = h.value ∧ h'.released = h.released := by
  obtain ⟨n, S, hS⟩ : ∃ n S, L ++ [head] = n :: S := by
    cases L with
    | nil => exact ⟨head, [], rfl⟩
    | cons b l => exact ⟨b, l ++ [head], rfl⟩
  have hl := r.linked
  have e : head :: L ++ [head] = head :: n :: S := by
    have : head :: L ++ [head] = head :: (L ++ [head]) := by simp
    rw [this, hS]
  rw [e, Linked_cons_cons] at hl
  obtain ⟨⟨e1, e2⟩, hl2⟩ := hl
  have hnm : n ∈ L ++ [head] := by rw [hS]; simp
  have hn0 : n ≠ NULL := by
    rintro rfl
    rcases List.mem_append.1 hnm with e | e
    · exact r.nonnull e
    · exact r.head_ne (List.mem_singleton.1 e).symm
  have hnx : n ≠ x := by
    rintro rfl
    rcases List.mem_append.1 hnm with e | e
    · exact xL e
    · exact xh (List.mem_singleton.1 e)
  have hnd : (n :: S).Nodup := by
    rw [← hS]
    have hp : (L ++ [head]).Perm (head :: L) := List.perm_append_singleton head L
    rw [hp.nodup_iff]; exact r.nodup
  have hnS : n ∉ S := (List.nodup_cons.1 hnd).1
  have hxS : x ∉ S := by
    intro hm
    have : x ∈ L ++ [head] := by rw [hS]; exact List.mem_cons_of_mem _ hm
    rcases List.mem_append.1 this with e | e
    · exact xL e
    · exact xh (List.mem_singleton.1 e)
  have hdl : (n :: S).dropLast = L := by rw [← hS, List.dropLast_concat]
  refine ⟨{ h with prev := fun q => if q = x then head else if q = n then x else h.prev q,
                   next := fun q => if q = head then x else if q = x then n else h.next q },
    ?_, ?_, rfl, rfl⟩
  · simp [list_add, getNext_ok h r.head_ne, e1, setPrev_ok _ _ hn0, setNext_ok _ _ xn,
      setPrev_ok _ _ xn, setNext_ok _ _ r.head_ne]
  · refine ⟨r.head_ne, ?_, ?_, ?_⟩
    · intro hm
      rcases List.mem_cons.1 hm with e | e
      · exact xn e.symm
      · exact r.nonnull e
    · have hp : (head :: x :: L).Perm (x :: head :: L) := List.Perm.swap _ _ _
      rw [hp.nodup_iff, List.nodup_cons]
      refine ⟨?_, r.nodup⟩
      intro hm
      rcases List.mem_cons.1 hm with e | e
      · exact xh e
      · exact xL e
    · have e' : head :: (x :: L) ++ [head] = head :: x :: n :: S := by
        have : head :: (x :: L) ++ [head] = head :: x :: (L ++ [head]) := by simp
        rw [this, hS]
      rw [e', Linked_cons_cons, Linked_cons_cons]
      refine ⟨⟨?_, ?_⟩, ⟨?_, ?_⟩, Linked_frame hl2 ?_ ?_⟩
      · simp
      · simp
      · simp [xh]
      · simp [hnx]
      · intro u hu
        rw [hdl] at hu
        have h1 : u ≠ head := r.mem_ne_head hu
        have h2 : u ≠ x := by rintro rfl; exact xL hu
        simp [h1, h2]
      · intro v hv
        have hv' : v ∈ S := by simpa using hv
        have h1 : v ≠ x := by rintro rfl; exact hxS hv'
        have h2 : v ≠ n := by rintro rfl; exact hnS hv'
        simp [h1, h2]

theorem setValue_ok (h : Heap) {p : Ptr} (s : Str) (hp : p ≠ NULL) :
    h.setValue p s = .ok { h with value := fun q => if q = p then s else h.value q } := by
  simp [Heap.setValue, hp]

/-- `q_insert_head` on a ring, the fresh element being none of its nodes: it
returns true exactly when both allocations succeed and then the element, holding
the string, is the first of the ring; otherwise the heap is as before. -/
theorem q_insert_head_ring {h : Heap} {head : Ptr} {L : List Ptr} (r : Ring h head L)
    (s : Str) (e : Ptr) (dup : Bool) (hfresh : e ≠ NULL → e ≠ head ∧ e ∉ L) :
    (e ≠ NULL ∧ dup = true →
      ∃ h', q_insert_head h head s e dup = .ok (h', true) ∧ Ring h' head (e :: L) ∧
        h'.value e = s ∧ (∀ q, q ≠ e → h'.value q = h.value q) ∧
        h'.released = h.released) ∧
    (¬ (e ≠ NULL ∧ dup = true) → q_insert_head h head s e dup = .ok (h, false)) := by
  constructor
  · rintro ⟨he, hd⟩
    obtain ⟨hh, hL⟩ := hfresh he
    have r1 : Ring { h with value := fun q => if q = e then s else h.value q } head L :=
      r.of_links_eq rfl rfl
    obtain ⟨h', e1, r', hv, hr⟩ := list_add_ring r1 he hh hL
    refine ⟨h', ?_, r', by rw [hv]; simp, ?_, hr⟩
    · simp [q_insert_head, r.head_ne, he, hd, setValue_ok h s he, e1]
    · intro q hq; rw [hv]; simp [hq]
  · intro hne
    by_cases he : e = NULL
    · simp [q_insert_head, r.head_ne, he]
    · have hd : dup = false := by
        cases dup with
        | false => rfl
        | true => exact absurd ⟨he, rfl⟩ hne
      simp [q_insert_head, r.head_ne, he, hd]

/-- `q_insert_tail` on a ring: as `q_insert_head`, the element becoming the last
of the ring. -/
theorem q_insert_tail_ring {h : Heap} {head : Ptr} {L : List Ptr} (r : Ring h head L)
    (s : Str) (e : Ptr) (dup : Bool) (hfresh : e ≠ NULL → e ≠ head ∧ e ∉ L) :
    (e ≠ NULL ∧ dup = true →
      ∃ h', q_insert_tail h head s e dup = .ok (h', true) ∧ Ring h' head (L ++ [e]) ∧
        h'.value e = s ∧ (∀ q, q ≠ e → h'.value q = h.value q) ∧
        h'.released = h.released) ∧
    (¬ (e ≠ NULL ∧ dup = true) → q_insert_tail h head s e dup = .ok (h, false)) := by
  constructor
  · rintro ⟨he, hd⟩
    obtain ⟨hh, hL⟩ := hfresh he
    have r1 : Ring { h with value := fun q => if q = e then s else h.value q } head L :=
      r.of_links_eq rfl rfl
    obtain ⟨h', e1, r', hv, hr⟩ := list_add_tail_ring r1 he hh hL
    refine ⟨h', ?_, r', by rw [hv]; simp, ?_, hr⟩
    · simp [q_insert_tail, r.head_ne, he, hd, setValue_ok h s he, e1]
    · intro q hq; rw [hv]; simp [hq]
  · intro hne
    by_cases he : e = NULL
    · simp [q_insert_tail, r.head_ne, he]
    · have hd : dup = false := by
        cases dup with
        | false => rfl
        | true => exact absurd ⟨he, rfl⟩ hne
      simp [q_insert_tail, r.head_ne, he, hd]

theorem q_insert_head_null (h : Heap) (s : Str) (e : Ptr) (dup : Bool) :
    q_insert_head h NULL s e dup = .ok (h, false) := by
  simp [q_insert_head]

theorem q_insert_tail_null (h : Heap) (s : Str) (e : Ptr) (dup : Bool) :
    q_insert_tail h NULL s e dup = .ok (h, false) := by
  simp [q_insert_tail]

/-! ### The output buffer -/

theorem size_pred_eq {n : Nat} (h1 : 1 ≤ n) (h2 : n < SIZE_MOD) : size_pred n = n - 1 := by
  unfold size_pred
  have e : n + SIZE_MOD - 1 = (n - 1) + SIZE_MOD := by omega
  rw [e, Nat.add_mod_right, Nat.mod_eq_of_lt (by omega)]

theorem size_pred_lt {n : Nat} (h1 : 1 ≤ n) : size_pred n < n := by
  unfold size_pred
  have e : n + SIZE_MOD - 1 = (n - 1) + SIZE_MOD := by omega
  rw [e, Nat.add_mod_right]
  exact lt_of_le_of_lt (Nat.mod_le _ _) (by omega)

theorem size_pred_zero : size_pred 0 = SIZE_MOD - 1 := by
  unfold size_pred
  rw [Nat.zero_add]
  exact Nat.mod_eq_of_lt (by unfold SIZE_MOD; omega)

/-- What `strncpy` writes: the source cut at `m` bytes, padded with zeros. -/
theorem range_map_getD (v : Str) : ∀ (m : Nat),
    (List.range m).map (fun i => v.getD i 0) = v.take m ++ List.replicate (m - v.length) 0 := by
  intro m
  induction m with
  | zero => simp
  | succ m ih =>
    rw [List.range_succ, List.map_append, ih]
    by_cases hm : m < v.length
    · have e1 : m - v.length = 0 := by omega
      have e2 : m + 1 - v.length = 0 := by omega
      rw [e1, e2, List.take_succ]
      simp [List.getD, hm]
    · have hle : v.length ≤ m := by omega
      have e2 : m + 1 - v.length = (m - v.length) + 1 := by omega
      rw [e2, List.take_of_length_le hle, List.take_of_length_le (by omega),
        List.replicate_succ']
      simp [List.getD, List.getElem?_eq_none hle]

/-- The copy into a buffer of capacity at least `n ≥ 1`: the first
`min (length v) (n - 1)` bytes of the payload, zeros up to index `n - 1`
included, and the bytes from index `n` on as they were. -/
theorem copy_out_spec (h : Heap) {e : Ptr} (buf : Buf) {n : Nat} (he : e ≠ NULL)
    (h1 : 1 ≤ n) (h2 : n ≤ buf.length) (h3 : n < SIZE_MOD) :
    copy_out h e buf n = .ok ((h.value e).take (min (h.value e).length (n - 1)) ++
      List.replicate (n - min (h.value e).length (n - 1)) 0 ++ buf.drop n) := by
  have hk : size_pred n = n - 1 := size_pred_eq h1 h3
  obtain ⟨b, hdrop⟩ : ∃ b, buf.drop (n - 1) = b :: buf.drop n := by
    have hl : (buf.drop (n - 1)).length = buf.length - (n - 1) := List.length_drop _ _
    have hd1 : buf.drop n = (buf.drop (n - 1)).drop 1 := by
      rw [List.drop_drop]
      rw [show n - 1 + 1 = n by omega]
    cases hd : buf.drop (n - 1) with
    | nil => rw [hd] at hl; simp at hl; omega
    | cons b t => exact ⟨b, by rw [hd1, hd]; rfl⟩
  rw [copy_out, getValue_ok h he, ok_bind, hk, strncpy, if_pos (by omega), ok_bind, Buf.store,
    if_pos (by simp; omega)]
  apply congrArg
  have hlen : ((List.range (n - 1)).map (fun i => (h.value e).getD i 0)).length = n - 1 := by
    simp
  rw [hdrop, List.set_append_right _ _ (by rw [hlen]), hlen, Nat.sub_self, List.set_cons_zero,
    range_map_getD]
  by_cases hv : (h.value e).length ≤ n - 1
  · rw [Nat.min_eq_left hv, List.take_of_length_le hv, List.take_of_length_le (le_refl _)]
    have e1 : n - (h.value e).length = (n - 1 - (h.value e).length) + 1 := by omega
    rw [e1, List.replicate_succ']
    simp
  · have hv' : n - 1 ≤ (h.value e).length := by omega
    rw [Nat.min_eq_right hv']
    have e1 : n - 1 - (h.value e).length = 0 := by omega
    have e2 : n - (n - 1) = 1 := by omega
    rw [e1, e2]
    simp

/-- With capacity at least `n ≥ 1` the copy goes through, whatever `n` is. -/
theorem copy_out_ok (h : Heap) {e : Ptr} (buf : Buf) {n : Nat} (he : e ≠ NULL)
    (h1 : 1 ≤ n) (h2 : n ≤ buf.length) : ∃ buf', copy_out h e buf n = .ok buf' := by
  have hk := size_pred_lt h1
  rw [copy_out, getValue_ok h he, ok_bind, strncpy, if_pos (by omega), ok_bind, Buf.store,
    if_pos (by simp; omega)]
  exact ⟨_, rfl⟩

/-- With `bufsize = 0` the copy asks `strncpy` for `SIZE_MAX` bytes, which no
buffer shorter than that can take. -/
theorem copy_out_zero (h : Heap) {e : Ptr} (buf : Buf) (he : e ≠ NULL)
    (hb : buf.length < SIZE_MOD - 1) : copy_out h e buf 0 = .error .out_of_bounds := by
  rw [copy_out, getValue_ok h he, ok_bind, size_pred_zero, strncpy, if_neg (by omega)]
  rfl

/-! ### Removal -/

/-- A non-empty ring does not start with the sentinel. -/
theorem Ring.next_head_ne {h : Heap} {head : Ptr} {x : Ptr} {L : List Ptr}
    (r : Ring h head (x :: L)) : h.next head = x ∧ x ≠ head ∧ x ≠ NULL :=
  ⟨by simpa using r.next_head, r.mem_ne_head (List.mem_cons_self _ _),
    r.mem_ne_null (List.mem_cons_self _ _)⟩

/-- `q_remove_head` on a non-empty ring returns its first element, unlinked and
not released; a given buffer receives the copy made by `copy_out`. -/
theorem q_remove_head_ring {h : Heap} {head : Ptr} {x : Ptr} {L : List Ptr}
    (r : Ring h head (x :: L)) (sp : Option Buf) (n : Nat)
    (hb : ∀ buf, sp = some buf → 1 ≤ n ∧ n ≤ buf.length) :
    ∃ h' sp', q_remove_head h head sp n = .ok (h', x, sp') ∧ Ring h' head L ∧
      h'.value = h.value ∧ h'.released = h.released ∧ (sp = none → sp' = none) ∧
      (∀ buf, sp = some buf → ∃ buf', copy_out h' x buf n = .ok buf' ∧ sp' = some buf') := by
  obtain ⟨n0, hxh, hx0⟩ := r.next_head_ne
  have r0 : Ring h head ([] ++ x :: L) := r
  obtain ⟨h', e1, r', hv, hr⟩ := list_del_ring r0
  cases sp with
  | none =>
    refine ⟨h', none, ?_, r', hv, hr, fun _ => rfl, fun _ e => Option.noConfusion e⟩
    simp [q_remove_head, r.head_ne, getNext_ok h r.head_ne, n0, hxh, e1]
  | some buf =>
    obtain ⟨b1, b2⟩ := hb buf rfl
    obtain ⟨buf', e2⟩ := copy_out_ok h' buf hx0 b1 b2
    refine ⟨h', some buf', ?_, r', hv, hr, fun e => Option.noConfusion e, ?_⟩
    · simp [q_remove_head, r.head_ne, getNext_ok h r.head_ne, n0, hxh, e1, e2]
    · intro b e
      cases e
      exact ⟨buf', e2, rfl⟩

/-- `q_remove_tail` on a non-empty ring returns its last element, unlinked and
not released; a given buffer receives the copy made by `copy_out`. -/
theorem q_remove_tail_ring {h : Heap} {head : Ptr} {x : Ptr} {L : List Ptr}
    (r : Ring h head (L ++ [x])) (sp : Option Buf) (n : Nat)
    (hb : ∀ buf, sp = some buf → 1 ≤ n ∧ n ≤ buf.length) :
    ∃ h' sp', q_remove_tail h head sp n = .ok (h', x, sp') ∧ Ring h' head L ∧
      h'.value = h.value ∧ h'.released = h.released ∧ (sp = none → sp' = none) ∧
      (∀ buf, sp = some buf → ∃ buf', copy_out h' x buf n = .ok buf' ∧ sp' = some buf') := by
  have hx0 : x ≠ NULL := r.mem_ne_null (by simp)
  have p0 : h.prev head = x := r.prev_head_concat
  have hfirst : h.next head ≠ head := by
    rw [r.next_head]
    cases L with
    | nil => exact r.mem_ne_head (by simp)
    | cons a L => exact r.mem_ne_head (by simp)
  have r0 : Ring h head (L ++ x :: []) := r
  obtain ⟨h', e1, r', hv, hr⟩ := list_del_ring r0
  have r'' : Ring h' head L := by simpa using r'
  cases sp with
  | none =>
    refine ⟨h', none, ?_, r'', hv, hr, fun _ => rfl, fun _ e => Option.noConfusion e⟩
    simp [q_remove_tail, r.head_ne, getNext_ok h r.head_ne, hfirst, getPrev_ok h r.head_ne, p0,
      e1]
  | some buf =>
    obtain ⟨b1, b2⟩ := hb buf rfl
    obtain ⟨buf', e2⟩ := copy_out_ok h' buf hx0 b1 b2
    refine ⟨h', some buf', ?_, r'', hv, hr, fun e => Option.noConfusion e, ?_⟩
    · simp [q_remove_tail, r.head_ne, getNext_ok h r.head_ne, hfirst, getPrev_ok h r.head_ne,
        p0, e1, e2]
    · intro b e
      cases e
      exact ⟨buf', e2, rfl⟩

/-- On an empty ring `q_remove_head` and `q_remove_tail` return `NULL` and touch
nothing. -/
theorem q_remove_empty {h : Heap} {head : Ptr} (r : Ring h head []) (sp : Option Buf)
    (n : Nat) : q_remove_head h head sp n = .ok (h, NULL, sp) ∧
      q_remove_tail h head sp n = .ok (h, NULL, sp) := by
  have n0 : h.next head = head := by simpa using r.next_head
  constructor
  · simp [q_remove_head, r.head_ne, getNext_ok h r.head_ne, n0]
  · simp [q_remove_tail, r.head_ne, getNext_ok h r.head_ne, n0]

/-- On an absent ring `q_remove_head` and `q_remove_tail` return `NULL`. -/
theorem q_remove_null (h : Heap) (sp : Option Buf) (n : Nat) :
    q_remove_head h NULL sp n = .ok (h, NULL, sp) ∧
      q_remove_tail h NULL sp n = .ok (h, NULL, sp) := by
  constructor
  · simp [q_remove_head]
  · simp [q_remove_tail]

/-! ### Sequences of calls -/

theorem BufOK.of_some {buf : Buf} {n : Nat} {sp : Option Buf} (hb : BufOK sp n)
    (e : sp = some buf) : 1 ≤ n ∧ n ≤ buf.length := by
  subst e; exact hb

/-- `q_new` with a successful allocation makes the empty ring. -/
theorem q_new_ring (h : Heap) {q : Ptr} (hq : q ≠ NULL) :
    ∃ h', q_new h q = .ok (h', q) ∧ Ring h' q [] ∧ h'.value = h.value ∧
      h'.released = h.released := by
  refine ⟨{ h with next := fun p => if p = q then q else h.next p,
                   prev := fun p => if p = q then q else h.prev p }, ?_, ?_, rfl, rfl⟩
  · simp [q_new, hq, INIT_LIST_HEAD, setNext_ok _ _ hq, setPrev_ok _ _ hq]
  · refine ⟨hq, by simp, by simp, ?_⟩
    show Linked _ [q, q]
    exact ⟨⟨by simp, by simp⟩, trivial⟩

/-- One call keeps the ring a ring, with the element sequence given by
`Op.effect`, and counts what it adds and takes. -/
theorem run_op_ring {h : Heap} {head : Ptr} {L : List Ptr} (r : Ring h head L) (op : Op)
    (henv : op.env_ok head L) :
    ∃ h' i k, run_op head h op = .ok (h', i, k) ∧ Ring h' head (op.effect L) ∧
      (op.effect L).length + k = L.length + i ∧
      k ≤ (if op.is_remove = true then 1 else 0) := by
  cases op with
  | insert_head s e dup =>
    obtain ⟨hyes, hno⟩ := q_insert_head_ring r s e dup henv
    by_cases hc : e ≠ NULL ∧ dup = true
    · obtain ⟨h', e1, r', -⟩ := hyes hc
      refine ⟨h', 1, 0, by simp [run_op, e1], by simpa [Op.effect, hc] using r', ?_, by simp⟩
      simp [Op.effect, hc]
    · refine ⟨h, 0, 0, by simp [run_op, hno hc], by simpa [Op.effect, hc] using r, ?_, by simp⟩
      simp [Op.effect, hc]
  | insert_tail s e dup =>
    obtain ⟨hyes, hno⟩ := q_insert_tail_ring r s e dup henv
    by_cases hc : e ≠ NULL ∧ dup = true
    · obtain ⟨h', e1, r', -⟩ := hyes hc
      refine ⟨h', 1, 0, by simp [run_op, e1], by simpa [Op.effect, hc] using r', ?_, by simp⟩
      simp [Op.effect, hc]
    · refine ⟨h, 0, 0, by simp [run_op, hno hc], by simpa [Op.effect, hc] using r, ?_, by simp⟩
      simp [Op.effect, hc]
  | remove_head sp n =>
    cases L with
    | nil =>
      refine ⟨h, 0, 0, by simp [run_op, (q_remove_empty r sp n).1], r, rfl, by simp⟩
    | cons x L =>
      have hb : BufOK sp n := henv (by simp)
      obtain ⟨h', sp', e1, r', -⟩ := q_remove_head_ring r sp n (fun buf e => hb.of_some e)
      have hx0 : x ≠ NULL := r.mem_ne_null (by simp)
      exact ⟨h', 0, 1, by simp [run_op, e1, hx0], r', by simp [Op.effect],
        by simp [Op.is_remove]⟩
  | remove_tail sp n =>
    rcases List.eq_nil_or_concat L with rfl | ⟨L0, x, rfl⟩
    · refine ⟨h, 0, 0, by simp [run_op, (q_remove_empty r sp n).2], r, rfl, by simp⟩
    · rw [List.concat_eq_append] at r henv ⊢
      have hb : BufOK sp n := henv (by simp)
      obtain ⟨h', sp', e1, r', -⟩ := q_remove_tail_ring r sp n (fun buf e => hb.of_some e)
      have hx0 : x ≠ NULL := r.mem_ne_null (by simp)
      exact ⟨h', 0, 1, by simp [run_op, e1, hx0], by simpa [Op.effect] using r',
        by simp [Op.effect], by simp [Op.is_remove]⟩

/-- A sequence of calls keeps the ring a ring and its length is what was there
plus the insertions that returned true minus the removals that returned an
element. -/
theorem run_ops_ring (head : Ptr) : ∀ (ops : List Op) (L : List Ptr) (h : Heap),
    Ring h head L → EnvOK head L ops →
    ∃ h' ni nr L', run_ops head ops h = .ok (h', ni, nr) ∧ Ring h' head L' ∧
      L'.length + nr = L.length + ni ∧ nr ≤ remove_calls ops := by
  intro ops
  induction ops with
  | nil =>
    intro L h r _
    exact ⟨h, 0, 0, L, rfl, r, rfl, Nat.zero_le _⟩
  | cons op ops ih =>
    intro L h r henv
    obtain ⟨h1, i, k, e1, r1, hlen1, hk⟩ := run_op_ring r op henv.1
    obtain ⟨h2, ni, nr, L', e2, r2, hlen2, hnr⟩ := ih (op.effect L) h1 r1 henv.2
    refine ⟨h2, i + ni, k + nr, L', by simp [run_ops, e1, e2], r2, by omega, ?_⟩
    have : remove_calls (op :: ops) =
        (if op.is_remove = true then 1 else 0) + remove_calls ops := by
      unfold remove_calls
      rw [List.filter_cons]
      split_ifs <;> simp [Nat.add_comm]
    omega

/-! ### Cutting a chain in two -/

/-- The split of `mergesort` on a chain of at least two nodes: `slow` ends on
the last node of the left half, which has `⌈n/2⌉` nodes, and cutting after it
leaves two chains. -/
theorem mergesort_cut {h : Heap} {p : Ptr} {L : List Ptr} {fuel : Nat}
    (hs : Seg h p L NULL) (hn : NULL ∉ L) (hlen : 2 ≤ L.length) (hf : L.length ≤ fuel) :
    ∃ s left right, mergesort_split fuel h p p = .ok s ∧ L = (left ++ [s]) ++ right ∧
      (left ++ [s]).length = (L.length + 1) / 2 ∧ right.length = L.length / 2 ∧
      Seg { h with next := fun q => if q = s then NULL else h.next q } p (left ++ [s]) NULL ∧
      Seg { h with next := fun q => if q = s then NULL else h.next q } (h.next s) right NULL := by
  have hne : L ≠ [] := by intro e; rw [e] at hlen; simp at hlen
  obtain ⟨s, S1, S2, es, hS, hl⟩ := mergesort_split_spec fuel L L p p hs hn hne hs hn
    (le_refl _) hf
  have ndL := Seg_nodup hs hn
  have hlenL : L.length = S1.length + 1 + S2.length := by rw [hS]; simp; omega
  rw [hS] at hs ndL
  obtain ⟨m, hseg1, hseg2⟩ := Seg_append.1 hs
  obtain ⟨rfl, hseg2⟩ := hseg2
  have nd := List.nodup_append.1 ndL
  have ndS2 := List.nodup_cons.1 nd.2.1
  have hsS1 : m ∉ S1 := fun hm => nd.2.2 hm (List.mem_cons_self _ _)
  refine ⟨m, S1, S2, es, by rw [hS]; simp, ?_, by omega, ?_, ?_⟩
  · simp only [List.length_append, List.length_singleton]; omega
  · refine Seg_append.2 ⟨m, Seg_frame ?_ hseg1, rfl, ?_⟩
    · intro z hz
      have : z ≠ m := fun e => hsS1 (e ▸ hz)
      simp [this]
    · show (if m = m then NULL else h.next m) = NULL
      simp
  · refine Seg_frame ?_ hseg2
    intro z hz
    have : z ≠ m := fun e => ndS2.1 (e ▸ hz)
    simp [this]

theorem pair_sublist_of_filter_eq {val : Ptr → Str} {L L' : List Ptr}
    (hst : ∀ s, L'.filter (fun z => decide (val z = s)) =
      L.filter (fun z => decide (val z = s)))
    {x y : Ptr} (hxy : val x = val y) (hs : List.Sublist [x, y] L) :
    List.Sublist [x, y] L' := by
  have h1 : List.Sublist ([x, y].filter (fun z => decide (val z = val x)))
      (L.filter (fun z => decide (val z = val x))) := hs.filter _
  rw [← hst] at h1
  have h2 : [x, y].filter (fun z => decide (val z = val x)) = [x, y] := by simp [hxy]
  rw [h2] at h1
  exact h1.trans (List.filter_sublist _)

/-! ## The claims -/

/-- Claim C1: on every ring (empty and single-element rings included) `q_sort`
returns, and the element sequence then read from the sentinel is a permutation
of the sequence before the call, non-decreasing by payload under `strcmp`, which
is the lexicographic order of the byte strings. -/
theorem q_sort_sorted_perm (h : Heap) (head : Ptr) (L : List Ptr) (fuel : Nat)
    (r : Ring h head L) (hf : L.length < fuel) :
    ∃ h' L', q_sort fuel h head = .ok h' ∧ Ring h' head L' ∧ elems fuel h' head = .ok L' ∧
      L'.Perm L ∧ L'.Pairwise (fun x y => strcmp (h'.value x) (h'.value y) ≤ 0) ∧
      L'.Pairwise (fun x y => h'.value x ≤ h'.value y) ∧ h'.value = h.value := by
  obtain ⟨h', L', e, r', perm, sorted, -, hv, -⟩ := q_sort_ring r hf
  have hs : L'.Pairwise (fun x y => strcmp (h'.value x) (h'.value y) ≤ 0) := by
    rw [hv]; exact sorted
  exact ⟨h', L', e, r', elems_ring r' (by rw [perm.length_eq]; exact hf), perm, hs,
    hs.imp (fun hxy => (strcmp_le_iff_le _ _).1 hxy), hv⟩

theorem q_sort_sorted_perm_witness :
    Ring (mkRing 1 [2, 3, 4, 5] caba) 1 [2, 3, 4, 5] ∧ [2, 3, 4, 5].length < 5 ∧
    ∃ h' L', q_sort 5 (mkRing 1 [2, 3, 4, 5] caba) 1 = .ok h' ∧ Ring h' 1 L' ∧
      elems 5 h' 1 = .ok L' ∧ L'.Perm [2, 3, 4, 5] ∧
      L'.Pairwise (fun x y => strcmp (h'.value x) (h'.value y) ≤ 0) ∧
      L'.Pairwise (fun x y => h'.value x ≤ h'.value y) ∧
      h'.value = (mkRing 1 [2, 3, 4, 5] caba).value :=
  ⟨by decide, by decide, q_sort_sorted_perm _ _ _ _ (by decide) (by decide)⟩

/-- Claim C2: `q_sort` is stable. Of two elements `x`, `y` with equal payloads,
`x` preceding `y` in the ring before the call, `x` still precedes `y` in the
ring after it; elements are nodes, told apart by address. -/
theorem q_sort_stable (h : Heap) (head : Ptr) (L : List Ptr) (fuel : Nat)
    (r : Ring h head L) (hf : L.length < fuel) :
    ∃ h' L', q_sort fuel h head = .ok h' ∧ Ring h' head L' ∧ h'.value = h.value ∧
      ∀ x y, h.value x = h.value y → List.Sublist [x, y] L → List.Sublist [x, y] L' := by
  obtain ⟨h', L', e, r', -, -, stab, hv, -⟩ := q_sort_ring r hf
  exact ⟨h', L', e, r', hv, fun x y hxy hs => pair_sublist_of_filter_eq stab hxy hs⟩

theorem q_sort_stable_witness :
    Ring (mkRing 1 [2, 3, 4, 5] caba) 1 [2, 3, 4, 5] ∧ [2, 3, 4, 5].length < 6 ∧
    ∃ h' L', q_sort 6 (mkRing 1 [2, 3, 4, 5] caba) 1 = .ok h' ∧ Ring h' 1 L' ∧
      h'.value = (mkRing 1 [2, 3, 4, 5] caba).value ∧
      ∀ x y, (mkRing 1 [2, 3, 4, 5] caba).value x = (mkRing 1 [2, 3, 4, 5] caba).value y →
        List.Sublist [x, y] [2, 3, 4, 5] → List.Sublist [x, y] L' :=
  ⟨by decide, by decide, q_sort_stable _ _ _ _ (by decide) (by decide)⟩

/-- Claim C3: on a ring whose payloads are sorted ascending, `q_delete_dup`
returns true and leaves exactly the elements whose payload occurs once in the
input, in their original order; the remaining payloads are pairwise distinct. -/
theorem q_delete_dup_sorted (h : Heap) (head : Ptr) (L : List Ptr) (fuel : Nat)
    (r : Ring h head L) (hs : SortedBy h.value L) (hf : L.length < fuel) :
    ∃ h' L', q_delete_dup fuel h head = .ok (h', true) ∧ Ring h' head L' ∧
      elems fuel h' head = .ok L' ∧
      L' = L.filter (fun z => decide ((L.map h.value).count (h.value z) = 1)) ∧
      (L'.map h'.value).Nodup ∧ h'.value = h.value := by
  obtain ⟨h', e, r', hv⟩ := q_delete_dup_ring r hf
  rw [dedup_sorted_false _ _ hs] at r'
  refine ⟨h', _, e, r', elems_ring r' ?_, rfl, ?_, hv⟩
  · exact lt_of_le_of_lt (List.length_filter_le _ _) hf
  · rw [hv]; exact nodup_filter_count_one _ _

theorem q_delete_dup_sorted_witness :
    Ring (mkRing 1 [2, 3, 4, 5, 6, 7] aabccc) 1 [2, 3, 4, 5, 6, 7] ∧
    SortedBy (mkRing 1 [2, 3, 4, 5, 6, 7] aabccc).value [2, 3, 4, 5, 6, 7] ∧
    [2, 3, 4, 5, 6, 7].length < 7 ∧
    ∃ h', q_delete_dup 7 (mkRing 1 [2, 3, 4, 5, 6, 7] aabccc) 1 = .ok (h', true) ∧
      Ring h' 1 [4] ∧ elems 7 h' 1 = .ok [4] ∧ [4].map h'.value = [[98]] := by
  refine ⟨by decide, by decide, by decide, ?_⟩
  obtain ⟨h', L', e, r', el, hL, -, hv⟩ :=
    q_delete_dup_sorted (mkRing 1 [2, 3, 4, 5, 6, 7] aabccc) 1 [2, 3, 4, 5, 6, 7] 7
      (by decide) (by decide) (by decide)
  have e4 : L' = [4] := hL.trans (by decide)
  subst e4
  exact ⟨h', e, r', el, by rw [hv]; rfl⟩

/-- Claim C4, at a ring of two elements and at a ring of six: `q_delete_mid`
removes the element at index `0` of two (not `⌊2/2⌋ = 1`) and the element at
index `2` of six (not `⌊6/2⌋ = 3`). -/
theorem q_delete_mid_even :
    (∃ h', q_delete_mid 3 (mkRing 1 [2, 3] letters) 1 = .ok (h', true) ∧
      elems 3 h' 1 = .ok [3] ∧ h'.released = [2]) ∧
    (∃ h', q_delete_mid 7 (mkRing 1 [2, 3, 4, 5, 6, 7] letters) 1 = .ok (h', true) ∧
      elems 7 h' 1 = .ok [2, 3, 5, 6, 7] ∧ h'.released = [4]) :=
  ⟨⟨_, rfl, rfl, rfl⟩, ⟨_, rfl, rfl, rfl⟩⟩

/-- Claim C5, at the empty ring and at the absent ring: on the empty ring
`q_delete_mid` returns true and hands the sentinel itself to
`q_release_element`; on `NULL` it dereferences the null pointer. -/
theorem q_delete_mid_empty_absent :
    (∃ h', q_delete_mid 2 (mkRing 1 [] letters) 1 = .ok (h', true) ∧ h'.released = [1]) ∧
    (∀ fuel h, q_delete_mid fuel h NULL = .error .null_deref) :=
  ⟨⟨_, rfl, rfl⟩, fun _ _ => rfl⟩

/-- Claim C6: after `q_swap` the element at position `2k` is the former element
at `2k+1` and conversely, for every `k` with `2k+1 < n`; when `n` is odd the
last element stays last. Nodes are relinked: payloads stay with their nodes. -/
theorem q_swap_pairs (h : Heap) (head : Ptr) (L : List Ptr) (fuel : Nat)
    (r : Ring h head L) (hf : L.length < fuel) :
    ∃ h' L', q_swap fuel h head = .ok h' ∧ Ring h' head L' ∧ elems fuel h' head = .ok L' ∧
      L'.length = L.length ∧
      (∀ k, 2 * k + 1 < L.length →
        L'[2 * k]? = L[2 * k + 1]? ∧ L'[2 * k + 1]? = L[2 * k]?) ∧
      (L.length % 2 = 1 → L'[L.length - 1]? = L[L.length - 1]?) ∧
      h'.value = h.value ∧ h'.released = h.released := by
  obtain ⟨h', e, r', hv, hr⟩ := q_swap_ring r hf
  exact ⟨h', swapPairs L, e, r', elems_ring r' (by rw [swapPairs_length]; exact hf),
    swapPairs_length L, swapPairs_getElem? L, swapPairs_last L, hv, hr⟩

theorem q_swap_pairs_witness :
    Ring (mkRing 1 [2, 3, 4, 5, 6] letters) 1 [2, 3, 4, 5, 6] ∧ [2, 3, 4, 5, 6].length < 6 ∧
    (∃ h' L', q_swap 6 (mkRing 1 [2, 3, 4, 5, 6] letters) 1 = .ok h' ∧ Ring h' 1 L' ∧
      elems 6 h' 1 = .ok L' ∧ L'.length = [2, 3, 4, 5, 6].length ∧
      (∀ k, 2 * k + 1 < [2, 3, 4, 5, 6].length →
        L'[2 * k]? = [2, 3, 4, 5, 6][2 * k + 1]? ∧ L'[2 * k + 1]? = [2, 3, 4, 5, 6][2 * k]?) ∧
      ([2, 3, 4, 5, 6].length % 2 = 1 →
        L'[[2, 3, 4, 5, 6].length - 1]? = [2, 3, 4, 5, 6][[2, 3, 4, 5, 6].length - 1]?) ∧
      h'.value = (mkRing 1 [2, 3, 4, 5, 6] letters).value ∧
      h'.released = (mkRing 1 [2, 3, 4, 5, 6] letters).released) ∧
    (q_swap 6 (mkRing 1 [2, 3, 4, 5, 6] letters) 1 >>= fun h => elems 6 h 1)
      = .ok [3, 2, 5, 4, 6] :=
  ⟨by decide, by decide, q_swap_pairs _ _ _ _ (by decide) (by decide), rfl⟩

/-- Claim C7: after `q_reverse` the element sequence of a ring is the reverse of
the one before, made of the same nodes with their payloads, none released; a
ring of at most one element is left as it is, and so is the heap when the ring
is absent. -/
theorem q_reverse_reverses (h : Heap) (head : Ptr) (L : List Ptr) (fuel : Nat)
    (r : Ring h head L) (hf : L.length < fuel) :
    (∃ h', q_reverse fuel h head = .ok h' ∧ Ring h' head L.reverse ∧
      elems fuel h' head = .ok L.reverse ∧ h'.value = h.value ∧
      h'.released = h.released ∧ (L.length ≤ 1 → h' = h)) ∧
    q_reverse fuel h NULL = .ok h := by
  obtain ⟨h', e, r', hv, hr, hsmall⟩ := q_reverse_ring r hf
  exact ⟨⟨h', e, r', elems_ring r' (by rw [List.length_reverse]; exact hf), hv, hr, hsmall⟩,
    q_reverse_null fuel h⟩

theorem q_reverse_reverses_witness :
    Ring (mkRing 1 [2, 3, 4, 5, 6] letters) 1 [2, 3, 4, 5, 6] ∧ [2, 3, 4, 5, 6].length < 6 ∧
    ((∃ h', q_reverse 6 (mkRing 1 [2, 3, 4, 5, 6] letters) 1 = .ok h' ∧
      Ring h' 1 [2, 3, 4, 5, 6].reverse ∧ elems 6 h' 1 = .ok [2, 3, 4, 5, 6].reverse ∧
      h'.value = (mkRing 1 [2, 3, 4, 5, 6] letters).value ∧
      h'.released = (mkRing 1 [2, 3, 4, 5, 6] letters).released ∧
      ([2, 3, 4, 5, 6].length ≤ 1 → h' = mkRing 1 [2, 3, 4, 5, 6] letters)) ∧
    q_reverse 6 (mkRing 1 [2, 3, 4, 5, 6] letters) NULL =
      .ok (mkRing 1 [2, 3, 4, 5, 6] letters)) :=
  ⟨by decide, by decide, q_reverse_reverses _ _ _ _ (by decide) (by decide)⟩

/-- Claim C8: `q_reverse` is an involution. Applied twice to a ring it gives
back the element sequence it started from, with the same payloads. -/
theorem q_reverse_involution (h : Heap) (head : Ptr) (L : List Ptr) (fuel : Nat)
    (r : Ring h head L) (hf : L.length < fuel) :
    ∃ h1 h2, q_reverse fuel h head = .ok h1 ∧ q_reverse fuel h1 head = .ok h2 ∧
      Ring h2 head L ∧ elems fuel h2 head = .ok L ∧ h2.value = h.value := by
  obtain ⟨h1, e1, r1, hv1, -, -⟩ := q_reverse_ring r hf
  obtain ⟨h2, e2, r2, hv2, -, -⟩ := q_reverse_ring r1 (by rw [List.length_reverse]; exact hf)
  rw [List.reverse_reverse] at r2
  exact ⟨h1, h2, e1, e2, r2, elems_ring r2 hf, hv2.trans hv1⟩

theorem q_reverse_involution_witness :
    Ring (mkRing 1 [2, 3, 4] letters) 1 [2, 3, 4] ∧ [2, 3, 4].length < 4 ∧
    ∃ h1 h2, q_reverse 4 (mkRing 1 [2, 3, 4] letters) 1 = .ok h1 ∧
      q_reverse 4 h1 1 = .ok h2 ∧ Ring h2 1 [2, 3, 4] ∧ elems 4 h2 1 = .ok [2, 3, 4] ∧
      h2.value = (mkRing 1 [2, 3, 4] letters).value :=
  ⟨by decide, by decide, q_reverse_involution _ _ _ _ (by decide) (by decide)⟩

/-- Claim C9, at a ring of one element and at a ring of three: whatever the
random source returns, `q_shuffle` leaves the forward traversal of a
one-element ring empty; on three elements with first draw `2` (the tail) and
then `0` the traversal is left with two elements. -/
theorem q_shuffle_loses_element :
    (elems 2 (mkRing 1 [2] letters) 1 = .ok [2] ∧
      ∀ rand : Nat → Nat, ∃ h', q_shuffle 2 rand (mkRing 1 [2] letters) 1 = .ok h' ∧
        elems 2 h' 1 = .ok []) ∧
    (q_shuffle 4 (draws [2, 0, 0]) (mkRing 1 [2, 3, 4] letters) 1 >>= fun h => elems 4 h 1)
      = .ok [2, 4] := by
  refine ⟨⟨rfl, ?_⟩, rfl⟩
  intro rand
  have e : q_shuffle 2 rand (mkRing 1 [2] letters) 1 =
      q_shuffle_loop 1 rand 0 (mkRing 1 [2] letters) 1 := rfl
  rw [e, q_shuffle_loop_one]
  exact ⟨_, rfl, rfl⟩

/-- Claim C10, at a ring of three distinct elements: the six draw sequences
`(x₃, x₂, x₁)` with `xᵢ < i` give the orders below. Two of them give the same
order, one gives no order of the three elements at all, and the orders
`[2, 3, 4]` and `[4, 2, 3]` are never reached. -/
theorem q_shuffle_three_draws :
    (q_shuffle 4 (draws [0, 0, 0]) (mkRing 1 [2, 3, 4] letters) 1 >>= fun h => elems 4 h 1)
      = .ok [4, 3, 2] ∧
    (q_shuffle 4 (draws [0, 1, 0]) (mkRing 1 [2, 3, 4] letters) 1 >>= fun h => elems 4 h 1)
      = .ok [3, 2, 4] ∧
    (q_shuffle 4 (draws [1, 0, 0]) (mkRing 1 [2, 3, 4] letters) 1 >>= fun h => elems 4 h 1)
      = .ok [2, 4, 3] ∧
    (q_shuffle 4 (draws [1, 1, 0]) (mkRing 1 [2, 3, 4] letters) 1 >>= fun h => elems 4 h 1)
      = .ok [4, 3, 2] ∧
    (q_shuffle 4 (draws [2, 0, 0]) (mkRing 1 [2, 3, 4] letters) 1 >>= fun h => elems 4 h 1)
      = .ok [2, 4] ∧
    (q_shuffle 4 (draws [2, 1, 0]) (mkRing 1 [2, 3, 4] letters) 1 >>= fun h => elems 4 h 1)
      = .ok [3, 4, 2] :=
  ⟨rfl, rfl, rfl, rfl, rfl, rfl⟩

/-! ## The claims, continued -/

/-- Claim C11, at the ring of one element: on the empty ring `q_shuffle` returns
the heap as it was, but on a ring of one element, whatever the random source
returns, it leaves the sentinel's `next` at the sentinel and the element's
`prev` at the element, which is not a ring and reads as empty. -/
theorem q_shuffle_single_breaks_ring :
    (∀ rand : Nat → Nat,
      q_shuffle 1 rand (mkRing 1 [] letters) 1 = .ok (mkRing 1 [] letters)) ∧
    Ring (mkRing 1 [2] letters) 1 [2] ∧
    ∀ rand : Nat → Nat, ∃ h', q_shuffle 2 rand (mkRing 1 [2] letters) 1 = .ok h' ∧
      h'.next 1 = 1 ∧ h'.prev 1 = 2 ∧ h'.next 2 = 1 ∧ h'.prev 2 = 2 ∧
      elems 2 h' 1 = .ok [] ∧ ¬ Ring h' 1 [2] := by
  refine ⟨fun _ => rfl, by decide, ?_⟩
  intro rand
  have e : q_shuffle 2 rand (mkRing 1 [2] letters) 1 =
      q_shuffle_loop 1 rand 0 (mkRing 1 [2] letters) 1 := rfl
  rw [e, q_shuffle_loop_one]
  exact ⟨_, rfl, rfl, rfl, rfl, rfl, rfl, by decide⟩

/-- Claim C12: after `q_sort` the ring invariant holds again. The heap holds a
ring of the same nodes; at every node and at the sentinel `prev` undoes `next`
and `next` undoes `prev`; the `next` chain from the sentinel runs through the
sorted elements back to the sentinel, whose `prev` is the last of them. Empty
and one-element rings are included. -/
theorem q_sort_ring_invariant (h : Heap) (head : Ptr) (L : List Ptr) (fuel : Nat)
    (r : Ring h head L) (hf : L.length < fuel) :
    ∃ h' L', q_sort fuel h head = .ok h' ∧ Ring h' head L' ∧ L'.Perm L ∧
      (∀ x, x ∈ head :: L' → h'.prev (h'.next x) = x ∧ h'.next (h'.prev x) = x) ∧
      Seg h' (h'.next head) L' head ∧
      h'.prev head = L'.getLastD head ∧ h'.next (L'.getLastD head) = head := by
  obtain ⟨h', L', e, r', perm, -⟩ := q_sort_ring r hf
  exact ⟨h', L', e, r', perm, fun x hx => r'.next_prev hx, Seg_of_Linked r'.linked,
    r'.prev_head, r'.next_last⟩

theorem q_sort_ring_invariant_witness :
    Ring (mkRing 1 [2, 3, 4, 5] caba) 1 [2, 3, 4, 5] ∧ [2, 3, 4, 5].length < 7 ∧
    ∃ h' L', q_sort 7 (mkRing 1 [2, 3, 4, 5] caba) 1 = .ok h' ∧ Ring h' 1 L' ∧
      L'.Perm [2, 3, 4, 5] ∧
      (∀ x, x ∈ 1 :: L' → h'.prev (h'.next x) = x ∧ h'.next (h'.prev x) = x) ∧
      Seg h' (h'.next 1) L' 1 ∧
      h'.prev 1 = L'.getLastD 1 ∧ h'.next (L'.getLastD 1) = 1 :=
  ⟨by decide, by decide, q_sort_ring_invariant _ _ _ _ (by decide) (by decide)⟩

/-- Claim C13 as stated fails: a removal called on the empty ring returns `NULL`
and removes nothing. After it and one successful insertion there are `N = 1`
successful insertions and `M = 1` removal calls, `M ≤ N`, and `q_size` returns
`1`, not `N - M = 0`. -/
theorem size_after_remove_on_empty :
    ∃ h', run_ops 1 remove_first_ops (mkRing 1 [] letters) = .ok (h', 1, 0) ∧
      remove_calls remove_first_ops = 1 ∧ q_size 2 h' 1 = .ok 1 ∧ (1 : Nat) ≠ 1 - 1 :=
  ⟨_, rfl, rfl, rfl, by decide⟩

/-- Claim C13, amended: after any sequence of calls on an initially empty ring,
of which `N` insertions returned true and `M` removals returned an element,
`M ≤ N` and `q_size` returns `N - M`; a removal called on the empty ring counts
for nothing. `q_size` of an absent ring is `0`. -/
theorem size_consistency (h : Heap) (head : Ptr) (ops : List Op)
    (r : Ring h head []) (henv : EnvOK head [] ops) :
    (∃ h' N M, run_ops head ops h = .ok (h', N, M) ∧ M ≤ N ∧ M ≤ remove_calls ops ∧
      ∀ fuel, N - M < fuel → q_size fuel h' head = .ok (N - M)) ∧
    ∀ fuel h0, q_size fuel h0 NULL = .ok 0 := by
  obtain ⟨h', ni, nr, L', e, r', hlen, hnr⟩ := run_ops_ring head ops [] h r henv
  simp only [List.length_nil, Nat.zero_add] at hlen
  refine ⟨⟨h', ni, nr, e, by omega, hnr, ?_⟩, fun _ _ => rfl⟩
  intro fuel hf
  have hL : L'.length = ni - nr := by omega
  rw [← hL]
  exact q_size_ring r' (by omega)

theorem size_consistency_witness :
    Ring (mkRing 1 [] letters) 1 [] ∧ EnvOK 1 [] sample_ops ∧
    ((∃ h' N M, run_ops 1 sample_ops (mkRing 1 [] letters) = .ok (h', N, M) ∧ M ≤ N ∧
      M ≤ remove_calls sample_ops ∧
      ∀ fuel, N - M < fuel → q_size fuel h' 1 = .ok (N - M)) ∧
    ∀ fuel h0, q_size fuel h0 NULL = .ok 0) :=
  ⟨by decide, by decide, size_consistency _ _ _ (by decide) (by decide)⟩

/-- Claim C14: insertion and removal at the same end undo each other. On a ring
with elements `L`, a successful `q_insert_head` of `v` gives `e :: L`, and
`q_remove_head` right after returns `e`, still holding `v` and not released, and
leaves `L`; likewise `q_insert_tail` gives `L ++ [e]` and `q_remove_tail` returns
`e` and leaves `L`. -/
theorem insert_remove_round_trip (h : Heap) (head : Ptr) (L : List Ptr) (v : Str) (e : Ptr)
    (sp : Option Buf) (n : Nat) (r : Ring h head L) (he : e ≠ NULL) (hh : e ≠ head)
    (hL : e ∉ L) (hb : BufOK sp n) :
    (∃ h1 h2 sp', q_insert_head h head v e true = .ok (h1, true) ∧ Ring h1 head (e :: L) ∧
      h1.value e = v ∧ q_remove_head h1 head sp n = .ok (h2, e, sp') ∧ h2.value e = v ∧
      Ring h2 head L ∧ h2.released = h.released) ∧
    (∃ h1 h2 sp', q_insert_tail h head v e true = .ok (h1, true) ∧ Ring h1 head (L ++ [e]) ∧
      h1.value e = v ∧ q_remove_tail h1 head sp n = .ok (h2, e, sp') ∧ h2.value e = v ∧
      Ring h2 head L ∧ h2.released = h.released) := by
  constructor
  · obtain ⟨h1, e1, r1, v1, -, f1⟩ :=
      (q_insert_head_ring r v e true (fun _ => ⟨hh, hL⟩)).1 ⟨he, rfl⟩
    obtain ⟨h2, sp', e2, r2, v2, f2, -⟩ := q_remove_head_ring r1 sp n (fun buf e => hb.of_some e)
    exact ⟨h1, h2, sp', e1, r1, v1, e2, by rw [v2]; exact v1, r2, f2.trans f1⟩
  · obtain ⟨h1, e1, r1, v1, -, f1⟩ :=
      (q_insert_tail_ring r v e true (fun _ => ⟨hh, hL⟩)).1 ⟨he, rfl⟩
    obtain ⟨h2, sp', e2, r2, v2, f2, -⟩ := q_remove_tail_ring r1 sp n (fun buf e => hb.of_some e)
    exact ⟨h1, h2, sp', e1, r1, v1, e2, by rw [v2]; exact v1, r2, f2.trans f1⟩

theorem insert_remove_round_trip_witness :
    Ring (mkRing 1 [] letters) 1 [] ∧ (2 : Ptr) ≠ NULL ∧ (2 : Ptr) ≠ 1 ∧ (2 : Ptr) ∉ [] ∧
    BufOK (some [7, 7, 7, 7]) 4 ∧
    ((∃ h1 h2 sp', q_insert_head (mkRing 1 [] letters) 1 [97, 98, 99] 2 true = .ok (h1, true) ∧
      Ring h1 1 (2 :: []) ∧ h1.value 2 = [97, 98, 99] ∧
      q_remove_head h1 1 (some [7, 7, 7, 7]) 4 = .ok (h2, 2, sp') ∧
      h2.value 2 = [97, 98, 99] ∧ Ring h2 1 [] ∧
      h2.released = (mkRing 1 [] letters).released) ∧
    (∃ h1 h2 sp', q_insert_tail (mkRing 1 [] letters) 1 [97, 98, 99] 2 true = .ok (h1, true) ∧
      Ring h1 1 ([] ++ [2]) ∧ h1.value 2 = [97, 98, 99] ∧
      q_remove_tail h1 1 (some [7, 7, 7, 7]) 4 = .ok (h2, 2, sp') ∧
      h2.value 2 = [97, 98, 99] ∧ Ring h2 1 [] ∧
      h2.released = (mkRing 1 [] letters).released)) :=
  ⟨by decide, by decide, by decide, by decide, by decide,
    insert_remove_round_trip _ _ _ _ _ _ _ (by decide) (by decide) (by decide) (by decide)
      (by decide)⟩

/-- Claim C15 as stated fails at capacity `0`: with a buffer given and
`bufsize = 0`, `bufsize - 1` wraps around to `SIZE_MAX`, and `q_remove_head` and
`q_remove_tail` write past the end of the buffer, be it of no byte or of
three. -/
theorem remove_zero_capacity_overflows :
    q_remove_head (mkRing 1 [2] letters) 1 (some []) 0 = .error .out_of_bounds ∧
    q_remove_tail (mkRing 1 [2] letters) 1 (some []) 0 = .error .out_of_bounds ∧
    q_remove_head (mkRing 1 [2] letters) 1 (some [7, 7, 7]) 0 = .error .out_of_bounds ∧
    q_remove_tail (mkRing 1 [2] letters) 1 (some [7, 7, 7]) 0 = .error .out_of_bounds :=
  ⟨rfl, rfl, rfl, rfl⟩

/-- Claim C15, amended to capacities `cap ≥ 1`: when `q_remove_head` or
`q_remove_tail` removes the element `x` with payload `p` and is given a buffer
with room for `cap` bytes, the buffer afterwards holds the first
`k = min (length p) (cap - 1)` bytes of `p`, then zero bytes up to index
`cap - 1` included (so a terminator at index `k`), and from index `cap` on what
it held before. -/
theorem remove_truncating_copy (h : Heap) (head x : Ptr) (L : List Ptr) (buf : Buf)
    (cap : Nat) (h1 : 1 ≤ cap) (h2 : cap ≤ buf.length) (h3 : cap < SIZE_MOD) :
    (Ring h head (x :: L) →
      ∃ h' buf', q_remove_head h head (some buf) cap = .ok (h', x, some buf') ∧
        buf' = (h.value x).take (min (h.value x).length (cap - 1)) ++
          List.replicate (cap - min (h.value x).length (cap - 1)) 0 ++ buf.drop cap ∧
        buf'.length = buf.length ∧ buf'.drop cap = buf.drop cap ∧
        buf'.take (min (h.value x).length (cap - 1)) =
          (h.value x).take (min (h.value x).length (cap - 1)) ∧
        buf'[min (h.value x).length (cap - 1)]? = some 0) ∧
    (Ring h head (L ++ [x]) →
      ∃ h' buf', q_remove_tail h head (some buf) cap = .ok (h', x, some buf') ∧
        buf' = (h.value x).take (min (h.value x).length (cap - 1)) ++
          List.replicate (cap - min (h.value x).length (cap - 1)) 0 ++ buf.drop cap ∧
        buf'.length = buf.length ∧ buf'.drop cap = buf.drop cap ∧
        buf'.take (min (h.value x).length (cap - 1)) =
          (h.value x).take (min (h.value x).length (cap - 1)) ∧
        buf'[min (h.value x).length (cap - 1)]? = some 0) := by
  have key : ∀ (v : Str) (b : Buf), b = v.take (min v.length (cap - 1)) ++
      List.replicate (cap - min v.length (cap - 1)) 0 ++ buf.drop cap →
      b.length = buf.length ∧ b.drop cap = buf.drop cap ∧
      b.take (min v.length (cap - 1)) = v.take (min v.length (cap - 1)) ∧
      b[min v.length (cap - 1)]? = some 0 := by
    intro v b hb
    have hk : min v.length (cap - 1) ≤ v.length := Nat.min_le_left _ _
    have hk' : min v.length (cap - 1) ≤ cap - 1 := Nat.min_le_right _ _
    have hlt : (v.take (min v.length (cap - 1))).length = min v.length (cap - 1) := by
      rw [List.length_take]; omega
    have hl2 : (v.take (min v.length (cap - 1)) ++
        List.replicate (cap - min v.length (cap - 1)) 0).length = cap := by
      rw [List.length_append, hlt, List.length_replicate]; omega
    subst hb
    refine ⟨?_, ?_, ?_, ?_⟩
    · rw [List.length_append, hl2, List.length_drop]; omega
    · rw [List.drop_append_of_le_length (by rw [hl2]), List.drop_of_length_le (by rw [hl2])]
      rfl
    · rw [List.append_assoc, List.take_append_of_le_length (by rw [hlt]),
        List.take_of_length_le (by rw [hlt])]
    · rw [List.append_assoc, List.getElem?_append_right (by rw [hlt]), hlt, Nat.sub_self,
        show cap - min v.length (cap - 1) = (cap - min v.length (cap - 1) - 1) + 1 by omega,
        List.replicate_succ]
      simp
  constructor
  · intro r
    obtain ⟨h', sp', e1, -, hv, -, -, hsome⟩ :=
      q_remove_head_ring r (some buf) cap (fun b e => by cases e; exact ⟨h1, h2⟩)
    obtain ⟨buf', e2, rfl⟩ := hsome buf rfl
    rw [copy_out_spec h' buf (r.mem_ne_null (by simp)) h1 h2 h3, hv] at e2
    have hb := (Except.ok.inj e2).symm
    exact ⟨h', buf', e1, hb, key _ _ hb⟩
  · intro r
    obtain ⟨h', sp', e1, -, hv, -, -, hsome⟩ :=
      q_remove_tail_ring r (some buf) cap (fun b e => by cases e; exact ⟨h1, h2⟩)
    obtain ⟨buf', e2, rfl⟩ := hsome buf rfl
    rw [copy_out_spec h' buf (r.mem_ne_null (by simp)) h1 h2 h3, hv] at e2
    have hb := (Except.ok.inj e2).symm
    exact ⟨h', buf', e1, hb, key _ _ hb⟩

theorem remove_truncating_copy_witness :
    1 ≤ 3 ∧ 3 ≤ [7, 7, 7, 7, 7].length ∧ 3 < SIZE_MOD ∧
    Ring (mkRing 1 [2, 3] words) 1 (2 :: [3]) ∧
    (∃ h' buf', q_remove_head (mkRing 1 [2, 3] words) 1 (some [7, 7, 7, 7, 7]) 3 =
        .ok (h', 2, some buf') ∧ buf' = [97, 98, 0, 7, 7]) ∧
    Ring (mkRing 1 [2, 3] words) 1 ([2] ++ [3]) ∧
    (∃ h' buf', q_remove_tail (mkRing 1 [2, 3] words) 1 (some [7, 7, 7, 7, 7]) 3 =
        .ok (h', 3, some buf') ∧ buf' = [97, 98, 0, 7, 7]) := by
  have hw := remove_truncating_copy (mkRing 1 [2, 3] words) 1 2 [3] [7, 7, 7, 7, 7] 3
    (by decide) (by decide) (by decide)
  have ht := remove_truncating_copy (mkRing 1 [2, 3] words) 1 3 [2] [7, 7, 7, 7, 7] 3
    (by decide) (by decide) (by decide)
  refine ⟨by decide, by decide, by decide, by decide, ?_, by decide, ?_⟩
  · obtain ⟨h', buf', e, hb, -⟩ := hw.1 (by decide)
    exact ⟨h', buf', e, hb.trans (by decide)⟩
  · obtain ⟨h', buf', e, hb, -⟩ := ht.2 (by decide)
    exact ⟨h', buf', e, hb.trans (by decide)⟩

/-- Claim C16: a failing insertion changes nothing. `q_insert_head` and
`q_insert_tail` return false and leave the heap as it was when the ring is
absent, when `malloc` fails or when `strdup` fails; otherwise they return true
and the ring has one more element, at the front or at the back, holding a copy
of the string, the other payloads being untouched. -/
theorem insert_failure_atomic (h : Heap) (head : Ptr) (L : List Ptr) (s : Str) (e : Ptr)
    (dup : Bool) (r : Ring h head L) (hfresh : e ≠ NULL → e ≠ head ∧ e ∉ L) :
    (q_insert_head h NULL s e dup = .ok (h, false) ∧
      q_insert_tail h NULL s e dup = .ok (h, false)) ∧
    (e = NULL ∨ dup = false →
      q_insert_head h head s e dup = .ok (h, false) ∧
      q_insert_tail h head s e dup = .ok (h, false)) ∧
    (e ≠ NULL ∧ dup = true →
      (∃ h', q_insert_head h head s e dup = .ok (h', true) ∧ Ring h' head (e :: L) ∧
        h'.value e = s ∧ (∀ q, q ≠ e → h'.value q = h.value q)) ∧
      (∃ h', q_insert_tail h head s e dup = .ok (h', true) ∧ Ring h' head (L ++ [e]) ∧
        h'.value e = s ∧ (∀ q, q ≠ e → h'.value q = h.value q))) := by
  obtain ⟨hy1, hn1⟩ := q_insert_head_ring r s e dup hfresh
  obtain ⟨hy2, hn2⟩ := q_insert_tail_ring r s e dup hfresh
  refine ⟨⟨q_insert_head_null h s e dup, q_insert_tail_null h s e dup⟩, ?_, ?_⟩
  · intro hfail
    have hc : ¬ (e ≠ NULL ∧ dup = true) := by
      rintro ⟨he, hd⟩
      rcases hfail with h0 | h0
      · exact he h0
      · rw [hd] at h0; cases h0
    exact ⟨hn1 hc, hn2 hc⟩
  · intro hc
    obtain ⟨h1, e1, r1, v1, o1, -⟩ := hy1 hc
    obtain ⟨h2, e2, r2, v2, o2, -⟩ := hy2 hc
    exact ⟨⟨h1, e1, r1, v1, o1⟩, ⟨h2, e2, r2, v2, o2⟩⟩

theorem insert_failure_atomic_witness :
    Ring (mkRing 1 [2, 3] letters) 1 [2, 3] ∧ ((4 : Ptr) ≠ NULL → (4 : Ptr) ≠ 1 ∧ 4 ∉ [2, 3]) ∧
    (∃ h', q_insert_head (mkRing 1 [2, 3] letters) 1 [104, 105] 4 true = .ok (h', true) ∧
      Ring h' 1 (4 :: [2, 3]) ∧ h'.value 4 = [104, 105]) :=
  ⟨by decide, by decide,
    let ⟨h', e1, r1, v1, _⟩ :=
      ((insert_failure_atomic (mkRing 1 [2, 3] letters) 1 [2, 3] [104, 105] 4 true
        (by decide) (by decide)).2.2 ⟨by decide, rfl⟩).1
    ⟨h', e1, r1, v1⟩⟩

/-- Claim C17: `q_delete_dup` returns false exactly for the absent ring. On a
ring in which no two adjacent elements hold equal payloads, the empty ring
included, it returns true and leaves the heap, so the element sequence, as it
was. -/
theorem q_delete_dup_no_adjacent (h : Heap) (head : Ptr) (L : List Ptr) (fuel : Nat)
    (r : Ring h head L) (hna : NoAdjDup h.value L) (hf : L.length < fuel) :
    (q_delete_dup fuel h head = .ok (h, true) ∧ elems fuel h head = .ok L) ∧
    (∀ fuel0 h0, q_delete_dup fuel0 h0 NULL = .ok (h0, false)) ∧
    (∀ fuel0 h0 head0 h1 b, q_delete_dup fuel0 h0 head0 = .ok (h1, b) →
      (b = false ↔ head0 = NULL)) :=
  ⟨⟨q_delete_dup_noadj r hna hf, elems_ring r hf⟩, fun _ _ => rfl,
    fun _ _ _ _ _ e => q_delete_dup_false_iff e⟩

theorem q_delete_dup_no_adjacent_witness :
    Ring (mkRing 1 [2, 3, 4, 5] caba) 1 [2, 3, 4, 5] ∧
    NoAdjDup (mkRing 1 [2, 3, 4, 5] caba).value [2, 3, 4, 5] ∧ [2, 3, 4, 5].length < 5 ∧
    q_delete_dup 5 (mkRing 1 [2, 3, 4, 5] caba) 1 = .ok (mkRing 1 [2, 3, 4, 5] caba, true) :=
  ⟨by decide, by decide, by decide,
    (q_delete_dup_no_adjacent (mkRing 1 [2, 3, 4, 5] caba) 1 [2, 3, 4, 5] 5
      (by decide) (by decide) (by decide)).1.1⟩

/-- Claim C18: on every ring, sorted or not, `q_delete_dup` keeps, in their
order, exactly the elements whose payload differs from that of the element
before (if any) and of the element after (if any), and removes the others, which
are the members of the runs of two or more equal payloads. -/
theorem q_delete_dup_isolated (h : Heap) (head : Ptr) (L : List Ptr) (fuel : Nat)
    (r : Ring h head L) (hf : L.length < fuel) :
    ∃ h' L', q_delete_dup fuel h head = .ok (h', true) ∧ Ring h' head L' ∧
      elems fuel h' head = .ok L' ∧ L' = isolated h.value none L ∧ List.Sublist L' L ∧
      (∀ x, x ∈ L' ↔ ∃ A B, L = A ++ x :: B ∧
        (∀ p, A.getLast? = some p → h.value p ≠ h.value x) ∧
        (∀ n, B.head? = some n → h.value n ≠ h.value x)) ∧
      h'.value = h.value := by
  obtain ⟨h', e, r', hv⟩ := q_delete_dup_ring r hf
  rw [dedup_false_eq_isolated] at r'
  have hsub := isolated_sublist h.value L none
  refine ⟨h', _, e, r', elems_ring r' (lt_of_le_of_lt hsub.length_le hf), rfl, hsub, ?_, hv⟩
  intro x
  rw [mem_isolated]
  constructor
  · rintro ⟨A, B, hAB, d1, d2⟩
    exact ⟨A, B, hAB, fun p hp => d1 p (by simp [hp]), d2⟩
  · rintro ⟨A, B, hAB, d1, d2⟩
    exact ⟨A, B, hAB, fun p hp => d1 p (by simpa using hp), d2⟩

theorem q_delete_dup_isolated_witness :
    Ring (mkRing 1 [2, 3, 4, 5] aaba) 1 [2, 3, 4, 5] ∧ [2, 3, 4, 5].length < 5 ∧
    ∃ h', q_delete_dup 5 (mkRing 1 [2, 3, 4, 5] aaba) 1 = .ok (h', true) ∧
      Ring h' 1 [4, 5] := by
  refine ⟨by decide, by decide, ?_⟩
  obtain ⟨h', L', e, r', -, hL, -⟩ :=
    q_delete_dup_isolated (mkRing 1 [2, 3, 4, 5] aaba) 1 [2, 3, 4, 5] 5
      (by decide) (by decide)
  have e4 : L' = [4, 5] := hL.trans (by decide)
  subst e4
  exact ⟨h', e, r'⟩

/-- Claim C19: on a ring of `n ≥ 1` elements the slow cursor of `q_delete_mid`
stops on the element at index `(n - 1) / 2`, and that element is the one
unlinked and released, the others keeping their order; the call returns true. -/
theorem q_delete_mid_index (h : Heap) (head : Ptr) (L : List Ptr) (fuel : Nat)
    (r : Ring h head L) (hne : L ≠ []) (hf : L.length ≤ fuel) :
    ∃ s h', L[(L.length - 1) / 2]? = some s ∧
      q_delete_mid_loop fuel h head (h.next head) (h.next head) = .ok s ∧
      q_delete_mid fuel h head = .ok (h', true) ∧
      Ring h' head (L.eraseIdx ((L.length - 1) / 2)) ∧
      h'.released = h.released ++ [s] ∧ h'.value = h.value := by
  obtain ⟨s0, T1, T2, e0, hT, hl0⟩ := q_delete_mid_loop_ring fuel [] L [] L
    (by simpa using r) rfl hne (le_refl _) hf
  obtain ⟨h', S1, s, S2, e, hS, hl, r', hv, hr⟩ := q_delete_mid_ring r hne hf
  have hsame : T1 = S1 ∧ s0 :: T2 = s :: S2 :=
    List.append_inj (hT.symm.trans hS) (by rw [hl0, hl])
  have hs : s0 = s := (List.cons.inj hsame.2).1
  rw [hs] at e0
  rw [← r.next_head] at e0
  refine ⟨s, h', ?_, e0, e, ?_, hr, hv⟩
  · rw [← hl, hS, List.getElem?_append_right (le_refl _), Nat.sub_self]
    simp
  · rw [← hl, hS, List.eraseIdx_append_of_length_le (le_refl _), Nat.sub_self]
    exact r'

theorem q_delete_mid_index_witness :
    Ring (mkRing 1 [2, 3, 4, 5, 6, 7] letters) 1 [2, 3, 4, 5, 6, 7] ∧
    [2, 3, 4, 5, 6, 7] ≠ [] ∧ [2, 3, 4, 5, 6, 7].length ≤ 6 ∧
    ∃ h', q_delete_mid 6 (mkRing 1 [2, 3, 4, 5, 6, 7] letters) 1 = .ok (h', true) ∧
      Ring h' 1 [2, 3, 5, 6, 7] ∧ h'.released = [4] := by
  refine ⟨by decide, by decide, by decide, ?_⟩
  obtain ⟨s, h', hs, -, e, r', hr, -⟩ :=
    q_delete_mid_index (mkRing 1 [2, 3, 4, 5, 6, 7] letters) 1 [2, 3, 4, 5, 6, 7] 6
      (by decide) (by decide) (by decide)
  have e4 : s = 4 := (Option.some.inj hs).symm
  subst e4
  exact ⟨h', e, r', hr⟩

/-- Claim C20: `mergesort` terminates on every chain that ends in `NULL`. With
fuel above the length it returns a chain of the same nodes and no access goes
through `NULL`; on `n ≥ 2` nodes the split loop stops on the last node of the
left half, which has `⌈n/2⌉` nodes while the right half has `⌊n/2⌋`, both
non-empty and shorter than `n`, and the cut leaves the two halves as chains
ending in `NULL`. -/
theorem mergesort_terminates (h : Heap) (p : Ptr) (L : List Ptr) (fuel : Nat)
    (hs : Seg h p L NULL) (hn : NULL ∉ L) (hf : L.length < fuel) :
    (∃ h' p' L', mergesort fuel h p = .ok (h', p') ∧ Seg h' p' L' NULL ∧ L'.Perm L ∧
      mergesort fuel h p ≠ .error .null_deref) ∧
    (2 ≤ L.length →
      ∃ s left right, mergesort_split fuel h p p = .ok s ∧ L = left ++ right ∧
        left.getLast? = some s ∧
        left.length = (L.length + 1) / 2 ∧ right.length = L.length / 2 ∧
        left ≠ [] ∧ right ≠ [] ∧ left.length < L.length ∧ right.length < L.length ∧
        Seg { h with next := fun q => if q = s then NULL else h.next q } p left NULL ∧
        Seg { h with next := fun q => if q = s then NULL else h.next q } (h.next s) right
          NULL) := by
  constructor
  · obtain ⟨h', p', L', e, seg, perm, -⟩ := mergesort_spec fuel L h p hs hn (Seg_nodup hs hn) hf
    exact ⟨h', p', L', e, seg, perm, by rw [e]; exact fun c => by cases c⟩
  · intro hlen
    obtain ⟨s, left, right, es, hL, hl1, hl2, seg1, seg2⟩ :=
      mergesort_cut hs hn hlen (le_of_lt hf)
    refine ⟨s, left ++ [s], right, es, hL, by simp, hl1, hl2, by simp, ?_, by omega, by omega,
      seg1, seg2⟩
    intro e
    rw [e] at hl2
    simp at hl2
    omega

theorem mergesort_terminates_witness :
    Seg (mkChain [2, 3, 4, 5, 6] caba) 2 [2, 3, 4, 5, 6] NULL ∧
    NULL ∉ [2, 3, 4, 5, 6] ∧ [2, 3, 4, 5, 6].length < 6 ∧
    mergesort_split 6 (mkChain [2, 3, 4, 5, 6] caba) 2 2 = .ok 4 ∧
    (∃ h' p' L', mergesort 6 (mkChain [2, 3, 4, 5, 6] caba) 2 = .ok (h', p') ∧
      Seg h' p' L' NULL ∧ L'.Perm [2, 3, 4, 5, 6]) := by
  have hs : Seg (mkChain [2, 3, 4, 5, 6] caba) 2 [2, 3, 4, 5, 6] NULL :=
    ⟨rfl, rfl, rfl, rfl, rfl, rfl⟩
  obtain ⟨⟨h', p', L', e, seg, perm, -⟩, -⟩ :=
    mergesort_terminates (mkChain [2, 3, 4, 5, 6] caba) 2 [2, 3, 4, 5, 6] 6 hs
      (by decide) (by decide)
  exact ⟨hs, by decide, by decide, rfl, h', p', L', e, seg, perm⟩

end Queue
